import Mathlib

/-! Pool allocator (`pool_alloc.inc.h`).

A shallow embedding of the fixed-size pool allocator: the class header, the
holders (slabs) with their intrusive free list and doubly linked ready list,
and the operations `pool_holder_alloc`, `pool_holder_unchaing`, `entry_holder`,
`pool_free_entry`, `pool_alloc_entry` and `pool_finalize_header`.

Memory is modelled component-wise: one map per field of `struct pool_holder`,
indexed by the holder's address, and one map for the words of the entries,
indexed by byte address.  Pointers are natural numbers, `0` is `NULL`; the
counters of type `pool_holder_counter` wrap modulo `2 ^ 32`.
A dereference of a pointer that does not point into a chunk currently held
from the OS backend makes the operation undefined (`none` / `Outcome.undef`).

The collaborators are an environment: the answers of `aligned_malloc`, the
result of `garbage_collect_with_gvl`, and the entries of the class that the
collections run by `vm_malloc_prepare` and `garbage_collect_with_gvl` free,
are inputs of `pool_alloc_entry`; every collaborator call is recorded in a log
together with the lock word at the time of the call.  The collector's own
bookkeeping (`malloc_increase`, `malloc_params`) is not part of the model.
`lock_header` and `unlock_header` are modelled on their path
`living_threads() == 1`.
-/

namespace PoolAlloc

/-! ## Platform parameters and the sizing macros -/

/-- Platform and build parameters that the header file takes from its surroundings. -/
structure Config where
  /-- Value of `sizeof(void*)`. -/
  W : Nat
  /-- The macro `HEAP_ALIGN_LOG`, when the build defines it. -/
  HEAP_ALIGN_LOG : Option Nat
  /-- Value of `offsetof(pool_holder, data)`. -/
  offset_data : Nat
  /-- Address of the `pool_header` of the class under study. -/
  header_addr : Nat

/-- Modulus of `unsigned int` (`pool_holder_counter`). -/
def UINT_MOD : Nat := 2 ^ 32

/-- Modulus of `size_t` and `uintptr_t`: `8 * sizeof(void*)` bits. -/
def SIZE_MOD (c : Config) : Nat := 2 ^ (8 * c.W)

/-- Subtraction `a - b` of unsigned machine integers modulo `m`. -/
def usub (m a b : Nat) : Nat :=
  if b % m ≤ a % m then a % m - b % m else m - (b % m - a % m)

/-- The macro `DEFAULT_POOL_SIZE`. -/
def DEFAULT_POOL_SIZE (c : Config) : Nat :=
  match c.HEAP_ALIGN_LOG with
  | some k => 1 <<< k
  | none => (c.W * 2048) % SIZE_MOD c

/-- The macro `POOL_DATA_SIZE(pool_size)`, in `size_t` arithmetic. -/
def POOL_DATA_SIZE (c : Config) (pool_size : Nat) : Nat :=
  usub (SIZE_MOD c) (usub (SIZE_MOD c) pool_size (c.W * 6)) c.offset_data / c.W

/-- The macro `POOL_ENTRY_SIZE(item_type)`, for `sizeof(item_type) = s`. -/
def POOL_ENTRY_SIZE (c : Config) (s : Nat) : Nat :=
  (usub (SIZE_MOD c) s 1 / c.W + 1) % SIZE_MOD c

/-- The macro `POOL_HOLDER_COUNT(pool_size, item_type)`. -/
def POOL_HOLDER_COUNT (c : Config) (pool_size s : Nat) : Nat :=
  POOL_DATA_SIZE c pool_size / POOL_ENTRY_SIZE c s

/-- The class header `struct pool_header`. -/
structure pool_header where
  /-- Head of the ready list (`0` is `NULL`). -/
  first : Nat
  /-- The spin lock word. -/
  lock : Nat
  /-- Size of an entry in words. -/
  size : Nat
  /-- Number of entries of a holder. -/
  total : Nat
deriving DecidableEq

/-- The initialiser `INIT_POOL(item_type)`; the two counters are `unsigned int`. -/
def INIT_POOL (c : Config) (s : Nat) : pool_header :=
  { first := 0
    lock := 0
    size := POOL_ENTRY_SIZE c s % UINT_MOD
    total := POOL_HOLDER_COUNT c (DEFAULT_POOL_SIZE c) s % UINT_MOD }

/-- The byte count `sz` that `pool_holder_alloc` requests:
`offsetof(pool_holder, data) + header->size * header->total * sizeof(void*)`,
the product of the two counters taken in `unsigned int`. -/
def holder_bytes (c : Config) (hd : pool_header) : Nat :=
  (c.offset_data + ((hd.size * hd.total) % UINT_MOD) * c.W % SIZE_MOD c) % SIZE_MOD c

/-- The function `entry_holder`: `entry & ~(DEFAULT_POOL_SIZE - 1)` on `uintptr_t`. -/
def entry_holder (c : Config) (entry : Nat) : Nat :=
  entry &&& (SIZE_MOD c - 1 - (DEFAULT_POOL_SIZE c - 1))

/-! ## The heap -/

/-- Calls to the collaborators, in the order they are made. -/
inductive Event where
  /-- Call of `vm_malloc_prepare`, with the lock word at the call. -/
  | prepare (lock : Nat)
  /-- Call of `aligned_malloc(DEFAULT_POOL_SIZE, sz)`: lock word at the call, `sz`, result. -/
  | request (lock : Nat) (sz : Nat) (result : Nat)
  /-- Call of `garbage_collect_with_gvl`, with the lock word at the call and its result. -/
  | reclaim (lock : Nat) (ok : Bool)
  /-- Call of `ruby_memerror`, with the lock word at the call. -/
  | memerror (lock : Nat)
  /-- Call of `aligned_free` on a chunk. -/
  | release (chunk : Nat)
deriving DecidableEq

/-- The memory the allocator works on, for one class. -/
structure Heap where
  /-- The class header. -/
  header : pool_header
  /-- Chunks obtained from `aligned_malloc` and not yet given to `aligned_free`. -/
  chunks : List Nat
  /-- Field `free` of the holder at an address. -/
  free : Nat → Nat
  /-- Field `total` of the holder at an address. -/
  total : Nat → Nat
  /-- Field `header` of the holder at an address. -/
  hdr : Nat → Nat
  /-- Field `freep` of the holder at an address. -/
  freep : Nat → Nat
  /-- Field `fore` of the holder at an address. -/
  fore : Nat → Nat
  /-- Field `back` of the holder at an address. -/
  back : Nat → Nat
  /-- The word stored at a byte address of a data area. -/
  mem : Nat → Nat
  /-- The collaborator calls made so far, oldest first. -/
  log : List Event

/-- What the environment does during one `pool_alloc_entry` call. -/
structure Env where
  /-- Entries of this class freed by the collection `vm_malloc_prepare` may run. -/
  prepare_frees : List Nat
  /-- Result of the first `aligned_malloc` (`0` is `NULL`). -/
  malloc1 : Nat
  /-- Entries of this class freed by `garbage_collect_with_gvl`. -/
  gc_frees : List Nat
  /-- Result of `garbage_collect_with_gvl`. -/
  gc_ok : Bool
  /-- Result of the second `aligned_malloc` (`0` is `NULL`). -/
  malloc2 : Nat
deriving DecidableEq

/-- Result of an operation that may end in the fatal out-of-memory hook. -/
inductive Outcome where
  /-- The call returned a pointer. -/
  | ret (val : Nat) (h : Heap)
  /-- The call ended in `ruby_memerror`, which does not return. -/
  | fatal (h : Heap)
  /-- The call dereferenced a pointer outside the memory held from the OS backend. -/
  | undef

/-- A fresh class: the heap right after `INIT_POOL`, nothing obtained from the OS backend. -/
def Heap.init (hd : pool_header) : Heap :=
  { header := hd
    chunks := []
    free := fun _ => 0
    total := fun _ => 0
    hdr := fun _ => 0
    freep := fun _ => 0
    fore := fun _ => 0
    back := fun _ => 0
    mem := fun _ => 0
    log := [] }

/-- Store to `header->first`. -/
def set_first (h : Heap) (p : Nat) : Heap :=
  { h with header := { h.header with first := p } }

/-- The function `lock_header` on the path `living_threads() == 1`: a plain store. -/
def lock_header (h : Heap) : Heap :=
  { h with header := { h.header with lock := 1 } }

/-- The function `unlock_header` on the path `living_threads() == 1`: a plain store. -/
def unlock_header (h : Heap) : Heap :=
  { h with header := { h.header with lock := 0 } }

/-- Append a collaborator call to the log. -/
def emit (h : Heap) (e : Event) : Heap :=
  { h with log := h.log ++ [e] }

/-- Store `p->fore = v`; undefined unless `p` is a holder held from the OS backend. -/
def write_fore (h : Heap) (p v : Nat) : Option Heap :=
  if p ∈ h.chunks then some { h with fore := Function.update h.fore p v } else none

/-- Store `p->back = v`; undefined unless `p` is a holder held from the OS backend. -/
def write_back (h : Heap) (p v : Nat) : Option Heap :=
  if p ∈ h.chunks then some { h with back := Function.update h.back p v } else none

/-- A byte address is that of a word inside the `sz` bytes of a held chunk, past the
holder's fields. -/
def is_word (c : Config) (h : Heap) (a : Nat) : Prop :=
  entry_holder c a ∈ h.chunks ∧ c.offset_data ≤ a - entry_holder c a ∧
    a - entry_holder c a + c.W ≤ holder_bytes c h.header

instance (c : Config) (h : Heap) (a : Nat) : Decidable (is_word c h a) := by
  unfold is_word; infer_instance

/-- Store `*a = v` to a data word; undefined outside the held data areas. -/
def write_word (c : Config) (h : Heap) (a v : Nat) : Option Heap :=
  if is_word c h a then some { h with mem := Function.update h.mem a v } else none

/-- The call `aligned_free(p)`: the chunk goes back to the OS backend. -/
def aligned_free (h : Heap) (p : Nat) : Heap :=
  { h with chunks := h.chunks.erase p, log := h.log ++ [Event.release p] }

/-- The call `aligned_malloc(DEFAULT_POOL_SIZE, sz)` with the OS backend answering `r`. -/
def aligned_malloc (c : Config) (h : Heap) (r : Nat) : Heap :=
  { h with
    chunks := if r = 0 then h.chunks else r :: h.chunks
    log := h.log ++ [Event.request h.header.lock (holder_bytes c h.header) r] }

/-! ## The operations -/

/-- The function `pool_holder_unchaing`. -/
def pool_holder_unchaing (h : Heap) (holder : Nat) : Option Heap :=
  if holder ∈ h.chunks then
    let fore := h.fore holder
    let back := h.back holder
    (write_fore h holder 0).bind fun h1 =>
    (write_back h1 holder 0).bind fun h2 =>
    (if fore ≠ 0 then write_back h2 fore back else some h2).bind fun h3 =>
    if back ≠ 0 then write_fore h3 back fore else some (set_first h3 fore)
  else none

/-- The tail of `pool_free_entry`: `*entry = holder->freep; holder->freep = entry;
unlock_header(header)`. -/
def push_entry (c : Config) (h : Heap) (holder entry : Nat) : Option Heap :=
  (write_word c h entry (h.freep holder)).bind fun h1 =>
  some (unlock_header { h1 with freep := Function.update h1.freep holder entry })

/-- The function `pool_free_entry`. -/
def pool_free_entry (c : Config) (h0 : Heap) (entry : Nat) : Option Heap :=
  let holder := entry_holder c entry
  if holder ∈ h0.chunks ∧ h0.hdr holder = c.header_addr then
    let h := lock_header h0
    let old := h.free holder
    let h := { h with free := Function.update h.free holder ((old + 1) % UINT_MOD) }
    if old = 0 then
      let first := h.header.first
      if first = 0 then
        push_entry c (set_first h holder) holder entry
      else
        (write_back h holder first).bind fun h1 =>
        (if first ∈ h1.chunks then write_fore h1 holder (h1.fore first) else none).bind fun h2 =>
        (write_fore h2 first holder).bind fun h3 =>
        (if h3.fore holder ≠ 0 then write_back h3 (h3.fore holder) holder else some h3).bind
          fun h4 => push_entry c h4 holder entry
    else if h.free holder = h.total holder ∧ h.header.first ≠ holder then
      (pool_holder_unchaing h holder).bind fun h1 =>
      some (unlock_header (aligned_free h1 holder))
    else
      push_entry c h holder entry
  else none

/-- The frees a collaborator callback performs on this class, in order. -/
def run_frees (c : Config) : Heap → List Nat → Option Heap
  | h, [] => some h
  | h, e :: es => (pool_free_entry c h e).bind fun h1 => run_frees c h1 es

/-- The loop `for(i = count - 1; i; i--) ptr = *ptr = ptr + size;` of
`pool_holder_alloc`, started with the counter at `i`; gives the final `ptr`. -/
def chain_entries (c : Config) (size : Nat) : Nat → Nat → Heap → Option (Nat × Heap)
  | 0, ptr, h => some (ptr, h)
  | i + 1, ptr, h =>
    (write_word c h ptr (ptr + size * c.W)).bind fun h1 =>
    chain_entries c size i (ptr + size * c.W) h1

/-- The second half of `pool_holder_alloc`, from `size = header->size` on: the fields
of the new holder are set, its free list is built and it becomes `header->first`. -/
def holder_setup (c : Config) (h : Heap) (holder : Nat) : Outcome :=
  if holder ∈ h.chunks then
    let size := h.header.size
    let count := h.header.total
    let h1 : Heap :=
      { h with
        free := Function.update h.free holder count
        total := Function.update h.total holder count
        hdr := Function.update h.hdr holder c.header_addr
        fore := Function.update h.fore holder 0
        back := Function.update h.back holder 0
        freep := Function.update h.freep holder (holder + c.offset_data) }
    match chain_entries c size (usub UINT_MOD count 1) (holder + c.offset_data) h1 with
    | none => Outcome.undef
    | some (ptr, h2) =>
      match write_word c h2 ptr 0 with
      | none => Outcome.undef
      | some h3 => Outcome.ret holder (set_first h3 holder)
  else Outcome.undef

/-- The function `pool_holder_alloc`, called with the lock held. -/
def pool_holder_alloc (c : Config) (h0 : Heap) (env : Env) : Outcome :=
  let h := unlock_header h0
  let h := emit h (Event.prepare h.header.lock)
  match run_frees c h env.prepare_frees with
  | none => Outcome.undef
  | some h =>
    let h := lock_header h
    if h.header.first ≠ 0 then Outcome.ret h.header.first h
    else
      let h := aligned_malloc c h env.malloc1
      if env.malloc1 ≠ 0 then holder_setup c h env.malloc1
      else
        let h := unlock_header h
        let h := emit h (Event.reclaim h.header.lock env.gc_ok)
        match run_frees c h env.gc_frees with
        | none => Outcome.undef
        | some h =>
          if env.gc_ok = false then Outcome.fatal (emit h (Event.memerror h.header.lock))
          else
            let h := aligned_malloc c h env.malloc2
            if env.malloc2 = 0 then Outcome.fatal (emit h (Event.memerror h.header.lock))
            else holder_setup c (lock_header h) env.malloc2

/-- The body of `pool_alloc_entry` after the holder is known: pop its free list. -/
def pop_entry (c : Config) (h : Heap) (holder : Nat) : Outcome :=
  if holder ∈ h.chunks ∧ is_word c h (h.freep holder) then
    let result := h.freep holder
    let h1 := { h with freep := Function.update h.freep holder (h.mem result) }
    let nf := usub UINT_MOD (h1.free holder) 1
    let h2 := { h1 with free := Function.update h1.free holder nf }
    match (if nf = 0 then pool_holder_unchaing h2 holder else some h2) with
    | none => Outcome.undef
    | some h3 => Outcome.ret result (unlock_header h3)
  else Outcome.undef

/-- The function `pool_alloc_entry`. -/
def pool_alloc_entry (c : Config) (h0 : Heap) (env : Env) : Outcome :=
  let h := lock_header h0
  if h.header.first = 0 then
    match pool_holder_alloc c h env with
    | Outcome.ret holder h1 => pop_entry c h1 holder
    | other => other
  else pop_entry c h h.header.first

/-- The function `pool_finalize_header`. -/
def pool_finalize_header (h : Heap) : Heap :=
  if h.header.first ≠ 0 then set_first (aligned_free h h.header.first) 0 else h

/-! ## Runs of a single-threaded client -/

/-- One call of a client of the class. -/
inductive Op where
  /-- A call of `pool_alloc_entry`, with what the environment does during it. -/
  | alloc (env : Env)
  /-- A call of `pool_free_entry` on an entry. -/
  | free (entry : Nat)
deriving DecidableEq

/-- The heap together with the entries the client holds: those returned by
`pool_alloc_entry` and not yet passed to `pool_free_entry`. -/
structure Sim where
  /-- The allocator's memory. -/
  heap : Heap
  /-- The live entries, most recent first. -/
  live : List Nat

/-- The state of a client of a fresh class. -/
def Sim.init (hd : pool_header) : Sim := ⟨Heap.init hd, []⟩

/-- One call and its effect on the set of live entries; `none` when the call does not
return. -/
def step (c : Config) (s : Sim) : Op → Option Sim
  | Op.alloc env =>
    match pool_alloc_entry c s.heap env with
    | Outcome.ret r h => some ⟨h, r :: s.live⟩
    | _ => none
  | Op.free e => (pool_free_entry c s.heap e).bind fun h => some ⟨h, s.live.erase e⟩

/-- A sequence of calls, in order. -/
def run (c : Config) : Sim → List Op → Option Sim
  | s, [] => some s
  | s, op :: ops => (step c s op).bind fun s1 => run c s1 ops

/-- A pointer the OS backend may return for a request: non-null, aligned to
`DEFAULT_POOL_SIZE`, a `uintptr_t`, and not a chunk it has already handed out. -/
def fresh_chunk (c : Config) (h : Heap) (b : Nat) : Prop :=
  b ≠ 0 ∧ b % DEFAULT_POOL_SIZE c = 0 ∧ b < SIZE_MOD c ∧ b ∉ h.chunks

instance (c : Config) (h : Heap) (b : Nat) : Decidable (fresh_chunk c h b) := by
  unfold fresh_chunk; infer_instance

/-- The environment of a materialising `pool_alloc_entry`: the callbacks free no entry
of this class, and the OS backend satisfies the first request or, after a successful
reclaim, the second. -/
def env_ok (c : Config) (h : Heap) (env : Env) : Prop :=
  env.prepare_frees = [] ∧ env.gc_frees = [] ∧
    (fresh_chunk c h env.malloc1 ∨
      (env.malloc1 = 0 ∧ env.gc_ok = true ∧ fresh_chunk c h env.malloc2))

instance (c : Config) (h : Heap) (env : Env) : Decidable (env_ok c h env) := by
  unfold env_ok; infer_instance

/-- A call the client may make in a state: a free is of a live entry; an allocation
that has to materialise a holder meets an environment as in `env_ok`. -/
def op_ok (c : Config) (s : Sim) : Op → Prop
  | Op.alloc env => s.heap.header.first = 0 → env_ok c s.heap env
  | Op.free e => e ∈ s.live

instance (c : Config) (s : Sim) (op : Op) : Decidable (op_ok c s op) := by
  cases op <;> (unfold op_ok; infer_instance)

/-- Every call of the sequence is one the client may make in the state it is made in. -/
def valid (c : Config) : Sim → List Op → Bool
  | _, [] => true
  | s, op :: ops =>
    decide (op_ok c s op) &&
      match step c s op with
      | some s1 => valid c s1 ops
      | none => true

/-- A state reached from a fresh class by a valid sequence of calls. -/
def Reachable (c : Config) (hd : pool_header) (s : Sim) : Prop :=
  ∃ ops, valid c (Sim.init hd) ops = true ∧ run c (Sim.init hd) ops = some s

/-- Number of `pool_alloc_entry` calls in a sequence. -/
def count_allocs : List Op → Nat
  | [] => 0
  | Op.alloc _ :: ops => count_allocs ops + 1
  | Op.free _ :: ops => count_allocs ops

/-- Number of `pool_free_entry` calls in a sequence. -/
def count_frees : List Op → Nat
  | [] => 0
  | Op.alloc _ :: ops => count_frees ops
  | Op.free _ :: ops => count_frees ops + 1

/-- Number of `aligned_malloc` calls in a log. -/
def requests : List Event → Nat
  | [] => 0
  | Event.request _ _ _ :: es => requests es + 1
  | _ :: es => requests es

/-- Number of `aligned_malloc` calls in a log that returned a chunk. -/
def grants : List Event → Nat
  | [] => 0
  | Event.request _ _ r :: es => grants es + (if r = 0 then 0 else 1)
  | _ :: es => grants es

/-- The chunks passed to `aligned_free` in a log, in order. -/
def releases : List Event → List Nat
  | [] => []
  | Event.release p :: es => p :: releases es
  | _ :: es => releases es

/-- The live-entry count of the accounting property: the sum over the unreleased
holders of `total - free`. -/
def live_count (h : Heap) : Nat :=
  (h.chunks.map fun b => h.total b - h.free b).sum

/-- Requirements on the platform parameters: a positive word size, and a pool size
that is a power of two, fits `int` and `uintptr_t`, and leaves room for the holder's
fields and the six spare words. -/
structure Config.WF (c : Config) : Prop where
  /-- The word size is positive. -/
  W_pos : 0 < c.W
  /-- The pool size is a power of two within `int` and `uintptr_t`. -/
  pool_pow : ∃ k, k ≤ 30 ∧ k ≤ 8 * c.W ∧ DEFAULT_POOL_SIZE c = 2 ^ k
  /-- The holder's fields and the six spare words fit the pool size. -/
  room : c.W * 6 + c.offset_data ≤ DEFAULT_POOL_SIZE c

/-- A class header as `INIT_POOL` leaves it, for entries that fit a slab at least
once: no holder yet, the lock free, positive entry size and capacity, and the
holder's bytes within `DEFAULT_POOL_SIZE`. -/
structure ClassOK (c : Config) (hd : pool_header) : Prop where
  /-- The ready list is empty. -/
  first_null : hd.first = 0
  /-- The lock is free. -/
  lock_free : hd.lock = 0
  /-- Entries have at least one word. -/
  size_pos : 1 ≤ hd.size
  /-- A holder has at least one entry. -/
  total_pos : 1 ≤ hd.total
  /-- The holder fits the pool size, the six spare words included. -/
  fits : c.W * 6 + c.offset_data + hd.size * hd.total * c.W ≤ DEFAULT_POOL_SIZE c

/-- The address of entry `k` of the holder at `b`:
`b + offsetof(pool_holder, data) + k * size * sizeof(void*)`. -/
def slot_addr (c : Config) (hd : pool_header) (b k : Nat) : Nat :=
  b + c.offset_data + k * hd.size * c.W

/-! ## The representation invariant -/

/-- The doubly linked ready list: starting at pointer `p`, whose predecessor is
`prev`, the `fore` links visit exactly the holders of the list and end in `NULL`,
and every `back` link points to the predecessor. -/
def Ready (fore back : Nat → Nat) : Nat → Nat → List Nat → Prop
  | _, p, [] => p = 0
  | prev, p, x :: xs => p = x ∧ x ≠ 0 ∧ back x = prev ∧ Ready fore back x (fore x) xs

/-- The intrusive free list: starting at pointer `p`, the leading words of the
entries link exactly the entries of the list and end in `NULL`. -/
def FreeList (mem : Nat → Nat) : Nat → List Nat → Prop
  | p, [] => p = 0
  | p, x :: xs => p = x ∧ x ≠ 0 ∧ FreeList mem (mem x) xs

/-- An address is that of one of the entries of the holder at `b`. -/
def is_slot (c : Config) (hd : pool_header) (b e : Nat) : Prop :=
  ∃ k, k < hd.total ∧ e = slot_addr c hd b k

/-- Number of live entries whose owner, by `entry_holder`, is the holder at `b`. -/
def live_in (c : Config) (live : List Nat) (b : Nat) : Nat :=
  live.countP fun e => decide (entry_holder c e = b)

/-- The representation invariant of a class with header parameters `hd`, for a heap
`h` and the client's live entries: `L` is the ready list and `F b` the free list of
the holder at `b`. -/
structure HInv (c : Config) (hd : pool_header) (h : Heap) (live : List Nat)
    (L : List Nat) (F : Nat → List Nat) : Prop where
  /-- The entry size of the class never changes. -/
  hsize : h.header.size = hd.size
  /-- The capacity of the class never changes. -/
  htotal : h.header.total = hd.total
  /-- No chunk is held twice. -/
  chunks_nodup : h.chunks.Nodup
  /-- Every held chunk is non-null, aligned, and a `uintptr_t`. -/
  chunk_ok : ∀ b ∈ h.chunks, b ≠ 0 ∧ b % DEFAULT_POOL_SIZE c = 0 ∧ b < SIZE_MOD c
  /-- The ready list starts at `header->first`. -/
  ready : Ready h.fore h.back 0 h.header.first L
  /-- No holder is linked twice. -/
  ready_nodup : L.Nodup
  /-- The ready list holds exactly the held holders with a free entry. -/
  ready_iff : ∀ b, b ∈ L ↔ b ∈ h.chunks ∧ 0 < h.free b
  /-- A holder outside the ready list has null links. -/
  unlinked : ∀ b ∈ h.chunks, b ∉ L → h.fore b = 0 ∧ h.back b = 0
  /-- Every holder carries the capacity of the class. -/
  holder_total : ∀ b ∈ h.chunks, h.total b = hd.total
  /-- Every holder points back to the class. -/
  holder_hdr : ∀ b ∈ h.chunks, h.hdr b = c.header_addr
  /-- The free list of every holder starts at its `freep`. -/
  free_list : ∀ b ∈ h.chunks, FreeList h.mem (h.freep b) (F b)
  /-- The free list of every holder has `free` entries. -/
  free_len : ∀ b ∈ h.chunks, (F b).length = h.free b
  /-- No entry is twice in a free list. -/
  free_nodup : ∀ b ∈ h.chunks, (F b).Nodup
  /-- The free entries of a holder are entries of that holder. -/
  free_slot : ∀ b ∈ h.chunks, ∀ e ∈ F b, is_slot c hd b e
  /-- No free entry is live. -/
  free_not_live : ∀ b ∈ h.chunks, ∀ e ∈ F b, e ∉ live
  /-- No entry is live twice. -/
  live_nodup : live.Nodup
  /-- Every live entry is an entry of a held holder. -/
  live_slot : ∀ e ∈ live, ∃ b ∈ h.chunks, is_slot c hd b e
  /-- In every holder the free and the live entries together are all its entries. -/
  count : ∀ b ∈ h.chunks, h.free b + live_in c live b = hd.total
  /-- With a capacity of two or more, a fully idle holder is the head of the ready list. -/
  idle_first : 2 ≤ hd.total → ∀ b ∈ h.chunks, h.free b = hd.total → h.header.first = b
  /-- Every chunk granted by the OS backend is either held or was released. -/
  balance : grants h.log = (releases h.log).length + h.chunks.length

/-- The invariant between two calls: the representation invariant for some ready
list and free lists, with the lock free. -/
def SInv (c : Config) (hd : pool_header) (s : Sim) : Prop :=
  s.heap.header.lock = 0 ∧ ∃ L F, HInv c hd s.heap s.live L F

/-- The entries of a holder in address order, from entry `j` on, `i` of them. -/
def slots_from (c : Config) (hd : pool_header) (b : Nat) : Nat → Nat → List Nat
  | _, 0 => []
  | j, i + 1 => slot_addr c hd b j :: slots_from c hd b (j + 1) i

/-- The holder that `pool_alloc_entry` pops from in a state: `header->first`, or the
chunk the OS backend grants when the ready list is empty. -/
def alloc_holder (h : Heap) (env : Env) : Nat :=
  if h.header.first = 0 then (if env.malloc1 = 0 then env.malloc2 else env.malloc1)
  else h.header.first

/-! ## Closed forms of the operations under the invariant -/

/-- The heap after `pool_holder_unchaing` when every dereference is defined. -/
def unchain_heap (h : Heap) (holder : Nat) : Heap :=
  { h with
    fore :=
      if h.back holder ≠ 0 then
        Function.update (Function.update h.fore holder 0) (h.back holder) (h.fore holder)
      else Function.update h.fore holder 0
    back :=
      if h.fore holder ≠ 0 then
        Function.update (Function.update h.back holder 0) (h.fore holder) (h.back holder)
      else Function.update h.back holder 0
    header :=
      if h.back holder ≠ 0 then h.header else { h.header with first := h.fore holder } }

/-- The heap after the pop of `pool_alloc_entry` from a holder with a free entry. -/
def pop_heap (h : Heap) (holder : Nat) : Heap :=
  let h2 : Heap :=
    { h with
      freep := Function.update h.freep holder (h.mem (h.freep holder))
      free := Function.update h.free holder (h.free holder - 1) }
  unlock_header (if h.free holder = 1 then unchain_heap h2 holder else h2)

/-- The heap after the push at the end of `pool_free_entry`. -/
def push_heap (h : Heap) (holder entry : Nat) : Heap :=
  unlock_header
    { h with
      mem := Function.update h.mem entry (h.freep holder)
      freep := Function.update h.freep holder entry }

/-- The heap after a full holder is linked back: as the head of an empty ready list,
or right behind the head of a non-empty one. -/
def relink_heap (h : Heap) (holder : Nat) : Heap :=
  if h.header.first = 0 then set_first h holder
  else
    { h with
      fore :=
        Function.update (Function.update h.fore holder (h.fore h.header.first))
          h.header.first holder
      back :=
        if h.fore h.header.first ≠ 0 then
          Function.update (Function.update h.back holder h.header.first)
            (h.fore h.header.first) holder
        else Function.update h.back holder h.header.first }

/-- The heap `h` with the counter `free` of a holder incremented, under the lock. -/
def bump_heap (h : Heap) (holder : Nat) : Heap :=
  { lock_header h with free := Function.update h.free holder (h.free holder + 1) }

/-- The heap after `pool_free_entry` of a live entry. -/
def free_heap (c : Config) (h : Heap) (entry : Nat) : Heap :=
  let holder := entry_holder c entry
  if h.free holder = 0 then push_heap (relink_heap (bump_heap h holder) holder) holder entry
  else if h.free holder + 1 = h.total holder ∧ h.header.first ≠ holder then
    unlock_header (aligned_free (unchain_heap (bump_heap h holder) holder) holder)
  else push_heap (bump_heap h holder) holder entry

/-- The memory after the loop of `pool_holder_alloc` has linked `i` entries, from
entry `j` on, each to its successor. -/
def chain_mem (c : Config) (hd : pool_header) (b : Nat) (mem : Nat → Nat) : Nat → Nat → Nat → Nat
  | _, 0 => mem
  | j, i + 1 =>
    chain_mem c hd b (Function.update mem (slot_addr c hd b j) (slot_addr c hd b (j + 1)))
      (j + 1) i

/-- The heap after `holder_setup` on a chunk the OS backend has just granted. -/
def setup_heap (c : Config) (hd : pool_header) (h : Heap) (b : Nat) : Heap :=
  set_first
    { h with
      free := Function.update h.free b hd.total
      total := Function.update h.total b hd.total
      hdr := Function.update h.hdr b c.header_addr
      fore := Function.update h.fore b 0
      back := Function.update h.back b 0
      freep := Function.update h.freep b (b + c.offset_data)
      mem :=
        Function.update (chain_mem c hd b h.mem 0 (hd.total - 1))
          (slot_addr c hd b (hd.total - 1)) 0 }
    b

/-- The ready list after a full holder is linked back: alone, or right behind the head. -/
def relink_list (L : List Nat) (holder : Nat) : List Nat :=
  match L with
  | [] => [holder]
  | x :: xs => x :: holder :: xs

/-- The ready list after `pool_free_entry` of a live entry. -/
def free_ready (c : Config) (h : Heap) (entry : Nat) (L : List Nat) : List Nat :=
  let holder := entry_holder c entry
  if h.free holder = 0 then relink_list L holder
  else if h.free holder + 1 = h.total holder ∧ h.header.first ≠ holder then L.erase holder
  else L

/-- The heap after the calls of `pool_holder_alloc` up to and including the successful
`aligned_malloc`, when the callbacks free nothing: after the first request when that
one is granted, after the retry that follows the reclaim otherwise. -/
def granted_heap (c : Config) (h : Heap) (env : Env) : Heap :=
  let h1 := lock_header (emit (unlock_header h) (Event.prepare 0))
  if env.malloc1 ≠ 0 then aligned_malloc c h1 env.malloc1
  else
    lock_header
      (aligned_malloc c
        (emit (unlock_header (aligned_malloc c h1 0)) (Event.reclaim 0 true)) env.malloc2)

/-- The chunk a materialising `pool_holder_alloc` obtains. -/
def granted_chunk (env : Env) : Nat :=
  if env.malloc1 = 0 then env.malloc2 else env.malloc1

/-- The heap after a materialising `pool_holder_alloc`, called with the lock held. -/
def materialize_heap (c : Config) (hd : pool_header) (h : Heap) (env : Env) : Heap :=
  setup_heap c hd (granted_heap c h env) (granted_chunk env)

/-- The heap after `pool_alloc_entry`. -/
def alloc_heap (c : Config) (hd : pool_header) (h : Heap) (env : Env) : Heap :=
  if h.header.first = 0 then
    pop_heap (materialize_heap c hd (lock_header h) env) (granted_chunk env)
  else pop_heap (lock_header h) h.header.first

/-- The pointer `pool_alloc_entry` returns. -/
def alloc_result (c : Config) (h : Heap) (env : Env) : Nat :=
  if h.header.first = 0 then granted_chunk env + c.offset_data
  else h.freep h.header.first

/-- The ready list after `pool_alloc_entry`. -/
def alloc_ready (hd : pool_header) (h : Heap) (env : Env) (L : List Nat) : List Nat :=
  if h.header.first = 0 then (if hd.total = 1 then [] else [granted_chunk env])
  else if h.free h.header.first = 1 then L.tail else L

/-- The free lists after `pool_alloc_entry`. -/
def alloc_free (c : Config) (hd : pool_header) (h : Heap) (env : Env) (F : Nat → List Nat) :
    Nat → List Nat :=
  if h.header.first = 0 then
    Function.update F (granted_chunk env) (slots_from c hd (granted_chunk env) 1 (hd.total - 1))
  else Function.update F h.header.first (F h.header.first).tail

/-! ## Observations on lists and on the data words -/

/-- The pointers met when a link field is followed from `p` up to `NULL`, at most
`fuel` of them. -/
def follow (next : Nat → Nat) : Nat → Nat → List Nat
  | 0, _ => []
  | fuel + 1, p => if p = 0 then [] else p :: follow next fuel (next p)

/-- The heap with other contents of the data words. -/
def with_mem (h : Heap) (m : Nat → Nat) : Heap :=
  { h with mem := m }

/-- A byte address lies in the storage of the entry at `e`: `size` words from `e` on. -/
def in_entry (c : Config) (hd : pool_header) (e a : Nat) : Prop :=
  e ≤ a ∧ a < e + hd.size * c.W

instance (c : Config) (hd : pool_header) (e a : Nat) : Decidable (in_entry c hd e a) := by
  unfold in_entry; infer_instance

/-- The data words `m` after `pool_free_entry` of a live entry in heap `h`: the link
word of the entry is written unless the holder is released. -/
def free_mem (c : Config) (h : Heap) (entry : Nat) (m : Nat → Nat) : Nat → Nat :=
  let holder := entry_holder c entry
  if h.free holder ≠ 0 ∧ h.free holder + 1 = h.total holder ∧ h.header.first ≠ holder then m
  else Function.update m entry (h.freep holder)

/-- The data words `m` after `pool_alloc_entry` in heap `h`: the link words of a
materialised holder are written, nothing else. -/
def alloc_mem (c : Config) (hd : pool_header) (h : Heap) (env : Env) (m : Nat → Nat) :
    Nat → Nat :=
  if h.header.first = 0 then
    Function.update (chain_mem c hd (granted_chunk env) m 0 (hd.total - 1))
      (slot_addr c hd (granted_chunk env) (hd.total - 1)) 0
  else m

/-! ## Callbacks that free entries of the class -/

/-- The entries a callback frees, in order, are valid `pool_free_entry` arguments: each
is live when it is freed. -/
def frees_ok : List Nat → List Nat → Prop
  | _, [] => True
  | live, e :: es => e ∈ live ∧ frees_ok (live.erase e) es

instance (live es : List Nat) : Decidable (frees_ok live es) := by
  induction es generalizing live with
  | nil => unfold frees_ok; infer_instance
  | cons e es ih => unfold frees_ok; exact instDecidableAnd

/-- The live entries after a callback has freed the entries `es`. -/
def erase_all : List Nat → List Nat → List Nat
  | live, [] => live
  | live, e :: es => erase_all (live.erase e) es

/-! ## Runs in which the callbacks free entries -/

/-- The entries the callbacks of one `pool_alloc_entry` free, along its control flow:
none when the ready list is not empty (no callback runs); those of the collection run
by `vm_malloc_prepare`; and behind them those of `garbage_collect_with_gvl` when the
first request fails. -/
def alloc_freed (c : Config) (h : Heap) (env : Env) : List Nat :=
  if h.header.first ≠ 0 then []
  else
    match run_frees c (emit (unlock_header (lock_header h)) (Event.prepare 0))
        env.prepare_frees with
    | none => []
    | some h2 =>
      if h2.header.first ≠ 0 then env.prepare_frees
      else if env.malloc1 ≠ 0 then env.prepare_frees
      else env.prepare_frees ++ env.gc_frees

/-- One call and its effect on the set of live entries, the entries freed by the
callbacks of a `pool_alloc_entry` included; `none` when the call does not return. -/
def cb_step (c : Config) (s : Sim) : Op → Option Sim
  | Op.alloc env =>
    match pool_alloc_entry c s.heap env with
    | Outcome.ret r h => some ⟨h, r :: erase_all s.live (alloc_freed c s.heap env)⟩
    | _ => none
  | Op.free e => (pool_free_entry c s.heap e).bind fun h => some ⟨h, s.live.erase e⟩

/-- A sequence of calls, in order, with callbacks that may free entries. -/
def cb_run (c : Config) : Sim → List Op → Option Sim
  | s, [] => some s
  | s, op :: ops => (cb_step c s op).bind fun s1 => cb_run c s1 ops

/-- The environment with a reclaim callback that frees no entry. -/
def quiet_reclaim (env : Env) : Env :=
  { env with gc_frees := [] }

/-- The OS backend and the reclaim callback of a materialising `pool_alloc_entry` whose
`vm_malloc_prepare` frees no entry: the backend satisfies the first request, or it
fails it and, after a successful reclaim that frees no entry of this class, satisfies
the second. -/
def grant_ok (c : Config) (h : Heap) (env : Env) : Prop :=
  fresh_chunk c h env.malloc1 ∨
    (env.malloc1 = 0 ∧ env.gc_frees = [] ∧ env.gc_ok = true ∧ fresh_chunk c h env.malloc2)

instance (c : Config) (h : Heap) (env : Env) : Decidable (grant_ok c h env) := by
  unfold grant_ok; infer_instance

/-- A call the client may make in a state, when callbacks may free entries: a free is
of a live entry; in an allocation that finds the ready list empty, the collection run
by `vm_malloc_prepare` frees live entries, each once, and when it frees none the OS
backend grants a chunk as in `grant_ok`: at the first request, or at the retry after a
reclaim callback that frees no entry. -/
def cb_op_ok (c : Config) (s : Sim) : Op → Prop
  | Op.alloc env =>
    s.heap.header.first = 0 →
      frees_ok s.live env.prepare_frees ∧ (env.prepare_frees = [] → grant_ok c s.heap env)
  | Op.free e => e ∈ s.live

instance (c : Config) (s : Sim) (op : Op) : Decidable (cb_op_ok c s op) := by
  cases op <;> (unfold cb_op_ok; infer_instance)

/-- Every call of the sequence is one the client may make, as in `cb_op_ok`, in the
state it is made in. -/
def cb_valid (c : Config) : Sim → List Op → Bool
  | _, [] => true
  | s, op :: ops =>
    decide (cb_op_ok c s op) &&
      match cb_step c s op with
      | some s1 => cb_valid c s1 ops
      | none => true

/-- A state reached from a fresh class by a sequence of calls valid as in `cb_valid`. -/
def CbReachable (c : Config) (hd : pool_header) (s : Sim) : Prop :=
  ∃ ops, cb_valid c (Sim.init hd) ops = true ∧ cb_run c (Sim.init hd) ops = some s

/-! ## Concrete classes and environments -/

/-- A 64-bit build without `HEAP_ALIGN_LOG`: 8-byte words, `data` at offset 40, so
that `DEFAULT_POOL_SIZE` is 16384. -/
def cfg64 : Config := ⟨8, none, 40, 4096⟩

/-- The class of an item type of 16000 bytes on `cfg64`: capacity one. -/
def class1 : pool_header := INIT_POOL cfg64 16000

/-- The class of an item type of 8000 bytes on `cfg64`: capacity two. -/
def class2 : pool_header := INIT_POOL cfg64 8000

/-- The OS backend grants the chunk at 16384 on the first request. -/
def envA : Env := ⟨[], 16384, [], true, 0⟩

/-- The OS backend grants the chunk at 32768 on the first request. -/
def envB : Env := ⟨[], 32768, [], true, 0⟩

/-- The OS backend fails the first request and, after a successful reclaim, grants
the chunk at 49152. -/
def envC : Env := ⟨[], 0, [], true, 49152⟩

/-- The OS backend fails the first request and the reclaim reports failure; a second
request would be granted the chunk at 16384. -/
def envD : Env := ⟨[], 0, [], false, 16384⟩

/-- The OS backend fails the first request and, after a successful reclaim, the
second one too. -/
def envE : Env := ⟨[], 0, [], true, 0⟩

/-- The OS backend fails the first request; the reclaim frees the entry at 24424 and
succeeds; the second request is granted the chunk at 32768. -/
def envF : Env := ⟨[], 0, [24424], true, 32768⟩

/-- The collection run by `vm_malloc_prepare` frees the entry at 24424; a request would
be granted the chunk at 32768. -/
def envG : Env := ⟨[24424], 32768, [], true, 0⟩

/-! # Proofs -/

theorem mask_eq (k B x : Nat) (hk : k ≤ B) (hx : x < 2 ^ B) :
    x &&& (2 ^ B - 1 - (2 ^ k - 1)) = x - x % 2 ^ k := by
  have h2k : 0 < 2 ^ k := Nat.two_pow_pos k
  have hle : 2 ^ k ≤ 2 ^ B := Nat.pow_le_pow_right (by decide) hk
  have e1 : 2 ^ B - 1 - (2 ^ k - 1) = 2 ^ B - ((2 ^ k - 1) + 1) := by omega
  have e2 : x - x % 2 ^ k = 2 ^ k * (x / 2 ^ k) := by
    have := Nat.div_add_mod x (2 ^ k)
    omega
  rw [e1, e2]
  apply Nat.eq_of_testBit_eq
  intro i
  rw [Nat.testBit_and, Nat.testBit_two_pow_sub_succ (by omega), Nat.testBit_two_pow_sub_one,
    Nat.testBit_mul_pow_two, ← Nat.shiftRight_eq_div_pow, Nat.testBit_shiftRight]
  by_cases hik : k ≤ i
  · have e3 : k + (i - k) = i := by omega
    by_cases hiB : i < B
    · simp [hik, hiB, e3, Nat.not_lt.mpr hik]
    · have : x.testBit i = false :=
        Nat.testBit_lt_two_pow (lt_of_lt_of_le hx (Nat.pow_le_pow_right (by decide) (by omega)))
      simp [hik, hiB, e3, this]
  · simp [hik, Nat.lt_of_not_le hik]

theorem pool_pos (c : Config) (wf : c.WF) : 0 < DEFAULT_POOL_SIZE c := by
  obtain ⟨k, _, _, hk⟩ := wf.pool_pow
  rw [hk]; exact Nat.two_pow_pos k

theorem pool_le_size_mod (c : Config) (wf : c.WF) : DEFAULT_POOL_SIZE c ≤ SIZE_MOD c := by
  obtain ⟨k, _, h2, hk⟩ := wf.pool_pow
  rw [hk]; exact Nat.pow_le_pow_right (by decide) h2

theorem pool_lt_uint (c : Config) (wf : c.WF) : DEFAULT_POOL_SIZE c < UINT_MOD := by
  obtain ⟨k, h1, _, hk⟩ := wf.pool_pow
  rw [hk]
  calc 2 ^ k ≤ 2 ^ 30 := Nat.pow_le_pow_right (by decide) h1
    _ < UINT_MOD := by decide

theorem entry_holder_eq (c : Config) (wf : c.WF) (e : Nat) (he : e < SIZE_MOD c) :
    entry_holder c e = e - e % DEFAULT_POOL_SIZE c := by
  obtain ⟨k, _, h2, hk⟩ := wf.pool_pow
  unfold entry_holder
  rw [hk]
  exact mask_eq k (8 * c.W) e h2 he

theorem chunk_end_le (c : Config) (wf : c.WF) (b : Nat)
    (hb : b % DEFAULT_POOL_SIZE c = 0) (hlt : b < SIZE_MOD c) :
    b + DEFAULT_POOL_SIZE c ≤ SIZE_MOD c := by
  obtain ⟨k, _, h2, hk⟩ := wf.pool_pow
  have hM : SIZE_MOD c = 2 ^ k * 2 ^ (8 * c.W - k) := by
    unfold SIZE_MOD
    rw [← Nat.pow_add]
    congr 1
    omega
  rw [hk] at hb ⊢
  obtain ⟨q, rfl⟩ := Nat.dvd_of_mod_eq_zero hb
  rw [hM] at hlt ⊢
  have hq : q < 2 ^ (8 * c.W - k) := Nat.lt_of_mul_lt_mul_left hlt
  calc 2 ^ k * q + 2 ^ k = 2 ^ k * (q + 1) := by ring
    _ ≤ 2 ^ k * 2 ^ (8 * c.W - k) := Nat.mul_le_mul_left _ hq

theorem entry_holder_add (c : Config) (wf : c.WF) (b o : Nat)
    (hb : b % DEFAULT_POOL_SIZE c = 0) (hlt : b < SIZE_MOD c) (ho : o < DEFAULT_POOL_SIZE c) :
    entry_holder c (b + o) = b := by
  have hend := chunk_end_le c wf b hb hlt
  rw [entry_holder_eq c wf (b + o) (by omega)]
  have : (b + o) % DEFAULT_POOL_SIZE c = o := by
    rw [Nat.add_mod, hb, Nat.zero_add, Nat.mod_mod, Nat.mod_eq_of_lt ho]
  omega

theorem usub_eq (m a b : Nat) (hb : b ≤ a) (ha : a < m) : usub m a b = a - b := by
  unfold usub
  rw [Nat.mod_eq_of_lt ha, Nat.mod_eq_of_lt (lt_of_le_of_lt hb ha), if_pos hb]

theorem pool_data_size_eq (c : Config) (wf : c.WF) :
    POOL_DATA_SIZE c (DEFAULT_POOL_SIZE c) =
      (DEFAULT_POOL_SIZE c - c.W * 6 - c.offset_data) / c.W := by
  have h1 := wf.room
  have h2 := pool_le_size_mod c wf
  have h3 := wf.W_pos
  unfold POOL_DATA_SIZE
  by_cases hP : DEFAULT_POOL_SIZE c < SIZE_MOD c
  · rw [usub_eq _ _ _ (by omega) hP, usub_eq _ _ _ (by omega) (by omega)]
  · have hP2 : DEFAULT_POOL_SIZE c = SIZE_MOD c := by omega
    have e1 : usub (SIZE_MOD c) (DEFAULT_POOL_SIZE c) (c.W * 6) = SIZE_MOD c - c.W * 6 := by
      unfold usub
      rw [hP2, Nat.mod_self]
      rcases Nat.lt_or_ge (c.W * 6) (SIZE_MOD c) with h | h
      · rw [Nat.mod_eq_of_lt h, if_neg (by omega)]
        omega
      · have : c.W * 6 = SIZE_MOD c := by omega
        rw [this, Nat.mod_self, if_pos (le_refl _)]
        omega
    rw [e1, usub_eq _ _ _ (by omega) (by omega), hP2]

theorem pool_entry_size_eq (c : Config) (s : Nat) (hs1 : 1 ≤ s) (hs2 : s < SIZE_MOD c) :
    POOL_ENTRY_SIZE c s = (s - 1) / c.W + 1 := by
  unfold POOL_ENTRY_SIZE
  rw [usub_eq _ _ _ hs1 hs2]
  apply Nat.mod_eq_of_lt
  have : (s - 1) / c.W ≤ s - 1 := Nat.div_le_self _ _
  omega

theorem le_entry_size_mul (c : Config) (wf : c.WF) (s : Nat) (hs1 : 1 ≤ s) :
    s ≤ ((s - 1) / c.W + 1) * c.W := by
  have h := Nat.div_add_mod (s - 1) c.W
  have h2 := Nat.mod_lt (s - 1) wf.W_pos
  have : ((s - 1) / c.W + 1) * c.W = c.W * ((s - 1) / c.W) + c.W := by ring
  omega

/-- What `INIT_POOL` guarantees about the two counters. -/
theorem init_pool_fits (c : Config) (wf : c.WF) (s : Nat) (hs1 : 1 ≤ s) (hs2 : s < SIZE_MOD c) :
    (INIT_POOL c s).total = POOL_HOLDER_COUNT c (DEFAULT_POOL_SIZE c) s ∧
    (INIT_POOL c s).size ≤ POOL_ENTRY_SIZE c s ∧
    c.W * 6 + c.offset_data + (INIT_POOL c s).size * (INIT_POOL c s).total * c.W
      ≤ DEFAULT_POOL_SIZE c := by
  have hW := wf.W_pos
  have hroom := wf.room
  have hP := pool_lt_uint c wf
  have hE := pool_entry_size_eq c s hs1 hs2
  have hD := pool_data_size_eq c wf
  have hDle : POOL_DATA_SIZE c (DEFAULT_POOL_SIZE c) * c.W
      ≤ DEFAULT_POOL_SIZE c - c.W * 6 - c.offset_data := by
    rw [hD]; exact Nat.div_mul_le_self _ _
  have hDlt : POOL_DATA_SIZE c (DEFAULT_POOL_SIZE c) < UINT_MOD := by
    have : POOL_DATA_SIZE c (DEFAULT_POOL_SIZE c) ≤ DEFAULT_POOL_SIZE c := by
      rw [hD]
      exact le_trans (Nat.div_le_self _ _) (by omega)
    omega
  have hcnt : POOL_HOLDER_COUNT c (DEFAULT_POOL_SIZE c) s
      ≤ POOL_DATA_SIZE c (DEFAULT_POOL_SIZE c) := Nat.div_le_self _ _
  have htot : (INIT_POOL c s).total = POOL_HOLDER_COUNT c (DEFAULT_POOL_SIZE c) s := by
    show POOL_HOLDER_COUNT c (DEFAULT_POOL_SIZE c) s % UINT_MOD = _
    exact Nat.mod_eq_of_lt (by omega)
  have hsz : (INIT_POOL c s).size ≤ POOL_ENTRY_SIZE c s := Nat.mod_le _ _
  refine ⟨htot, hsz, ?_⟩
  have hprod : (INIT_POOL c s).size * (INIT_POOL c s).total
      ≤ POOL_DATA_SIZE c (DEFAULT_POOL_SIZE c) := by
    rw [htot]
    calc (INIT_POOL c s).size * POOL_HOLDER_COUNT c (DEFAULT_POOL_SIZE c) s
        ≤ POOL_ENTRY_SIZE c s * POOL_HOLDER_COUNT c (DEFAULT_POOL_SIZE c) s :=
          Nat.mul_le_mul_right _ hsz
      _ ≤ POOL_DATA_SIZE c (DEFAULT_POOL_SIZE c) := Nat.mul_div_le _ _
  have := Nat.mul_le_mul_right c.W hprod
  omega

theorem holder_bytes_eq (c : Config) (wf : c.WF) (hd : pool_header)
    (hfit : c.W * 6 + c.offset_data + hd.size * hd.total * c.W ≤ DEFAULT_POOL_SIZE c) :
    holder_bytes c hd = c.offset_data + hd.size * hd.total * c.W := by
  have hW := wf.W_pos
  have hP := pool_lt_uint c wf
  have hM := pool_le_size_mod c wf
  have h1 : hd.size * hd.total ≤ hd.size * hd.total * c.W := Nat.le_mul_of_pos_right _ hW
  unfold holder_bytes
  rw [Nat.mod_eq_of_lt (a := hd.size * hd.total) (by omega),
    Nat.mod_eq_of_lt (a := hd.size * hd.total * c.W) (by omega), Nat.mod_eq_of_lt (by omega)]

/-! ### Ready list and free list: framing and shape -/

theorem Ready.frame_links {fore back fore1 back1 : Nat → Nat} :
    ∀ (L : List Nat) (prev p : Nat),
      (∀ x ∈ L, fore1 x = fore x ∧ back1 x = back x) →
      Ready fore back prev p L → Ready fore1 back1 prev p L
  | [], _, _, _, h => h
  | x :: xs, _, _, hagree, ⟨h1, h2, h3, h4⟩ => by
    have hx := hagree x (List.mem_cons_self x xs)
    refine ⟨h1, h2, by rw [hx.2]; exact h3, ?_⟩
    rw [hx.1]
    exact Ready.frame_links xs x (fore x) (fun y hy => hagree y (List.mem_cons_of_mem x hy)) h4

theorem Ready.ne_zero {fore back : Nat → Nat} :
    ∀ (L : List Nat) (prev p : Nat), Ready fore back prev p L → ∀ x ∈ L, x ≠ 0
  | [], _, _, _, _, hx => by simp at hx
  | y :: ys, _, _, ⟨_, h2, _, h4⟩, x, hx => by
    rcases List.mem_cons.mp hx with rfl | hx
    · exact h2
    · exact Ready.ne_zero ys y (fore y) h4 x hx

theorem Ready.start {fore back : Nat → Nat} {L : List Nat} {prev p : Nat}
    (h : Ready fore back prev p L) : p = L.headD 0 := by
  cases L with
  | nil => exact h
  | cons x xs => exact h.1

theorem Ready.start_eq_zero {fore back : Nat → Nat} {L : List Nat} {prev p : Nat}
    (h : Ready fore back prev p L) : p = 0 ↔ L = [] := by
  cases L with
  | nil => simp [show p = 0 from h]
  | cons x xs =>
    obtain ⟨h1, h2, _, _⟩ := h
    simp [h1, h2]

/-- Unlinking a holder that is not the head: `back->fore = fore`, `fore->back = back`
where `fore` is not null, and the links of the holder itself cleared. -/
theorem Ready.remove_mid {fore back : Nat → Nat} (H : Nat) (l2 : List Nat) :
    ∀ (l1 : List Nat) (prev p : Nat), l1 ≠ [] → (l1 ++ H :: l2).Nodup →
      Ready fore back prev p (l1 ++ H :: l2) →
      back H ≠ 0 ∧ back H ∈ l1 ∧ (fore H = l2.headD 0) ∧
      ∀ (fore1 back1 : Nat → Nat),
        (∀ x, x ≠ H → x ≠ back H → fore1 x = fore x) → fore1 (back H) = fore H →
        (∀ x, x ≠ H → x ≠ fore H → back1 x = back x) →
        (fore H ≠ 0 → back1 (fore H) = back H) →
        Ready fore1 back1 prev p (l1 ++ l2)
  | [], _, _, hne, _, _ => absurd rfl hne
  | [a], prev, p, _, hnd, hr => by
    obtain ⟨h1, h2, h3, h4, h5, h6, h7⟩ := hr
    have hnd1 : a ∉ H :: l2 := (List.nodup_cons.mp hnd).1
    have hnd2 : H ∉ l2 := (List.nodup_cons.mp (List.nodup_cons.mp hnd).2).1
    have hnd3 : l2.Nodup := (List.nodup_cons.mp (List.nodup_cons.mp hnd).2).2
    have haH : a ≠ H := fun e => hnd1 (e ▸ List.mem_cons_self _ _)
    have hal2 : a ∉ l2 := fun e => hnd1 (List.mem_cons_of_mem _ e)
    have hfore : fore H = l2.headD 0 := h7.start
    refine ⟨by rw [h6]; exact h2, by rw [h6]; exact List.mem_singleton_self a, hfore, ?_⟩
    intro fore1 back1 hf1 hf2 hb1 hb2
    rw [h6] at hf1 hf2 hb2
    have hafore : a ≠ fore H := by
      intro e
      cases l2 with
      | nil => exact h2 (by rw [e, hfore]; rfl)
      | cons f r => exact hal2 (by rw [e, hfore]; exact List.mem_cons_self _ _)
    refine ⟨h1, h2, by rw [hb1 a haH hafore]; exact h3, ?_⟩
    rw [hf2]
    cases l2 with
    | nil => exact h7
    | cons f r =>
      obtain ⟨g1, g2, g3, g4⟩ := h7
      have hfH : f ≠ H := fun e => hnd2 (e ▸ List.mem_cons_self _ _)
      have hfa : f ≠ a := fun e => hal2 (e ▸ List.mem_cons_self _ _)
      have hfr : f ∉ r := (List.nodup_cons.mp hnd3).1
      refine ⟨g1, g2, ?_, ?_⟩
      · have := hb2 (by rw [g1]; exact g2)
        rw [g1] at this
        exact this
      · rw [hf1 f hfH hfa]
        refine Ready.frame_links r f (fore f) ?_ g4
        intro x hx
        have hxH : x ≠ H := fun e => hnd2 (e ▸ List.mem_cons_of_mem _ hx)
        have hxa : x ≠ a := fun e => hal2 (e ▸ List.mem_cons_of_mem _ hx)
        have hxf : x ≠ f := fun e => hfr (e ▸ hx)
        exact ⟨hf1 x hxH hxa, hb1 x hxH (by rw [g1]; exact hxf)⟩
  | a :: a2 :: l1, prev, p, _, hnd, hr => by
    obtain ⟨h1, h2, h3, h4⟩ := hr
    have hnd1 : a ∉ (a2 :: l1) ++ H :: l2 := (List.nodup_cons.mp hnd).1
    have hnd2 : ((a2 :: l1) ++ H :: l2).Nodup := (List.nodup_cons.mp hnd).2
    obtain ⟨i1, i2, i3, i4⟩ :=
      Ready.remove_mid H l2 (a2 :: l1) a (fore a) (by simp) hnd2 h4
    refine ⟨i1, List.mem_cons_of_mem _ i2, i3, ?_⟩
    intro fore1 back1 hf1 hf2 hb1 hb2
    have haH : a ≠ H := fun e => hnd1 (by rw [e]; simp)
    have haback : a ≠ back H := fun e => hnd1 (by rw [e]; exact List.mem_append_left _ i2)
    have hafore : a ≠ fore H := by
      intro e
      cases l2 with
      | nil => exact h2 (by rw [e, i3]; rfl)
      | cons f r => exact hnd1 (by rw [e, i3]; simp)
    refine ⟨h1, h2, by rw [hb1 a haH hafore]; exact h3, ?_⟩
    rw [hf1 a haH haback]
    exact i4 fore1 back1 hf1 hf2 hb1 hb2

theorem FreeList.frame_mem {mem mem1 : Nat → Nat} :
    ∀ (F : List Nat) (p : Nat), (∀ x ∈ F, mem1 x = mem x) →
      FreeList mem p F → FreeList mem1 p F
  | [], _, _, h => h
  | x :: xs, _, hagree, ⟨h1, h2, h3⟩ => by
    refine ⟨h1, h2, ?_⟩
    rw [hagree x (List.mem_cons_self x xs)]
    exact FreeList.frame_mem xs (mem x) (fun y hy => hagree y (List.mem_cons_of_mem x hy)) h3

/-! ### Entries of a holder -/

theorem total_lt_uint (c : Config) (wf : c.WF) (hd : pool_header) (ok : ClassOK c hd) :
    hd.total < UINT_MOD := by
  have h1 := ok.fits
  have h2 := pool_lt_uint c wf
  have h3 : hd.total ≤ hd.size * hd.total * c.W := by
    calc hd.total = 1 * hd.total * 1 := by ring
      _ ≤ hd.size * hd.total * c.W :=
        Nat.mul_le_mul (Nat.mul_le_mul_right _ ok.size_pos) wf.W_pos
  omega

theorem slot_offset (c : Config) (hd : pool_header) (ok : ClassOK c hd)
    (k : Nat) (hk : k < hd.total) :
    k * hd.size * c.W + c.W ≤ hd.size * hd.total * c.W := by
  have h1 : c.W ≤ hd.size * c.W := Nat.le_mul_of_pos_left _ ok.size_pos
  have h2 : (k + 1) * (hd.size * c.W) ≤ hd.total * (hd.size * c.W) :=
    Nat.mul_le_mul_right _ hk
  have e1 : (k + 1) * (hd.size * c.W) = k * hd.size * c.W + hd.size * c.W := by ring
  have e2 : hd.total * (hd.size * c.W) = hd.size * hd.total * c.W := by ring
  omega

theorem slot_offset_lt (c : Config) (wf : c.WF) (hd : pool_header) (ok : ClassOK c hd)
    (k : Nat) (hk : k < hd.total) :
    c.offset_data + k * hd.size * c.W < DEFAULT_POOL_SIZE c := by
  have h1 := slot_offset c hd ok k hk
  have h2 := ok.fits
  have h3 := wf.W_pos
  omega

theorem entry_holder_slot (c : Config) (wf : c.WF) (hd : pool_header) (ok : ClassOK c hd)
    (b e : Nat) (hb : b % DEFAULT_POOL_SIZE c = 0) (hlt : b < SIZE_MOD c)
    (hs : is_slot c hd b e) : entry_holder c e = b := by
  obtain ⟨k, hk, rfl⟩ := hs
  unfold slot_addr
  rw [Nat.add_assoc]
  exact entry_holder_add c wf b _ hb hlt (slot_offset_lt c wf hd ok k hk)

theorem slot_ne_zero (c : Config) (hd : pool_header) (b e : Nat) (hb : b ≠ 0)
    (hs : is_slot c hd b e) : e ≠ 0 := by
  obtain ⟨k, _, rfl⟩ := hs
  unfold slot_addr
  omega

theorem slot_addr_inj (c : Config) (wf : c.WF) (hd : pool_header) (ok : ClassOK c hd)
    (b k1 k2 : Nat) (h : slot_addr c hd b k1 = slot_addr c hd b k2) : k1 = k2 := by
  unfold slot_addr at h
  have hpos : 0 < hd.size * c.W := Nat.mul_pos ok.size_pos wf.W_pos
  have h1 : k1 * (hd.size * c.W) = k2 * (hd.size * c.W) := by
    have e1 : k1 * hd.size * c.W = k1 * (hd.size * c.W) := by ring
    have e2 : k2 * hd.size * c.W = k2 * (hd.size * c.W) := by ring
    omega
  exact Nat.eq_of_mul_eq_mul_right hpos h1

theorem is_word_slot (c : Config) (wf : c.WF) (hd : pool_header) (ok : ClassOK c hd)
    (h : Heap) (hsize : h.header.size = hd.size) (htotal : h.header.total = hd.total)
    (b e : Nat) (hmem : b ∈ h.chunks) (hb : b % DEFAULT_POOL_SIZE c = 0)
    (hlt : b < SIZE_MOD c) (hs : is_slot c hd b e) : is_word c h e := by
  have hh := entry_holder_slot c wf hd ok b e hb hlt hs
  obtain ⟨k, hk, rfl⟩ := hs
  have hbytes : holder_bytes c h.header = c.offset_data + hd.size * hd.total * c.W := by
    rw [holder_bytes_eq c wf h.header (by rw [hsize, htotal]; exact ok.fits), hsize, htotal]
  have hoff := slot_offset c hd ok k hk
  refine ⟨by rw [hh]; exact hmem, ?_, ?_⟩
  · rw [hh]; unfold slot_addr; omega
  · rw [hh, hbytes]; unfold slot_addr; omega

theorem live_in_cons (c : Config) (live : List Nat) (e b : Nat) :
    live_in c (e :: live) b = live_in c live b + (if entry_holder c e = b then 1 else 0) := by
  unfold live_in
  rw [List.countP_cons]
  simp

theorem live_in_erase (c : Config) (live : List Nat) (e b : Nat) (he : e ∈ live) :
    live_in c (live.erase e) b + (if entry_holder c e = b then 1 else 0) = live_in c live b := by
  induction live with
  | nil => simp at he
  | cons x xs ih =>
    by_cases hx : x = e
    · subst hx
      rw [List.erase_cons_head, live_in_cons]
    · have he2 : e ∈ xs := by
        rcases List.mem_cons.mp he with h | h
        · exact absurd h.symm hx
        · exact h
      rw [List.erase_cons_tail (by simpa using hx), live_in_cons, live_in_cons]
      have := ih he2
      omega

theorem live_in_pos (c : Config) (live : List Nat) (e : Nat) (he : e ∈ live) :
    0 < live_in c live (entry_holder c e) := by
  have := live_in_erase c live e (entry_holder c e) he
  simp at this
  omega

theorem live_in_zero (c : Config) (live : List Nat) (b : Nat)
    (h : ∀ e ∈ live, entry_holder c e ≠ b) : live_in c live b = 0 := by
  unfold live_in
  rw [List.countP_eq_zero]
  intro e he
  simpa using h e he

/-! ### Field projections of the closed forms -/

@[simp] theorem unlock_header_first (h : Heap) : (unlock_header h).header.first = h.header.first := rfl
@[simp] theorem unlock_header_size (h : Heap) : (unlock_header h).header.size = h.header.size := rfl
@[simp] theorem unlock_header_total (h : Heap) : (unlock_header h).header.total = h.header.total := rfl
@[simp] theorem unlock_header_lock (h : Heap) : (unlock_header h).header.lock = 0 := rfl
@[simp] theorem unlock_header_chunks (h : Heap) : (unlock_header h).chunks = h.chunks := rfl
@[simp] theorem unlock_header_free (h : Heap) : (unlock_header h).free = h.free := rfl
@[simp] theorem unlock_header_htotal (h : Heap) : (unlock_header h).total = h.total := rfl
@[simp] theorem unlock_header_hdr (h : Heap) : (unlock_header h).hdr = h.hdr := rfl
@[simp] theorem unlock_header_freep (h : Heap) : (unlock_header h).freep = h.freep := rfl
@[simp] theorem unlock_header_fore (h : Heap) : (unlock_header h).fore = h.fore := rfl
@[simp] theorem unlock_header_back (h : Heap) : (unlock_header h).back = h.back := rfl
@[simp] theorem unlock_header_mem (h : Heap) : (unlock_header h).mem = h.mem := rfl
@[simp] theorem unlock_header_log (h : Heap) : (unlock_header h).log = h.log := rfl

@[simp] theorem lock_header_first (h : Heap) : (lock_header h).header.first = h.header.first := rfl
@[simp] theorem lock_header_size (h : Heap) : (lock_header h).header.size = h.header.size := rfl
@[simp] theorem lock_header_total (h : Heap) : (lock_header h).header.total = h.header.total := rfl
@[simp] theorem lock_header_lock (h : Heap) : (lock_header h).header.lock = 1 := rfl
@[simp] theorem lock_header_chunks (h : Heap) : (lock_header h).chunks = h.chunks := rfl
@[simp] theorem lock_header_free (h : Heap) : (lock_header h).free = h.free := rfl
@[simp] theorem lock_header_htotal (h : Heap) : (lock_header h).total = h.total := rfl
@[simp] theorem lock_header_hdr (h : Heap) : (lock_header h).hdr = h.hdr := rfl
@[simp] theorem lock_header_freep (h : Heap) : (lock_header h).freep = h.freep := rfl
@[simp] theorem lock_header_fore (h : Heap) : (lock_header h).fore = h.fore := rfl
@[simp] theorem lock_header_back (h : Heap) : (lock_header h).back = h.back := rfl
@[simp] theorem lock_header_mem (h : Heap) : (lock_header h).mem = h.mem := rfl
@[simp] theorem lock_header_log (h : Heap) : (lock_header h).log = h.log := rfl

@[simp] theorem unchain_heap_size (h : Heap) (H : Nat) :
    (unchain_heap h H).header.size = h.header.size := by
  unfold unchain_heap; dsimp only; split <;> rfl
@[simp] theorem unchain_heap_total (h : Heap) (H : Nat) :
    (unchain_heap h H).header.total = h.header.total := by
  unfold unchain_heap; dsimp only; split <;> rfl
@[simp] theorem unchain_heap_lock (h : Heap) (H : Nat) :
    (unchain_heap h H).header.lock = h.header.lock := by
  unfold unchain_heap; dsimp only; split <;> rfl
theorem unchain_heap_first (h : Heap) (H : Nat) :
    (unchain_heap h H).header.first = if h.back H ≠ 0 then h.header.first else h.fore H := by
  unfold unchain_heap; dsimp only; split <;> rfl
@[simp] theorem unchain_heap_chunks (h : Heap) (H : Nat) : (unchain_heap h H).chunks = h.chunks := rfl
@[simp] theorem unchain_heap_free (h : Heap) (H : Nat) : (unchain_heap h H).free = h.free := rfl
@[simp] theorem unchain_heap_htotal (h : Heap) (H : Nat) : (unchain_heap h H).total = h.total := rfl
@[simp] theorem unchain_heap_hdr (h : Heap) (H : Nat) : (unchain_heap h H).hdr = h.hdr := rfl
@[simp] theorem unchain_heap_freep (h : Heap) (H : Nat) : (unchain_heap h H).freep = h.freep := rfl
@[simp] theorem unchain_heap_mem (h : Heap) (H : Nat) : (unchain_heap h H).mem = h.mem := rfl
@[simp] theorem unchain_heap_log (h : Heap) (H : Nat) : (unchain_heap h H).log = h.log := rfl

theorem unchain_heap_fore_self (h : Heap) (H : Nat) (hne : h.back H ≠ H) :
    (unchain_heap h H).fore H = 0 := by
  unfold unchain_heap; dsimp only
  split
  · rw [Function.update_noteq (Ne.symm hne), Function.update_same]
  · rw [Function.update_same]

theorem unchain_heap_back_self (h : Heap) (H : Nat) (hne : h.fore H ≠ H) :
    (unchain_heap h H).back H = 0 := by
  unfold unchain_heap; dsimp only
  split
  · rw [Function.update_noteq (Ne.symm hne), Function.update_same]
  · rw [Function.update_same]

theorem unchain_heap_fore_other (h : Heap) (H x : Nat) (h1 : x ≠ H) (h2 : x ≠ h.back H) :
    (unchain_heap h H).fore x = h.fore x := by
  unfold unchain_heap; dsimp only
  split
  · rw [Function.update_noteq h2, Function.update_noteq h1]
  · rw [Function.update_noteq h1]

theorem unchain_heap_back_other (h : Heap) (H x : Nat) (h1 : x ≠ H) (h2 : x ≠ h.fore H) :
    (unchain_heap h H).back x = h.back x := by
  unfold unchain_heap; dsimp only
  split
  · rw [Function.update_noteq h2, Function.update_noteq h1]
  · rw [Function.update_noteq h1]

theorem unchain_heap_fore_back (h : Heap) (H : Nat) (hne : h.back H ≠ 0) :
    (unchain_heap h H).fore (h.back H) = h.fore H := by
  unfold unchain_heap; dsimp only
  rw [if_pos hne, Function.update_same]

theorem unchain_heap_back_fore (h : Heap) (H : Nat) (hne : h.fore H ≠ 0) :
    (unchain_heap h H).back (h.fore H) = h.back H := by
  unfold unchain_heap; dsimp only
  rw [if_pos hne, Function.update_same]

/-- The function `pool_holder_unchaing` is defined, with the closed form as result,
when the holder and its non-null neighbours are held. -/
theorem unchain_eq (h : Heap) (H : Nat) (hH : H ∈ h.chunks)
    (hf : h.fore H ≠ 0 → h.fore H ∈ h.chunks) (hb : h.back H ≠ 0 → h.back H ∈ h.chunks) :
    pool_holder_unchaing h H = some (unchain_heap h H) := by
  unfold pool_holder_unchaing unchain_heap write_fore write_back set_first
  by_cases h1 : h.fore H = 0 <;> by_cases h2 : h.back H = 0
  · simp [hH, h1, h2]
  · simp [hH, h1, h2, hb h2]
  · simp [hH, h1, h2, hf h1]
  · simp [hH, h1, h2, hf h1, hb h2]

/-- Unlinking a holder of the ready list leaves the ready list without it. -/
theorem Ready.unchain (h : Heap) (H : Nat) (l1 l2 : List Nat)
    (hnd : (l1 ++ H :: l2).Nodup)
    (hr : Ready h.fore h.back 0 h.header.first (l1 ++ H :: l2)) :
    Ready (unchain_heap h H).fore (unchain_heap h H).back 0
        (unchain_heap h H).header.first (l1 ++ l2) ∧
      h.fore H = l2.headD 0 ∧ (h.back H = 0 ↔ l1 = []) ∧ (h.back H ≠ 0 → h.back H ∈ l1) := by
  cases l1 with
  | nil =>
    obtain ⟨h1, h2, h3, h4⟩ := hr
    have hHl2 : H ∉ l2 := (List.nodup_cons.mp hnd).1
    have hl2 : l2.Nodup := (List.nodup_cons.mp hnd).2
    refine ⟨?_, h4.start, by simp [h3], fun hne => absurd h3 hne⟩
    rw [unchain_heap_first, if_neg (by simp [h3])]
    cases l2 with
    | nil => exact h4
    | cons f r =>
      obtain ⟨g1, g2, g3, g4⟩ := h4
      have hfH : f ≠ H := fun e => hHl2 (e ▸ List.mem_cons_self _ _)
      have hfr : f ∉ r := (List.nodup_cons.mp hl2).1
      refine ⟨g1, g2, ?_, ?_⟩
      · have := unchain_heap_back_fore h H (by rw [g1]; exact g2)
        rw [g1, h3] at this
        exact this
      · rw [unchain_heap_fore_other h H f hfH (by rw [h3]; exact g2)]
        refine Ready.frame_links r f (h.fore f) ?_ g4
        intro x hx
        have hx0 : x ≠ 0 := Ready.ne_zero r f (h.fore f) g4 x hx
        have hxH : x ≠ H := fun e => hHl2 (e ▸ List.mem_cons_of_mem _ hx)
        have hxf : x ≠ f := fun e => hfr (e ▸ hx)
        exact ⟨unchain_heap_fore_other h H x hxH (by rw [h3]; exact hx0),
          unchain_heap_back_other h H x hxH (by rw [g1]; exact hxf)⟩
  | cons a l1 =>
    obtain ⟨i1, i2, i3, i4⟩ :=
      Ready.remove_mid H l2 (a :: l1) 0 h.header.first (by simp) hnd hr
    refine ⟨?_, i3, by simp [i1], fun _ => i2⟩
    rw [unchain_heap_first, if_pos i1]
    exact i4 _ _ (fun x h1 h2 => unchain_heap_fore_other h H x h1 h2)
      (unchain_heap_fore_back h H i1) (fun x h1 h2 => unchain_heap_back_other h H x h1 h2)
      (fun hne => unchain_heap_back_fore h H hne)

/-! ### The pop of `pool_alloc_entry` -/

@[simp] theorem pop_heap_size (h : Heap) (H : Nat) :
    (pop_heap h H).header.size = h.header.size := by
  unfold pop_heap; dsimp only; split <;> simp
@[simp] theorem pop_heap_total (h : Heap) (H : Nat) :
    (pop_heap h H).header.total = h.header.total := by
  unfold pop_heap; dsimp only; split <;> simp
@[simp] theorem pop_heap_lock (h : Heap) (H : Nat) : (pop_heap h H).header.lock = 0 := rfl
@[simp] theorem pop_heap_chunks (h : Heap) (H : Nat) : (pop_heap h H).chunks = h.chunks := by
  unfold pop_heap; dsimp only; split <;> rfl
@[simp] theorem pop_heap_htotal (h : Heap) (H : Nat) : (pop_heap h H).total = h.total := by
  unfold pop_heap; dsimp only; split <;> rfl
@[simp] theorem pop_heap_hdr (h : Heap) (H : Nat) : (pop_heap h H).hdr = h.hdr := by
  unfold pop_heap; dsimp only; split <;> rfl
@[simp] theorem pop_heap_mem (h : Heap) (H : Nat) : (pop_heap h H).mem = h.mem := by
  unfold pop_heap; dsimp only; split <;> rfl
@[simp] theorem pop_heap_log (h : Heap) (H : Nat) : (pop_heap h H).log = h.log := by
  unfold pop_heap; dsimp only; split <;> rfl
@[simp] theorem pop_heap_free (h : Heap) (H : Nat) :
    (pop_heap h H).free = Function.update h.free H (h.free H - 1) := by
  unfold pop_heap; dsimp only; split <;> rfl
@[simp] theorem pop_heap_freep (h : Heap) (H : Nat) :
    (pop_heap h H).freep = Function.update h.freep H (h.mem (h.freep H)) := by
  unfold pop_heap; dsimp only; split <;> rfl

theorem pop_heap_keep (h : Heap) (H : Nat) (hne : h.free H ≠ 1) :
    (pop_heap h H).fore = h.fore ∧ (pop_heap h H).back = h.back ∧
      (pop_heap h H).header.first = h.header.first := by
  unfold pop_heap; dsimp only; rw [if_neg hne]; exact ⟨rfl, rfl, rfl⟩

/-- What the invariant gives about the head of a non-empty ready list. -/
theorem HInv.head_facts {c : Config} {hd : pool_header} {h : Heap} {live L : List Nat}
    {F : Nat → List Nat} (inv : HInv c hd h live L F) (hne : h.header.first ≠ 0) :
    ∃ xs fs, L = h.header.first :: xs ∧ F h.header.first = h.freep h.header.first :: fs ∧
      h.header.first ∈ h.chunks ∧ 0 < h.free h.header.first ∧ h.back h.header.first = 0 ∧
      h.fore h.header.first = xs.headD 0 ∧
      FreeList h.mem (h.mem (h.freep h.header.first)) fs := by
  have hr := inv.ready
  cases hL : L with
  | nil => rw [hL] at hr; exact absurd hr hne
  | cons x xs =>
    rw [hL] at hr
    obtain ⟨h1, _, h3, h4⟩ := hr
    have hxL : x ∈ L := by rw [hL]; exact List.mem_cons_self _ _
    have hmem := (inv.ready_iff x).mp hxL
    have hlen := inv.free_len x hmem.1
    have hfl := inv.free_list x hmem.1
    cases hF : F x with
    | nil => rw [hF] at hlen; simp at hlen; omega
    | cons r fs =>
      rw [hF] at hfl
      obtain ⟨g1, _, g3⟩ := hfl
      rw [h1]
      refine ⟨xs, fs, rfl, by rw [hF, g1], hmem.1, hmem.2, h3, h4.start, ?_⟩
      rw [g1]; exact g3

theorem HInv.free_le {c : Config} {hd : pool_header} {h : Heap} {live L : List Nat}
    {F : Nat → List Nat} (inv : HInv c hd h live L F) (b : Nat) (hb : b ∈ h.chunks) :
    h.free b ≤ hd.total := by
  have := inv.count b hb
  omega

theorem HInv.owner {c : Config} (wf : c.WF) {hd : pool_header} (ok : ClassOK c hd) {h : Heap}
    {live L : List Nat} {F : Nat → List Nat} (inv : HInv c hd h live L F) (b e : Nat)
    (hb : b ∈ h.chunks) (hs : is_slot c hd b e) : entry_holder c e = b :=
  entry_holder_slot c wf hd ok b e (inv.chunk_ok b hb).2.1 (inv.chunk_ok b hb).2.2 hs

/-- The pop is defined under the invariant and returns the head of the free list of
the head of the ready list. -/
theorem pop_entry_eq (c : Config) (wf : c.WF) (hd : pool_header) (ok : ClassOK c hd)
    (h : Heap) (live L : List Nat) (F : Nat → List Nat) (inv : HInv c hd h live L F)
    (hne : h.header.first ≠ 0) :
    pop_entry c h h.header.first =
      Outcome.ret (h.freep h.header.first) (pop_heap h h.header.first) := by
  obtain ⟨xs, fs, hL, hF, hmem, hpos, hback, hfore, _⟩ := inv.head_facts hne
  have hslot : is_slot c hd h.header.first (h.freep h.header.first) :=
    inv.free_slot _ hmem _ (by rw [hF]; exact List.mem_cons_self _ _)
  have hco := inv.chunk_ok _ hmem
  have hword := is_word_slot c wf hd ok h inv.hsize inv.htotal _ _ hmem hco.2.1 hco.2.2 hslot
  have hlt : h.free h.header.first < UINT_MOD :=
    lt_of_le_of_lt (inv.free_le _ hmem) (total_lt_uint c wf hd ok)
  have hsub : usub UINT_MOD (h.free h.header.first) 1 = h.free h.header.first - 1 :=
    usub_eq _ _ _ hpos hlt
  unfold pop_entry pop_heap
  rw [if_pos ⟨hmem, hword⟩]
  dsimp only
  rw [hsub]
  by_cases h1 : h.free h.header.first = 1
  · have h0 : h.free h.header.first - 1 = 0 := by omega
    rw [if_pos h0, if_pos h1]
    rw [unchain_eq]
    · exact hmem
    · intro hf
      have hf2 : h.fore h.header.first ≠ 0 := hf
      have : h.fore h.header.first ∈ L := by
        rw [hL]
        apply List.mem_cons_of_mem
        cases xs with
        | nil => exact absurd hfore hf2
        | cons y ys => rw [hfore]; exact List.mem_cons_self _ _
      exact ((inv.ready_iff _).mp this).1
    · intro hb
      exact absurd hback hb
  · have h0 : ¬ h.free h.header.first - 1 = 0 := by omega
    rw [if_neg h0, if_neg h1]

/-- The pop of `pool_alloc_entry` keeps the representation invariant: the returned
entry moves from the free list of the head holder to the live entries, and the holder
leaves the ready list when that was its last free entry. -/
theorem pop_inv (c : Config) (wf : c.WF) (hd : pool_header) (ok : ClassOK c hd)
    (h : Heap) (live L : List Nat) (F : Nat → List Nat) (inv : HInv c hd h live L F)
    (H : Nat) (hH : h.header.first = H) (hne : H ≠ 0) :
    h.freep H ∉ live ∧ is_slot c hd H (h.freep H) ∧ H ∈ h.chunks ∧
      HInv c hd (pop_heap h H) (h.freep H :: live) (if h.free H = 1 then L.tail else L)
        (Function.update F H (F H).tail) := by
  obtain ⟨xs, fs, hL, hF, hmem, hpos, hback, hfore, hfl⟩ := inv.head_facts (by rw [hH]; exact hne)
  rw [hH] at hL hF hmem hpos hback hfore hfl
  have hrF : h.freep H ∈ F H := by rw [hF]; exact List.mem_cons_self _ _
  have hslot : is_slot c hd H (h.freep H) := inv.free_slot H hmem _ hrF
  have hown : entry_holder c (h.freep H) = H := inv.owner wf ok H _ hmem hslot
  have hnl : h.freep H ∉ live := inv.free_not_live H hmem _ hrF
  have hFnd := inv.free_nodup H hmem
  rw [hF] at hFnd
  have hrfs : h.freep H ∉ fs := (List.nodup_cons.mp hFnd).1
  have hfsnd : fs.Nodup := (List.nodup_cons.mp hFnd).2
  have hLnd := inv.ready_nodup
  rw [hL] at hLnd
  have hHxs : H ∉ xs := (List.nodup_cons.mp hLnd).1
  have hxsnd : xs.Nodup := (List.nodup_cons.mp hLnd).2
  have htail : (F H).tail = fs := by rw [hF]; rfl
  have hle := inv.free_le H hmem
  -- the entries part, common to both cases
  have e_free_list : ∀ b ∈ h.chunks,
      FreeList h.mem (Function.update h.freep H (h.mem (h.freep H)) b)
        (Function.update F H (F H).tail b) := by
    intro b hb
    by_cases hbH : b = H
    · subst hbH; rw [Function.update_same, Function.update_same, htail]; exact hfl
    · rw [Function.update_noteq hbH, Function.update_noteq hbH]; exact inv.free_list b hb
  have e_free_len : ∀ b ∈ h.chunks,
      (Function.update F H (F H).tail b).length
        = Function.update h.free H (h.free H - 1) b := by
    intro b hb
    by_cases hbH : b = H
    · subst hbH
      rw [Function.update_same, Function.update_same, htail]
      have := inv.free_len b hb
      rw [hF] at this
      simp at this
      omega
    · rw [Function.update_noteq hbH, Function.update_noteq hbH]; exact inv.free_len b hb
  have e_sub : ∀ b ∈ h.chunks, ∀ e ∈ Function.update F H (F H).tail b, e ∈ F b := by
    intro b _ e he
    by_cases hbH : b = H
    · subst hbH
      rw [Function.update_same, htail] at he
      rw [hF]; exact List.mem_cons_of_mem _ he
    · rw [Function.update_noteq hbH] at he; exact he
  have e_free_nodup : ∀ b ∈ h.chunks, (Function.update F H (F H).tail b).Nodup := by
    intro b hb
    by_cases hbH : b = H
    · subst hbH; rw [Function.update_same, htail]; exact hfsnd
    · rw [Function.update_noteq hbH]; exact inv.free_nodup b hb
  have e_not_live : ∀ b ∈ h.chunks, ∀ e ∈ Function.update F H (F H).tail b,
      e ∉ h.freep H :: live := by
    intro b hb e he hmem2
    rcases List.mem_cons.mp hmem2 with heq | hl
    · by_cases hbH : b = H
      · subst hbH
        rw [Function.update_same, htail] at he
        exact hrfs (heq ▸ he)
      · rw [Function.update_noteq hbH] at he
        have := inv.owner wf ok b e hb (inv.free_slot b hb e he)
        rw [heq, hown] at this
        exact hbH this.symm
    · exact inv.free_not_live b hb e (e_sub b hb e he) hl
  have e_live_slot : ∀ e ∈ h.freep H :: live, ∃ b ∈ h.chunks, is_slot c hd b e := by
    intro e he
    rcases List.mem_cons.mp he with heq | hl
    · exact ⟨H, hmem, heq ▸ hslot⟩
    · exact inv.live_slot e hl
  have e_count : ∀ b ∈ h.chunks,
      Function.update h.free H (h.free H - 1) b + live_in c (h.freep H :: live) b
        = hd.total := by
    intro b hb
    rw [live_in_cons, hown]
    have := inv.count b hb
    by_cases hbH : b = H
    · subst hbH; rw [Function.update_same, if_pos rfl]; omega
    · rw [Function.update_noteq hbH, if_neg (Ne.symm hbH)]; omega
  refine ⟨hnl, hslot, hmem, ?_⟩
  by_cases h1 : h.free H = 1
  · -- the holder becomes full and is unlinked
    rw [if_pos h1, hL, List.tail_cons]
    have hun := Ready.unchain
      { h with
        freep := Function.update h.freep H (h.mem (h.freep H))
        free := Function.update h.free H (h.free H - 1) } H [] xs
      (by simpa using hLnd) (by rw [← hL, ← hH]; exact inv.ready)
    have hpop : pop_heap h H = unlock_header (unchain_heap
      { h with
        freep := Function.update h.freep H (h.mem (h.freep H))
        free := Function.update h.free H (h.free H - 1) } H) := by
      unfold pop_heap; dsimp only; rw [if_pos h1]
    have hforeH : h.fore H ≠ H := by
      intro e
      cases xs with
      | nil => exact hne (by rw [← e, hfore]; rfl)
      | cons y ys => exact hHxs (by rw [← e, hfore]; exact List.mem_cons_self _ _)
    have hfore_mem : h.fore H ≠ 0 → h.fore H ∈ xs := by
      intro hf
      cases xs with
      | nil => exact absurd hfore hf
      | cons y ys => rw [hfore]; exact List.mem_cons_self _ _
    refine
      { hsize := by simp [inv.hsize]
        htotal := by simp [inv.htotal]
        chunks_nodup := by simpa using inv.chunks_nodup
        chunk_ok := by simpa using inv.chunk_ok
        ready := by rw [hpop]; exact hun.1
        ready_nodup := hxsnd
        ready_iff := ?_
        unlinked := ?_
        holder_total := by simpa using inv.holder_total
        holder_hdr := by simpa using inv.holder_hdr
        free_list := by simpa using e_free_list
        free_len := by simpa using e_free_len
        free_nodup := by simpa using e_free_nodup
        free_slot := fun b hb e he =>
          inv.free_slot b (by simpa using hb) e (e_sub b (by simpa using hb) e he)
        free_not_live := by simpa using e_not_live
        live_nodup := List.nodup_cons.mpr ⟨hnl, inv.live_nodup⟩
        live_slot := by simpa using e_live_slot
        count := by simpa using e_count
        idle_first := ?_
        balance := by simpa using inv.balance }
    · intro b
      rw [pop_heap_chunks, pop_heap_free]
      by_cases hbH : b = H
      · subst hbH
        rw [Function.update_same]
        constructor
        · intro hb; exact absurd hb hHxs
        · intro hb; omega
      · rw [Function.update_noteq hbH, ← inv.ready_iff b, hL]
        simp [hbH]
    · intro b hb hbxs
      rw [pop_heap_chunks] at hb
      rw [hpop]
      simp only [unlock_header_fore, unlock_header_back]
      by_cases hbH : b = H
      · subst hbH
        exact ⟨unchain_heap_fore_self _ _ (by show h.back b ≠ b; rw [hback]; exact Ne.symm hne),
          unchain_heap_back_self _ _ hforeH⟩
      · have hbL : b ∉ L := by rw [hL]; simp [hbH, hbxs]
        have hb0 := (inv.chunk_ok b hb).1
        have := inv.unlinked b hb hbL
        rw [unchain_heap_fore_other _ _ _ hbH (by show b ≠ h.back H; rw [hback]; exact hb0),
          unchain_heap_back_other _ _ _ hbH
            (by
              show b ≠ h.fore H
              intro e
              by_cases hf : h.fore H = 0
              · exact hb0 (e.trans hf)
              · exact hbxs (e ▸ hfore_mem hf))]
        exact this
    · intro h2 b hb hfull
      rw [pop_heap_chunks] at hb
      rw [pop_heap_free] at hfull
      exfalso
      by_cases hbH : b = H
      · subst hbH; rw [Function.update_same] at hfull; omega
      · rw [Function.update_noteq hbH] at hfull
        exact hbH ((inv.idle_first h2 b hb hfull).symm.trans hH)
  · -- the holder keeps a free entry and stays linked
    rw [if_neg h1]
    obtain ⟨k1, k2, k3⟩ := pop_heap_keep h H h1
    refine
      { hsize := by simp [inv.hsize]
        htotal := by simp [inv.htotal]
        chunks_nodup := by simpa using inv.chunks_nodup
        chunk_ok := by simpa using inv.chunk_ok
        ready := by rw [k1, k2, k3]; exact inv.ready
        ready_nodup := inv.ready_nodup
        ready_iff := ?_
        unlinked := by rw [k1, k2]; simpa using inv.unlinked
        holder_total := by simpa using inv.holder_total
        holder_hdr := by simpa using inv.holder_hdr
        free_list := by simpa using e_free_list
        free_len := by simpa using e_free_len
        free_nodup := by simpa using e_free_nodup
        free_slot := fun b hb e he =>
          inv.free_slot b (by simpa using hb) e (e_sub b (by simpa using hb) e he)
        free_not_live := by simpa using e_not_live
        live_nodup := List.nodup_cons.mpr ⟨hnl, inv.live_nodup⟩
        live_slot := by simpa using e_live_slot
        count := by simpa using e_count
        idle_first := ?_
        balance := by simpa using inv.balance }
    · intro b
      rw [pop_heap_chunks, pop_heap_free]
      by_cases hbH : b = H
      · subst hbH
        rw [Function.update_same]
        constructor
        · intro _; exact ⟨hmem, by omega⟩
        · intro _; rw [hL]; exact List.mem_cons_self _ _
      · rw [Function.update_noteq hbH]; exact inv.ready_iff b
    · intro h2 b hb hfull
      rw [pop_heap_chunks] at hb
      rw [pop_heap_free] at hfull
      rw [k3]
      by_cases hbH : b = H
      · subst hbH; exact hH
      · rw [Function.update_noteq hbH] at hfull
        exact inv.idle_first h2 b hb hfull

/-! ### `pool_free_entry` under the invariant -/

@[simp] theorem bump_heap_first (h : Heap) (H : Nat) : (bump_heap h H).header.first = h.header.first := rfl
@[simp] theorem bump_heap_size (h : Heap) (H : Nat) : (bump_heap h H).header.size = h.header.size := rfl
@[simp] theorem bump_heap_total (h : Heap) (H : Nat) : (bump_heap h H).header.total = h.header.total := rfl
@[simp] theorem bump_heap_chunks (h : Heap) (H : Nat) : (bump_heap h H).chunks = h.chunks := rfl
@[simp] theorem bump_heap_free (h : Heap) (H : Nat) :
    (bump_heap h H).free = Function.update h.free H (h.free H + 1) := rfl
@[simp] theorem bump_heap_htotal (h : Heap) (H : Nat) : (bump_heap h H).total = h.total := rfl
@[simp] theorem bump_heap_hdr (h : Heap) (H : Nat) : (bump_heap h H).hdr = h.hdr := rfl
@[simp] theorem bump_heap_freep (h : Heap) (H : Nat) : (bump_heap h H).freep = h.freep := rfl
@[simp] theorem bump_heap_fore (h : Heap) (H : Nat) : (bump_heap h H).fore = h.fore := rfl
@[simp] theorem bump_heap_back (h : Heap) (H : Nat) : (bump_heap h H).back = h.back := rfl
@[simp] theorem bump_heap_mem (h : Heap) (H : Nat) : (bump_heap h H).mem = h.mem := rfl
@[simp] theorem bump_heap_log (h : Heap) (H : Nat) : (bump_heap h H).log = h.log := rfl

@[simp] theorem push_heap_first (h : Heap) (H e : Nat) : (push_heap h H e).header.first = h.header.first := rfl
@[simp] theorem push_heap_size (h : Heap) (H e : Nat) : (push_heap h H e).header.size = h.header.size := rfl
@[simp] theorem push_heap_total (h : Heap) (H e : Nat) : (push_heap h H e).header.total = h.header.total := rfl
@[simp] theorem push_heap_lock (h : Heap) (H e : Nat) : (push_heap h H e).header.lock = 0 := rfl
@[simp] theorem push_heap_chunks (h : Heap) (H e : Nat) : (push_heap h H e).chunks = h.chunks := rfl
@[simp] theorem push_heap_free (h : Heap) (H e : Nat) : (push_heap h H e).free = h.free := rfl
@[simp] theorem push_heap_htotal (h : Heap) (H e : Nat) : (push_heap h H e).total = h.total := rfl
@[simp] theorem push_heap_hdr (h : Heap) (H e : Nat) : (push_heap h H e).hdr = h.hdr := rfl
@[simp] theorem push_heap_freep (h : Heap) (H e : Nat) :
    (push_heap h H e).freep = Function.update h.freep H e := rfl
@[simp] theorem push_heap_fore (h : Heap) (H e : Nat) : (push_heap h H e).fore = h.fore := rfl
@[simp] theorem push_heap_back (h : Heap) (H e : Nat) : (push_heap h H e).back = h.back := rfl
@[simp] theorem push_heap_mem (h : Heap) (H e : Nat) :
    (push_heap h H e).mem = Function.update h.mem e (h.freep H) := rfl
@[simp] theorem push_heap_log (h : Heap) (H e : Nat) : (push_heap h H e).log = h.log := rfl

@[simp] theorem relink_heap_size (h : Heap) (H : Nat) :
    (relink_heap h H).header.size = h.header.size := by
  unfold relink_heap; split <;> rfl
@[simp] theorem relink_heap_total (h : Heap) (H : Nat) :
    (relink_heap h H).header.total = h.header.total := by
  unfold relink_heap; split <;> rfl
@[simp] theorem relink_heap_lock (h : Heap) (H : Nat) :
    (relink_heap h H).header.lock = h.header.lock := by
  unfold relink_heap; split <;> rfl
@[simp] theorem relink_heap_chunks (h : Heap) (H : Nat) : (relink_heap h H).chunks = h.chunks := by
  unfold relink_heap; split <;> rfl
@[simp] theorem relink_heap_free (h : Heap) (H : Nat) : (relink_heap h H).free = h.free := by
  unfold relink_heap; split <;> rfl
@[simp] theorem relink_heap_htotal (h : Heap) (H : Nat) : (relink_heap h H).total = h.total := by
  unfold relink_heap; split <;> rfl
@[simp] theorem relink_heap_hdr (h : Heap) (H : Nat) : (relink_heap h H).hdr = h.hdr := by
  unfold relink_heap; split <;> rfl
@[simp] theorem relink_heap_freep (h : Heap) (H : Nat) : (relink_heap h H).freep = h.freep := by
  unfold relink_heap; split <;> rfl
@[simp] theorem relink_heap_mem (h : Heap) (H : Nat) : (relink_heap h H).mem = h.mem := by
  unfold relink_heap; split <;> rfl
@[simp] theorem relink_heap_log (h : Heap) (H : Nat) : (relink_heap h H).log = h.log := by
  unfold relink_heap; split <;> rfl

@[simp] theorem aligned_free_header (h : Heap) (p : Nat) : (aligned_free h p).header = h.header := rfl
@[simp] theorem aligned_free_chunks (h : Heap) (p : Nat) :
    (aligned_free h p).chunks = h.chunks.erase p := rfl
@[simp] theorem aligned_free_free (h : Heap) (p : Nat) : (aligned_free h p).free = h.free := rfl
@[simp] theorem aligned_free_htotal (h : Heap) (p : Nat) : (aligned_free h p).total = h.total := rfl
@[simp] theorem aligned_free_hdr (h : Heap) (p : Nat) : (aligned_free h p).hdr = h.hdr := rfl
@[simp] theorem aligned_free_freep (h : Heap) (p : Nat) : (aligned_free h p).freep = h.freep := rfl
@[simp] theorem aligned_free_fore (h : Heap) (p : Nat) : (aligned_free h p).fore = h.fore := rfl
@[simp] theorem aligned_free_back (h : Heap) (p : Nat) : (aligned_free h p).back = h.back := rfl
@[simp] theorem aligned_free_mem (h : Heap) (p : Nat) : (aligned_free h p).mem = h.mem := rfl
@[simp] theorem aligned_free_log (h : Heap) (p : Nat) :
    (aligned_free h p).log = h.log ++ [Event.release p] := rfl

theorem is_word_congr (c : Config) (h h1 : Heap) (a : Nat) (h1c : h1.chunks = h.chunks)
    (h1s : h1.header.size = h.header.size) (h1t : h1.header.total = h.header.total) :
    is_word c h1 a ↔ is_word c h a := by
  unfold is_word holder_bytes
  rw [h1c, h1s, h1t]

/-- The push at the end of `pool_free_entry` is defined for a word of a held chunk. -/
theorem push_entry_eq (c : Config) (h : Heap) (H e : Nat) (hw : is_word c h e) :
    push_entry c h H e = some (push_heap h H e) := by
  unfold push_entry write_word push_heap
  rw [if_pos hw]
  rfl

/-- What the invariant gives about a live entry and its owner. -/
theorem HInv.live_facts {c : Config} (wf : c.WF) {hd : pool_header} (ok : ClassOK c hd)
    {h : Heap} {live L : List Nat} {F : Nat → List Nat} (inv : HInv c hd h live L F)
    (e : Nat) (he : e ∈ live) :
    entry_holder c e ∈ h.chunks ∧ is_slot c hd (entry_holder c e) e ∧ e ≠ 0 ∧
      h.free (entry_holder c e) + 1 ≤ hd.total ∧ is_word c h e ∧
      ∀ b ∈ h.chunks, e ∉ F b := by
  obtain ⟨b, hb, hs⟩ := inv.live_slot e he
  have hown := inv.owner wf ok b e hb hs
  have hco := inv.chunk_ok b hb
  rw [hown]
  refine ⟨hb, hs, slot_ne_zero c hd b e hco.1 hs, ?_,
    is_word_slot c wf hd ok h inv.hsize inv.htotal b e hb hco.2.1 hco.2.2 hs, ?_⟩
  · have h1 := inv.count b hb
    have h2 := live_in_pos c live e he
    rw [hown] at h2
    omega
  · intro b2 hb2 hmem
    exact inv.free_not_live b2 hb2 e hmem he

/-- The function `pool_free_entry` is defined on a live entry, with the closed form
as result. -/
theorem free_eq (c : Config) (wf : c.WF) (hd : pool_header) (ok : ClassOK c hd)
    (h : Heap) (live L : List Nat) (F : Nat → List Nat) (inv : HInv c hd h live L F)
    (e : Nat) (he : e ∈ live) :
    pool_free_entry c h e = some (free_heap c h e) := by
  obtain ⟨hmem, hslot, he0, hle, hword, hnF⟩ := inv.live_facts wf ok e he
  have hlt := total_lt_uint c wf hd ok
  have hmod : (h.free (entry_holder c e) + 1) % UINT_MOD = h.free (entry_holder c e) + 1 :=
    Nat.mod_eq_of_lt (by omega)
  have hwb : is_word c (bump_heap h (entry_holder c e)) e :=
    (is_word_congr c h _ e rfl rfl rfl).mpr hword
  unfold pool_free_entry free_heap
  dsimp only
  rw [if_pos ⟨hmem, inv.holder_hdr _ hmem⟩]
  simp only [lock_header_free, lock_header_first, lock_header_htotal, hmod]
  by_cases h0 : h.free (entry_holder c e) = 0
  · rw [if_pos h0, if_pos h0]
    have hHL : entry_holder c e ∉ L := fun hL => by
      have := ((inv.ready_iff _).mp hL).2
      omega
    by_cases hf : h.header.first = 0
    · rw [if_pos hf]
      have hrl : relink_heap (bump_heap h (entry_holder c e)) (entry_holder c e)
          = set_first (bump_heap h (entry_holder c e)) (entry_holder c e) := by
        unfold relink_heap; rw [if_pos (by simpa using hf)]
      rw [hrl]
      exact push_entry_eq c (set_first (bump_heap h (entry_holder c e)) (entry_holder c e)) _ _
        ((is_word_congr c _ _ e rfl rfl rfl).mpr hwb)
    · rw [if_neg hf]
      obtain ⟨xs, fs, hL, _, hfmem, _, _, hfore, _⟩ := inv.head_facts hf
      have hfH : h.header.first ≠ entry_holder c e := fun e1 => hHL (by
        rw [hL, e1]; exact List.mem_cons_self _ _)
      have hnext : h.fore h.header.first ≠ 0 → h.fore h.header.first ∈ h.chunks := by
        intro hn
        have : h.fore h.header.first ∈ L := by
          rw [hL]
          apply List.mem_cons_of_mem
          cases xs with
          | nil => exact absurd hfore hn
          | cons y ys => rw [hfore]; exact List.mem_cons_self _ _
        exact ((inv.ready_iff _).mp this).1
      have hrl : relink_heap (bump_heap h (entry_holder c e)) (entry_holder c e)
          = { bump_heap h (entry_holder c e) with
              fore := Function.update (Function.update h.fore (entry_holder c e)
                (h.fore h.header.first)) h.header.first (entry_holder c e)
              back :=
                if h.fore h.header.first ≠ 0 then
                  Function.update (Function.update h.back (entry_holder c e) h.header.first)
                    (h.fore h.header.first) (entry_holder c e)
                else Function.update h.back (entry_holder c e) h.header.first } := by
        unfold relink_heap; rw [if_neg (by simpa using hf)]; rfl
      rw [hrl]
      unfold write_back write_fore
      simp only [lock_header_chunks, lock_header_fore, lock_header_back, hmem, hfmem, if_true,
        Option.some_bind, Option.bind_some]
      rw [Function.update_noteq (Ne.symm hfH), Function.update_same]
      by_cases hn : h.fore h.header.first = 0
      · simp only [hn, ne_eq, not_true_eq_false, if_false, Option.some_bind]
        exact push_entry_eq c _ _ _ ((is_word_congr c _ _ e rfl rfl rfl).mpr hwb)
      · simp only [hn, ne_eq, not_false_eq_true, if_true, hnext hn, Option.some_bind]
        exact push_entry_eq c _ _ _ ((is_word_congr c _ _ e rfl rfl rfl).mpr hwb)
  · rw [if_neg h0, if_neg h0]
    by_cases hrel : h.free (entry_holder c e) + 1 = h.total (entry_holder c e) ∧
        h.header.first ≠ entry_holder c e
    · rw [if_pos (by simpa using hrel), if_pos hrel]
      have hHL : entry_holder c e ∈ L := (inv.ready_iff _).mpr ⟨hmem, by omega⟩
      obtain ⟨l1, l2, hsplit⟩ := List.append_of_mem hHL
      have hun := Ready.unchain h (entry_holder c e) l1 l2 (hsplit ▸ inv.ready_nodup)
        (hsplit ▸ inv.ready)
      have hmemL : ∀ x ∈ L, x ∈ h.chunks := fun x hx => ((inv.ready_iff x).mp hx).1
      rw [unchain_eq]
      · rfl
      · exact hmem
      · intro hf
        have hf2 : h.fore (entry_holder c e) ≠ 0 := hf
        show h.fore (entry_holder c e) ∈ h.chunks
        apply hmemL
        rw [hsplit]
        apply List.mem_append_right
        apply List.mem_cons_of_mem
        cases l2 with
        | nil => exact absurd hun.2.1 hf2
        | cons y ys => rw [show h.fore (entry_holder c e) = y from hun.2.1]
                       exact List.mem_cons_self _ _
      · intro hb
        show h.back (entry_holder c e) ∈ h.chunks
        apply hmemL
        rw [hsplit]
        exact List.mem_append_left _ (hun.2.2.2 hb)
    · rw [if_neg (by simpa using hrel), if_neg hrel]
      exact push_entry_eq c _ _ _ hwb

theorem grants_append (l1 l2 : List Event) : grants (l1 ++ l2) = grants l1 + grants l2 := by
  induction l1 with
  | nil => simp [grants]
  | cons x xs ih => cases x <;> simp [grants, ih]; omega

theorem releases_append (l1 l2 : List Event) :
    releases (l1 ++ l2) = releases l1 ++ releases l2 := by
  induction l1 with
  | nil => simp [releases]
  | cons x xs ih => cases x <;> simp [releases, ih]

theorem requests_append (l1 l2 : List Event) :
    requests (l1 ++ l2) = requests l1 + requests l2 := by
  induction l1 with
  | nil => simp [requests]
  | cons x xs ih => cases x <;> simp [requests, ih]; omega

/-- The entries part of the invariant after the push of a live entry. -/
theorem push_facts (c : Config) (wf : c.WF) (hd : pool_header) (ok : ClassOK c hd)
    (h : Heap) (live L : List Nat) (F : Nat → List Nat) (inv : HInv c hd h live L F)
    (e H : Nat) (he : e ∈ live) (hH : entry_holder c e = H) :
    (∀ b ∈ h.chunks, FreeList (Function.update h.mem e (h.freep H))
        (Function.update h.freep H e b) (Function.update F H (e :: F H) b)) ∧
    (∀ b ∈ h.chunks, (Function.update F H (e :: F H) b).length
        = Function.update h.free H (h.free H + 1) b) ∧
    (∀ b ∈ h.chunks, (Function.update F H (e :: F H) b).Nodup) ∧
    (∀ b ∈ h.chunks, ∀ x ∈ Function.update F H (e :: F H) b, is_slot c hd b x) ∧
    (∀ b ∈ h.chunks, ∀ x ∈ Function.update F H (e :: F H) b, x ∉ live.erase e) ∧
    (live.erase e).Nodup ∧
    (∀ x ∈ live.erase e, ∃ b ∈ h.chunks, is_slot c hd b x) ∧
    (∀ b ∈ h.chunks, Function.update h.free H (h.free H + 1) b + live_in c (live.erase e) b
        = hd.total) := by
  obtain ⟨hmem, hslot, he0, hle, hword, hnF⟩ := inv.live_facts wf ok e he
  rw [hH] at hmem hslot hle
  refine ⟨?_, ?_, ?_, ?_, ?_, inv.live_nodup.erase e, ?_, ?_⟩
  · intro b hb
    by_cases hbH : b = H
    · subst hbH
      rw [Function.update_same, Function.update_same]
      refine ⟨rfl, he0, ?_⟩
      rw [Function.update_same]
      refine FreeList.frame_mem (F b) (h.freep b) ?_ (inv.free_list b hb)
      intro x hx
      exact Function.update_noteq (fun (e1 : x = e) => hnF b hb (e1 ▸ hx)) _ _
    · rw [Function.update_noteq hbH, Function.update_noteq hbH]
      refine FreeList.frame_mem (F b) (h.freep b) ?_ (inv.free_list b hb)
      intro x hx
      exact Function.update_noteq (fun (e1 : x = e) => hnF b hb (e1 ▸ hx)) _ _
  · intro b hb
    by_cases hbH : b = H
    · subst hbH
      rw [Function.update_same, Function.update_same, List.length_cons, inv.free_len b hb]
    · rw [Function.update_noteq hbH, Function.update_noteq hbH]; exact inv.free_len b hb
  · intro b hb
    by_cases hbH : b = H
    · subst hbH
      rw [Function.update_same]
      exact List.nodup_cons.mpr ⟨hnF b hb, inv.free_nodup b hb⟩
    · rw [Function.update_noteq hbH]; exact inv.free_nodup b hb
  · intro b hb x hx
    by_cases hbH : b = H
    · subst hbH
      rw [Function.update_same] at hx
      rcases List.mem_cons.mp hx with h1 | h1
      · rw [h1]; exact hslot
      · exact inv.free_slot b hb x h1
    · rw [Function.update_noteq hbH] at hx; exact inv.free_slot b hb x hx
  · intro b hb x hx hxl
    by_cases hbH : b = H
    · subst hbH
      rw [Function.update_same] at hx
      rcases List.mem_cons.mp hx with h1 | h1
      · rw [h1] at hxl
        exact (List.Nodup.not_mem_erase inv.live_nodup) hxl
      · exact inv.free_not_live b hb x h1 (List.mem_of_mem_erase hxl)
    · rw [Function.update_noteq hbH] at hx
      exact inv.free_not_live b hb x hx (List.mem_of_mem_erase hxl)
  · intro x hx
    exact inv.live_slot x (List.mem_of_mem_erase hx)
  · intro b hb
    have h1 := live_in_erase c live e b he
    have h2 := inv.count b hb
    rw [hH] at h1
    by_cases hbH : b = H
    · subst hbH
      rw [Function.update_same]
      rw [if_pos rfl] at h1
      omega
    · rw [Function.update_noteq hbH]
      rw [if_neg (Ne.symm hbH)] at h1
      omega

theorem relink_heap_empty (h : Heap) (H : Nat) (hf : h.header.first = 0) :
    (relink_heap h H).fore = h.fore ∧ (relink_heap h H).back = h.back ∧
      (relink_heap h H).header.first = H := by
  unfold relink_heap; rw [if_pos hf]; exact ⟨rfl, rfl, rfl⟩

theorem relink_heap_behind (h : Heap) (H : Nat) (hf : h.header.first ≠ 0) :
    (relink_heap h H).fore
        = Function.update (Function.update h.fore H (h.fore h.header.first)) h.header.first H ∧
      (relink_heap h H).back
        = (if h.fore h.header.first ≠ 0 then
            Function.update (Function.update h.back H h.header.first) (h.fore h.header.first) H
          else Function.update h.back H h.header.first) ∧
      (relink_heap h H).header.first = h.header.first := by
  unfold relink_heap; rw [if_neg hf]; exact ⟨rfl, rfl, rfl⟩

/-- Linking a holder right behind the head of a non-empty ready list. -/
theorem Ready.relink_behind (fore back : Nat → Nat) (F1 H : Nat) (xs : List Nat)
    (hnd : (F1 :: xs).Nodup) (hH : H ∉ F1 :: xs) (hH0 : H ≠ 0)
    (hr : Ready fore back 0 F1 (F1 :: xs)) :
    Ready (Function.update (Function.update fore H (fore F1)) F1 H)
      (if fore F1 ≠ 0 then Function.update (Function.update back H F1) (fore F1) H
        else Function.update back H F1) 0 F1 (F1 :: H :: xs) := by
  obtain ⟨_, h2, h3, h4⟩ := hr
  have hF1xs : F1 ∉ xs := (List.nodup_cons.mp hnd).1
  have hxsnd : xs.Nodup := (List.nodup_cons.mp hnd).2
  have hHF1 : H ≠ F1 := fun e => hH (e ▸ List.mem_cons_self _ _)
  have hHxs : H ∉ xs := fun e => hH (List.mem_cons_of_mem _ e)
  have hnext : fore F1 = xs.headD 0 := h4.start
  have hnF1 : fore F1 ≠ F1 := by
    intro e
    cases xs with
    | nil => exact h2 (by rw [← e, hnext]; rfl)
    | cons y ys => exact hF1xs (by rw [← e, hnext]; exact List.mem_cons_self _ _)
  have hnH : fore F1 ≠ H := by
    intro e
    cases xs with
    | nil => exact hH0 (by rw [← e, hnext]; rfl)
    | cons y ys => exact hHxs (by rw [← e, hnext]; exact List.mem_cons_self _ _)
  have backF1 : (if fore F1 ≠ 0 then Function.update (Function.update back H F1) (fore F1) H
        else Function.update back H F1) F1 = 0 := by
    split
    · rw [Function.update_noteq (Ne.symm hnF1), Function.update_noteq (Ne.symm hHF1)]; exact h3
    · rw [Function.update_noteq (Ne.symm hHF1)]; exact h3
  have backH : (if fore F1 ≠ 0 then Function.update (Function.update back H F1) (fore F1) H
        else Function.update back H F1) H = F1 := by
    split
    · rw [Function.update_noteq (Ne.symm hnH), Function.update_same]
    · rw [Function.update_same]
  refine ⟨rfl, h2, backF1, ?_⟩
  rw [Function.update_same]
  refine ⟨rfl, hH0, backH, ?_⟩
  rw [Function.update_noteq hHF1, Function.update_same]
  cases xs with
  | nil => exact h4
  | cons f r =>
    obtain ⟨g1, g2, _, g4⟩ := h4
    have hfF1 : f ≠ F1 := fun e => hF1xs (e ▸ List.mem_cons_self _ _)
    have hfH : f ≠ H := fun e => hHxs (e ▸ List.mem_cons_self _ _)
    have hfr : f ∉ r := (List.nodup_cons.mp hxsnd).1
    refine ⟨g1, g2, ?_, ?_⟩
    · rw [if_pos (by rw [g1]; exact g2), g1, Function.update_same]
    · rw [Function.update_noteq hfF1, Function.update_noteq hfH]
      refine Ready.frame_links r f (fore f) ?_ g4
      intro x hx
      have hxF1 : x ≠ F1 := fun e => hF1xs (e ▸ List.mem_cons_of_mem _ hx)
      have hxH : x ≠ H := fun e => hHxs (e ▸ List.mem_cons_of_mem _ hx)
      have hxf : x ≠ f := fun e => hfr (e ▸ hx)
      refine ⟨by rw [Function.update_noteq hxF1, Function.update_noteq hxH], ?_⟩
      rw [if_pos (by rw [g1]; exact g2), g1, Function.update_noteq hxf,
        Function.update_noteq hxH]

/-- The function `pool_free_entry` on a live entry keeps the representation invariant. -/
theorem free_inv (c : Config) (wf : c.WF) (hd : pool_header) (ok : ClassOK c hd)
    (h : Heap) (live L : List Nat) (F : Nat → List Nat) (inv : HInv c hd h live L F)
    (e : Nat) (he : e ∈ live) :
    HInv c hd (free_heap c h e) (live.erase e) (free_ready c h e L)
      (Function.update F (entry_holder c e) (e :: F (entry_holder c e))) := by
  obtain ⟨hmem, hslot, he0, hle, hword, hnF⟩ := inv.live_facts wf ok e he
  obtain ⟨H, hH⟩ : ∃ H, entry_holder c e = H := ⟨_, rfl⟩
  obtain ⟨p1, p2, p3, p4, p5, p6, p7, p8⟩ := push_facts c wf hd ok h live L F inv e H he hH
  unfold free_heap free_ready
  dsimp only
  rw [hH] at hmem hslot hle ⊢
  have hco := inv.chunk_ok H hmem
  have htot := inv.holder_total H hmem
  by_cases h0 : h.free H = 0
  · rw [if_pos h0, if_pos h0]
    have hHL : H ∉ L := fun hL => by
      have := ((inv.ready_iff _).mp hL).2
      omega
    have hul := inv.unlinked H hmem hHL
    cases hL : L with
    | nil =>
      have hf : h.header.first = 0 := by have := inv.ready; rw [hL] at this; exact this
      obtain ⟨k1, k2, k3⟩ := relink_heap_empty (bump_heap h H) H hf
      refine
        { hsize := by simp [inv.hsize]
          htotal := by simp [inv.htotal]
          chunks_nodup := by simpa using inv.chunks_nodup
          chunk_ok := by simpa using inv.chunk_ok
          ready := ?_
          ready_nodup := by simp [relink_list]
          ready_iff := ?_
          unlinked := ?_
          holder_total := by simpa using inv.holder_total
          holder_hdr := by simpa using inv.holder_hdr
          free_list := by simpa using p1
          free_len := by simpa using p2
          free_nodup := by simpa using p3
          free_slot := by simpa using p4
          free_not_live := by simpa using p5
          live_nodup := p6
          live_slot := by simpa using p7
          count := by simpa using p8
          idle_first := ?_
          balance := by simpa using inv.balance }
      · simp only [push_heap_fore, push_heap_back, push_heap_first, k1, k2, k3, relink_list,
          bump_heap_fore, bump_heap_back]
        exact ⟨rfl, hco.1, hul.2, hul.1⟩
      · intro b
        simp only [relink_list, List.mem_singleton, push_heap_chunks, relink_heap_chunks,
          bump_heap_chunks, push_heap_free, relink_heap_free, bump_heap_free]
        by_cases hbH : b = H
        · subst hbH; rw [Function.update_same]; simp [hmem]
        · rw [Function.update_noteq hbH]
          have := inv.ready_iff b
          rw [hL] at this
          simp only [List.not_mem_nil, false_iff] at this
          simp [hbH, this]
      · intro b hb hbL
        simp only [push_heap_chunks, relink_heap_chunks, bump_heap_chunks] at hb
        simp only [push_heap_fore, push_heap_back, k1, k2, bump_heap_fore, bump_heap_back]
        exact inv.unlinked b hb (by rw [hL]; simp)
      · intro h2 b hb hfull
        simp only [push_heap_chunks, relink_heap_chunks, bump_heap_chunks] at hb
        simp only [push_heap_free, relink_heap_free, bump_heap_free] at hfull
        simp only [push_heap_first, k3]
        by_cases hbH : b = H
        · exact hbH.symm
        · rw [Function.update_noteq hbH] at hfull
          have : b ∈ L := (inv.ready_iff b).mpr ⟨hb, by omega⟩
          rw [hL] at this
          simp at this
    | cons F1 xs =>
      have hrd := inv.ready
      rw [hL] at hrd
      have hf : h.header.first = F1 := hrd.1
      have hF10 : F1 ≠ 0 := hrd.2.1
      have hLnd := inv.ready_nodup
      rw [hL] at hLnd hHL
      obtain ⟨k1, k2, k3⟩ := relink_heap_behind (bump_heap h H) H (by rw [bump_heap_first, hf]; exact hF10)
      simp only [bump_heap_fore, bump_heap_back, bump_heap_first, hf] at k1 k2 k3
      have hrel := Ready.relink_behind h.fore h.back F1 H xs hLnd hHL hco.1 (hf ▸ hrd)
      have hnext : h.fore F1 ≠ 0 → h.fore F1 ∈ xs := by
        intro hn
        have := hrd.2.2.2.start
        cases xs with
        | nil => exact absurd this hn
        | cons y ys => rw [this]; exact List.mem_cons_self _ _
      refine
        { hsize := by simp [inv.hsize]
          htotal := by simp [inv.htotal]
          chunks_nodup := by simpa using inv.chunks_nodup
          chunk_ok := by simpa using inv.chunk_ok
          ready := ?_
          ready_nodup := ?_
          ready_iff := ?_
          unlinked := ?_
          holder_total := by simpa using inv.holder_total
          holder_hdr := by simpa using inv.holder_hdr
          free_list := by simpa using p1
          free_len := by simpa using p2
          free_nodup := by simpa using p3
          free_slot := by simpa using p4
          free_not_live := by simpa using p5
          live_nodup := p6
          live_slot := by simpa using p7
          count := by simpa using p8
          idle_first := ?_
          balance := by simpa using inv.balance }
      · simp only [push_heap_fore, push_heap_back, push_heap_first, k1, k2, k3, relink_list]
        exact hrel
      · simp only [relink_list]
        have h1 : F1 ∉ xs := (List.nodup_cons.mp hLnd).1
        have h2 : xs.Nodup := (List.nodup_cons.mp hLnd).2
        have h3 : H ≠ F1 := fun e1 => hHL (e1 ▸ List.mem_cons_self _ _)
        have h4 : H ∉ xs := fun e1 => hHL (List.mem_cons_of_mem _ e1)
        refine List.nodup_cons.mpr ⟨?_, List.nodup_cons.mpr ⟨h4, h2⟩⟩
        intro hm
        rcases List.mem_cons.mp hm with e1 | e1
        · exact h3 e1.symm
        · exact h1 e1
      · intro b
        simp only [relink_list, push_heap_chunks, relink_heap_chunks,
          bump_heap_chunks, push_heap_free, relink_heap_free, bump_heap_free]
        by_cases hbH : b = H
        · subst hbH; rw [Function.update_same]; simp [hmem]
        · rw [Function.update_noteq hbH]
          have := inv.ready_iff b
          rw [hL] at this
          rw [← this]
          simp [hbH]
      · intro b hb hbL
        simp only [push_heap_chunks, relink_heap_chunks, bump_heap_chunks] at hb
        simp only [relink_list, List.mem_cons, not_or] at hbL
        obtain ⟨hb1, hb2, hb3⟩ := hbL
        have hb0 := (inv.chunk_ok b hb).1
        have hbn : b ≠ h.fore F1 := by
          intro e1
          by_cases hn : h.fore F1 = 0
          · exact hb0 (e1.trans hn)
          · exact hb3 (e1 ▸ hnext hn)
        have hu := inv.unlinked b hb (by rw [hL]; simp [hb1, hb3])
        simp only [push_heap_fore, push_heap_back, k1, k2]
        constructor
        · rw [Function.update_noteq hb1, Function.update_noteq hb2]; exact hu.1
        · split
          · rw [Function.update_noteq hbn, Function.update_noteq hb2]; exact hu.2
          · rw [Function.update_noteq hb2]; exact hu.2
      · intro h2 b hb hfull
        simp only [push_heap_chunks, relink_heap_chunks, bump_heap_chunks] at hb
        simp only [push_heap_free, relink_heap_free, bump_heap_free] at hfull
        simp only [push_heap_first, k3]
        by_cases hbH : b = H
        · subst hbH
          rw [Function.update_same] at hfull
          omega
        · rw [Function.update_noteq hbH] at hfull
          rw [← hf]
          exact inv.idle_first h2 b hb hfull
  · rw [if_neg h0, if_neg h0]
    have hHL : H ∈ L := (inv.ready_iff _).mpr ⟨hmem, by omega⟩
    by_cases hrel : h.free H + 1 = h.total H ∧ h.header.first ≠ H
    · -- the holder is now fully idle and not the head: it is released
      rw [if_pos hrel, if_pos hrel]
      obtain ⟨l1, l2, hsplit⟩ := List.append_of_mem hHL
      have hLnd := inv.ready_nodup
      rw [hsplit] at hLnd
      have hHl1 : H ∉ l1 := fun hm =>
        (List.nodup_append.mp hLnd).2.2 hm (List.mem_cons_self _ _)
      have hHl2 : H ∉ l2 := (List.nodup_cons.mp (List.nodup_append.mp hLnd).2.1).1
      have herase : L.erase H = l1 ++ l2 := by
        rw [hsplit, List.erase_append_right _ hHl1, List.erase_cons_head]
      obtain ⟨u1, u2, u3, u4⟩ := Ready.unchain (bump_heap h H) H l1 l2 hLnd (hsplit ▸ inv.ready)
      simp only [bump_heap_fore, bump_heap_back] at u2 u3 u4
      have hl1 : l1 ≠ [] := by
        intro e1
        have := inv.ready.start
        rw [hsplit, e1] at this
        exact hrel.2 this
      have hback : h.back H ≠ 0 := fun e1 => hl1 (u3.mp e1)
      have hbackL : h.back H ∈ L := by rw [hsplit]; exact List.mem_append_left _ (u4 hback)
      have hforeL : h.fore H ≠ 0 → h.fore H ∈ L := by
        intro hn
        rw [hsplit]
        apply List.mem_append_right
        apply List.mem_cons_of_mem
        cases l2 with
        | nil => exact absurd u2 hn
        | cons y ys => rw [u2]; exact List.mem_cons_self _ _
      have hlive0 : ∀ x ∈ live.erase e, entry_holder c x ≠ H := by
        have h8 := p8 H hmem
        rw [Function.update_same] at h8
        have : live_in c (live.erase e) H = 0 := by omega
        unfold live_in at this
        rw [List.countP_eq_zero] at this
        intro x hx
        simpa using this x hx
      have hmem_erase : ∀ b, b ∈ h.chunks.erase H ↔ b ≠ H ∧ b ∈ h.chunks :=
        fun b => inv.chunks_nodup.mem_erase_iff
      refine
        { hsize := by simp [inv.hsize]
          htotal := by simp [inv.htotal]
          chunks_nodup := by simpa using inv.chunks_nodup.erase H
          chunk_ok := ?_
          ready := ?_
          ready_nodup := inv.ready_nodup.erase H
          ready_iff := ?_
          unlinked := ?_
          holder_total := ?_
          holder_hdr := ?_
          free_list := ?_
          free_len := ?_
          free_nodup := ?_
          free_slot := ?_
          free_not_live := ?_
          live_nodup := p6
          live_slot := ?_
          count := ?_
          idle_first := ?_
          balance := ?_ }
      · intro b hb
        exact inv.chunk_ok b ((hmem_erase b).mp (by simpa using hb)).2
      · rw [herase]
        simpa using u1
      · intro b
        simp only [unlock_header_chunks, aligned_free_chunks, unchain_heap_chunks,
          bump_heap_chunks, unlock_header_free, aligned_free_free, unchain_heap_free,
          bump_heap_free]
        rw [hmem_erase b, inv.ready_nodup.mem_erase_iff]
        by_cases hbH : b = H
        · simp [hbH]
        · rw [Function.update_noteq hbH, inv.ready_iff b, and_assoc]
      · intro b hb hbL
        simp only [unlock_header_chunks, aligned_free_chunks, unchain_heap_chunks,
          bump_heap_chunks] at hb
        obtain ⟨hbH, hbc⟩ := (hmem_erase b).mp hb
        have hbL2 : b ∉ L := fun hm => hbL (inv.ready_nodup.mem_erase_iff.mpr ⟨hbH, hm⟩)
        have hu := inv.unlinked b hbc hbL2
        have hb0 := (inv.chunk_ok b hbc).1
        simp only [unlock_header_fore, unlock_header_back, aligned_free_fore, aligned_free_back]
        rw [unchain_heap_fore_other _ _ _ hbH (fun e1 => hbL2 (by rw [e1]; exact hbackL)),
          unchain_heap_back_other _ _ _ hbH (by
            intro e1
            by_cases hn : h.fore H = 0
            · exact hb0 (e1.trans hn)
            · exact hbL2 (by rw [e1]; exact hforeL hn))]
        exact hu
      · intro b hb
        exact inv.holder_total b ((hmem_erase b).mp (by simpa using hb)).2
      · intro b hb
        exact inv.holder_hdr b ((hmem_erase b).mp (by simpa using hb)).2
      · intro b hb
        obtain ⟨hbH, hbc⟩ := (hmem_erase b).mp (by simpa using hb)
        rw [Function.update_noteq hbH]
        exact inv.free_list b hbc
      · intro b hb
        obtain ⟨hbH, hbc⟩ := (hmem_erase b).mp (by simpa using hb)
        simp only [unlock_header_free, aligned_free_free, unchain_heap_free, bump_heap_free]
        rw [Function.update_noteq hbH, Function.update_noteq hbH]
        exact inv.free_len b hbc
      · intro b hb
        obtain ⟨hbH, hbc⟩ := (hmem_erase b).mp (by simpa using hb)
        rw [Function.update_noteq hbH]
        exact inv.free_nodup b hbc
      · intro b hb
        obtain ⟨hbH, hbc⟩ := (hmem_erase b).mp (by simpa using hb)
        rw [Function.update_noteq hbH]
        exact inv.free_slot b hbc
      · intro b hb x hx hxl
        obtain ⟨hbH, hbc⟩ := (hmem_erase b).mp (by simpa using hb)
        rw [Function.update_noteq hbH] at hx
        exact inv.free_not_live b hbc x hx (List.mem_of_mem_erase hxl)
      · intro x hx
        obtain ⟨b, hb, hs⟩ := p7 x hx
        have hown := inv.owner wf ok b x hb hs
        refine ⟨b, ?_, hs⟩
        simp only [unlock_header_chunks, aligned_free_chunks, unchain_heap_chunks,
          bump_heap_chunks]
        exact (hmem_erase b).mpr ⟨fun e1 => hlive0 x hx (hown.trans e1), hb⟩
      · intro b hb
        obtain ⟨hbH, hbc⟩ := (hmem_erase b).mp (by simpa using hb)
        have := p8 b hbc
        simpa using this
      · intro h2 b hb hfull
        obtain ⟨hbH, hbc⟩ := (hmem_erase b).mp (by simpa using hb)
        simp only [unlock_header_free, aligned_free_free, unchain_heap_free, bump_heap_free]
          at hfull
        rw [Function.update_noteq hbH] at hfull
        simp only [unlock_header_first, aligned_free_header]
        rw [unchain_heap_first, if_pos (by simpa using hback)]
        exact inv.idle_first h2 b hbc hfull
      · simp only [unlock_header_log, aligned_free_log, unchain_heap_log, bump_heap_log,
          unlock_header_chunks, aligned_free_chunks, unchain_heap_chunks, bump_heap_chunks]
        rw [grants_append, releases_append, List.length_append,
          List.length_erase_of_mem hmem]
        have := inv.balance
        have hpos : 0 < h.chunks.length := List.length_pos_of_mem hmem
        simp [grants, releases]
        omega
    · -- the holder stays where it is
      rw [if_neg hrel, if_neg hrel]
      refine
        { hsize := by simp [inv.hsize]
          htotal := by simp [inv.htotal]
          chunks_nodup := by simpa using inv.chunks_nodup
          chunk_ok := by simpa using inv.chunk_ok
          ready := by simpa using inv.ready
          ready_nodup := inv.ready_nodup
          ready_iff := ?_
          unlinked := by simpa using inv.unlinked
          holder_total := by simpa using inv.holder_total
          holder_hdr := by simpa using inv.holder_hdr
          free_list := by simpa using p1
          free_len := by simpa using p2
          free_nodup := by simpa using p3
          free_slot := by simpa using p4
          free_not_live := by simpa using p5
          live_nodup := p6
          live_slot := by simpa using p7
          count := by simpa using p8
          idle_first := ?_
          balance := by simpa using inv.balance }
      · intro b
        simp only [push_heap_chunks, bump_heap_chunks, push_heap_free, bump_heap_free]
        by_cases hbH : b = H
        · subst hbH; rw [Function.update_same]; simp [hmem, hHL]
        · rw [Function.update_noteq hbH]; exact inv.ready_iff b
      · intro h2 b hb hfull
        simp only [push_heap_chunks, bump_heap_chunks] at hb
        simp only [push_heap_free, bump_heap_free] at hfull
        simp only [push_heap_first, bump_heap_first]
        by_cases hbH : b = H
        · subst hbH
          rw [Function.update_same] at hfull
          by_contra hne
          exact hrel ⟨by rw [htot]; exact hfull, hne⟩
        · rw [Function.update_noteq hbH] at hfull
          exact inv.idle_first h2 b hb hfull

/-! ### Materialising a holder -/

theorem slot_addr_succ (c : Config) (hd : pool_header) (b j : Nat) :
    slot_addr c hd b j + hd.size * c.W = slot_addr c hd b (j + 1) := by
  unfold slot_addr; ring

theorem slot_addr_zero (c : Config) (hd : pool_header) (b : Nat) :
    slot_addr c hd b 0 = b + c.offset_data := by
  unfold slot_addr; simp

theorem slot_addr_ne (c : Config) (wf : c.WF) (hd : pool_header) (ok : ClassOK c hd)
    (b k1 k2 : Nat) (h : k1 ≠ k2) : slot_addr c hd b k1 ≠ slot_addr c hd b k2 :=
  fun e => h (slot_addr_inj c wf hd ok b k1 k2 e)

/-- Outside the entries it links, the loop leaves the memory alone. -/
theorem chain_mem_other (c : Config) (hd : pool_header) (b : Nat) :
    ∀ (i j : Nat) (mem : Nat → Nat) (a : Nat),
      (∀ t, t < i → a ≠ slot_addr c hd b (j + t)) → chain_mem c hd b mem j i a = mem a
  | 0, _, _, _, _ => rfl
  | i + 1, j, mem, a, hne => by
    show chain_mem c hd b _ (j + 1) i a = mem a
    rw [chain_mem_other c hd b i (j + 1) _ a (fun t ht => by
      have := hne (t + 1) (by omega)
      rwa [show j + (t + 1) = j + 1 + t by omega] at this)]
    exact Function.update_noteq (hne 0 (by omega)) _ _

/-- The loop links every entry it visits to its successor. -/
theorem chain_mem_link (c : Config) (wf : c.WF) (hd : pool_header) (ok : ClassOK c hd)
    (b : Nat) :
    ∀ (i j : Nat) (mem : Nat → Nat) (t : Nat), t < i →
      chain_mem c hd b mem j i (slot_addr c hd b (j + t)) = slot_addr c hd b (j + t + 1)
  | 0, _, _, _, ht => absurd ht (Nat.not_lt_zero _)
  | i + 1, j, mem, 0, _ => by
    show chain_mem c hd b _ (j + 1) i (slot_addr c hd b (j + 0)) = _
    rw [chain_mem_other c hd b i (j + 1) _ _ (fun t _ =>
      slot_addr_ne c wf hd ok b _ _ (by omega))]
    exact Function.update_same _ _ _
  | i + 1, j, mem, t + 1, ht => by
    show chain_mem c hd b _ (j + 1) i (slot_addr c hd b (j + (t + 1))) = _
    have := chain_mem_link c wf hd ok b i (j + 1) (Function.update mem (slot_addr c hd b j)
      (slot_addr c hd b (j + 1))) t (by omega)
    rw [show j + (t + 1) = j + 1 + t by omega, this]

/-- The loop of `pool_holder_alloc` is defined when started at an entry with enough
entries behind it, and ends at the entry `i` places further. -/
theorem chain_entries_eq (c : Config) (wf : c.WF) (hd : pool_header) (ok : ClassOK c hd)
    (b : Nat) (hb : b % DEFAULT_POOL_SIZE c = 0) (hlt : b < SIZE_MOD c) :
    ∀ (i j : Nat) (h : Heap), j + i < hd.total → b ∈ h.chunks →
      h.header.size = hd.size → h.header.total = hd.total →
      chain_entries c hd.size i (slot_addr c hd b j) h
        = some (slot_addr c hd b (j + i), { h with mem := chain_mem c hd b h.mem j i })
  | 0, _, _, _, _, _, _ => rfl
  | i + 1, j, h, hji, hmem, hs, ht => by
    have hw : is_word c h (slot_addr c hd b j) :=
      is_word_slot c wf hd ok h hs ht b _ hmem hb hlt ⟨j, by omega, rfl⟩
    show (write_word c h (slot_addr c hd b j) (slot_addr c hd b j + hd.size * c.W)).bind _ = _
    unfold write_word
    rw [if_pos hw, Option.some_bind, slot_addr_succ]
    refine (chain_entries_eq c wf hd ok b hb hlt i (j + 1) _ (by omega) ?_ ?_ ?_).trans ?_
    · exact hmem
    · exact hs
    · exact ht
    · rw [show j + 1 + i = j + (i + 1) by omega]
      rfl

theorem slots_from_length (c : Config) (hd : pool_header) (b : Nat) :
    ∀ (i j : Nat), (slots_from c hd b j i).length = i
  | 0, _ => rfl
  | i + 1, j => by
    show (slots_from c hd b (j + 1) i).length + 1 = i + 1
    rw [slots_from_length c hd b i (j + 1)]

theorem mem_slots_from (c : Config) (hd : pool_header) (b : Nat) :
    ∀ (i j : Nat) (x : Nat), x ∈ slots_from c hd b j i ↔ ∃ t, t < i ∧ x = slot_addr c hd b (j + t)
  | 0, _, _ => by simp [slots_from]
  | i + 1, j, x => by
    show x ∈ slot_addr c hd b j :: slots_from c hd b (j + 1) i ↔ _
    rw [List.mem_cons, mem_slots_from c hd b i (j + 1) x]
    constructor
    · rintro (h | ⟨t, ht, h⟩)
      · exact ⟨0, by omega, h⟩
      · exact ⟨t + 1, by omega, by rw [h]; congr 1; omega⟩
    · rintro ⟨t, ht, h⟩
      cases t with
      | zero => exact Or.inl h
      | succ t => exact Or.inr ⟨t, by omega, by rw [h]; congr 1; omega⟩

theorem slots_from_nodup (c : Config) (wf : c.WF) (hd : pool_header) (ok : ClassOK c hd)
    (b : Nat) : ∀ (i j : Nat), (slots_from c hd b j i).Nodup
  | 0, _ => List.nodup_nil
  | i + 1, j => by
    show (slot_addr c hd b j :: slots_from c hd b (j + 1) i).Nodup
    refine List.nodup_cons.mpr ⟨?_, slots_from_nodup c wf hd ok b i (j + 1)⟩
    intro hm
    obtain ⟨t, _, h⟩ := (mem_slots_from c hd b i (j + 1) _).mp hm
    exact slot_addr_ne c wf hd ok b _ _ (by omega) h

/-- A memory in which every entry but the last is linked to its successor, and the
last to `NULL`, holds the free list of the entries in address order. -/
theorem FreeList.of_links (c : Config) (hd : pool_header) (b : Nat) (hb0 : b ≠ 0)
    (mem : Nat → Nat)
    (hlink : ∀ t, t + 1 < hd.total → mem (slot_addr c hd b t) = slot_addr c hd b (t + 1))
    (hlast : mem (slot_addr c hd b (hd.total - 1)) = 0) :
    ∀ (i j : Nat), j + i = hd.total →
      FreeList mem (if i = 0 then 0 else slot_addr c hd b j) (slots_from c hd b j i)
  | 0, _, _ => rfl
  | i + 1, j, hji => by
    rw [if_neg (by omega)]
    refine ⟨rfl, by unfold slot_addr; omega, ?_⟩
    have ih := FreeList.of_links c hd b hb0 mem hlink hlast i (j + 1) (by omega)
    by_cases hi : i = 0
    · subst hi
      rw [show j = hd.total - 1 by omega, hlast]
      exact ih
    · rw [if_neg hi] at ih
      rw [hlink j (by omega)]
      exact ih

@[simp] theorem setup_heap_first (c : Config) (hd : pool_header) (h : Heap) (b : Nat) :
    (setup_heap c hd h b).header.first = b := rfl
@[simp] theorem setup_heap_size (c : Config) (hd : pool_header) (h : Heap) (b : Nat) :
    (setup_heap c hd h b).header.size = h.header.size := rfl
@[simp] theorem setup_heap_total (c : Config) (hd : pool_header) (h : Heap) (b : Nat) :
    (setup_heap c hd h b).header.total = h.header.total := rfl
@[simp] theorem setup_heap_lock (c : Config) (hd : pool_header) (h : Heap) (b : Nat) :
    (setup_heap c hd h b).header.lock = h.header.lock := rfl
@[simp] theorem setup_heap_chunks (c : Config) (hd : pool_header) (h : Heap) (b : Nat) :
    (setup_heap c hd h b).chunks = h.chunks := rfl
@[simp] theorem setup_heap_free (c : Config) (hd : pool_header) (h : Heap) (b : Nat) :
    (setup_heap c hd h b).free = Function.update h.free b hd.total := rfl
@[simp] theorem setup_heap_htotal (c : Config) (hd : pool_header) (h : Heap) (b : Nat) :
    (setup_heap c hd h b).total = Function.update h.total b hd.total := rfl
@[simp] theorem setup_heap_hdr (c : Config) (hd : pool_header) (h : Heap) (b : Nat) :
    (setup_heap c hd h b).hdr = Function.update h.hdr b c.header_addr := rfl
@[simp] theorem setup_heap_freep (c : Config) (hd : pool_header) (h : Heap) (b : Nat) :
    (setup_heap c hd h b).freep = Function.update h.freep b (b + c.offset_data) := rfl
@[simp] theorem setup_heap_fore (c : Config) (hd : pool_header) (h : Heap) (b : Nat) :
    (setup_heap c hd h b).fore = Function.update h.fore b 0 := rfl
@[simp] theorem setup_heap_back (c : Config) (hd : pool_header) (h : Heap) (b : Nat) :
    (setup_heap c hd h b).back = Function.update h.back b 0 := rfl
@[simp] theorem setup_heap_log (c : Config) (hd : pool_header) (h : Heap) (b : Nat) :
    (setup_heap c hd h b).log = h.log := rfl
theorem setup_heap_mem (c : Config) (hd : pool_header) (h : Heap) (b : Nat) :
    (setup_heap c hd h b).mem
      = Function.update (chain_mem c hd b h.mem 0 (hd.total - 1))
          (slot_addr c hd b (hd.total - 1)) 0 := rfl

/-- The second half of `pool_holder_alloc` is defined on a held, aligned chunk. -/
theorem holder_setup_eq (c : Config) (wf : c.WF) (hd : pool_header) (ok : ClassOK c hd)
    (h : Heap) (b : Nat) (hmem : b ∈ h.chunks) (hb : b % DEFAULT_POOL_SIZE c = 0)
    (hlt : b < SIZE_MOD c) (hs : h.header.size = hd.size) (ht : h.header.total = hd.total) :
    holder_setup c h b = Outcome.ret b (setup_heap c hd h b) := by
  have hpos := ok.total_pos
  have hsub : usub UINT_MOD hd.total 1 = hd.total - 1 :=
    usub_eq _ _ _ hpos (total_lt_uint c wf hd ok)
  unfold holder_setup
  rw [if_pos hmem]
  dsimp only
  rw [hs, ht, hsub, ← slot_addr_zero c hd b]
  rw [chain_entries_eq c wf hd ok b hb hlt (hd.total - 1) 0
    { h with
      free := Function.update h.free b hd.total
      total := Function.update h.total b hd.total
      hdr := Function.update h.hdr b c.header_addr
      fore := Function.update h.fore b 0
      back := Function.update h.back b 0
      freep := Function.update h.freep b (slot_addr c hd b 0) } (by omega) hmem hs ht]
  dsimp only
  have hw : is_word c
      { h with
        free := Function.update h.free b hd.total
        total := Function.update h.total b hd.total
        hdr := Function.update h.hdr b c.header_addr
        fore := Function.update h.fore b 0
        back := Function.update h.back b 0
        freep := Function.update h.freep b (slot_addr c hd b 0)
        mem := chain_mem c hd b h.mem 0 (hd.total - 1) }
      (slot_addr c hd b (0 + (hd.total - 1))) :=
    is_word_slot c wf hd ok _ hs ht b _ hmem hb hlt ⟨0 + (hd.total - 1), by omega, rfl⟩
  unfold write_word
  rw [if_pos hw]
  dsimp only
  unfold setup_heap
  rw [Nat.zero_add, slot_addr_zero]

/-- The representation invariant only reads the ready-list head, the two counters of
the class, the held chunks, the holder fields, the entry words, and the numbers of
grants and releases in the log. -/
theorem HInv.congr {c : Config} {hd : pool_header} {h : Heap} {live L : List Nat}
    {F : Nat → List Nat} (inv : HInv c hd h live L F) (h1 : Heap)
    (e_first : h1.header.first = h.header.first) (e_size : h1.header.size = h.header.size)
    (e_total : h1.header.total = h.header.total) (e_chunks : h1.chunks = h.chunks)
    (e_free : h1.free = h.free) (e_htotal : h1.total = h.total) (e_hdr : h1.hdr = h.hdr)
    (e_freep : h1.freep = h.freep) (e_fore : h1.fore = h.fore) (e_back : h1.back = h.back)
    (e_mem : h1.mem = h.mem) (e_grants : grants h1.log = grants h.log)
    (e_rel : (releases h1.log).length = (releases h.log).length) :
    HInv c hd h1 live L F :=
  { hsize := by rw [e_size]; exact inv.hsize
    htotal := by rw [e_total]; exact inv.htotal
    chunks_nodup := by rw [e_chunks]; exact inv.chunks_nodup
    chunk_ok := by rw [e_chunks]; exact inv.chunk_ok
    ready := by rw [e_fore, e_back, e_first]; exact inv.ready
    ready_nodup := inv.ready_nodup
    ready_iff := by rw [e_chunks, e_free]; exact inv.ready_iff
    unlinked := by rw [e_chunks, e_fore, e_back]; exact inv.unlinked
    holder_total := by rw [e_chunks, e_htotal]; exact inv.holder_total
    holder_hdr := by rw [e_chunks, e_hdr]; exact inv.holder_hdr
    free_list := by rw [e_chunks, e_mem, e_freep]; exact inv.free_list
    free_len := by rw [e_chunks, e_free]; exact inv.free_len
    free_nodup := by rw [e_chunks]; exact inv.free_nodup
    free_slot := by rw [e_chunks]; exact inv.free_slot
    free_not_live := by rw [e_chunks]; exact inv.free_not_live
    live_nodup := inv.live_nodup
    live_slot := by rw [e_chunks]; exact inv.live_slot
    count := by rw [e_chunks, e_free]; exact inv.count
    idle_first := by rw [e_chunks, e_free, e_first]; exact inv.idle_first
    balance := by rw [e_grants, e_rel, e_chunks]; exact inv.balance }

/-- Setting up a freshly granted chunk on an empty ready list gives the invariant
with the new holder as the only ready holder and all its entries free. -/
theorem setup_inv (c : Config) (wf : c.WF) (hd : pool_header) (ok : ClassOK c hd)
    (h : Heap) (live : List Nat) (F : Nat → List Nat) (inv : HInv c hd h live [] F)
    (b : Nat) (hfresh : fresh_chunk c h b) (h1 : Heap)
    (e_size : h1.header.size = h.header.size)
    (e_total : h1.header.total = h.header.total) (e_chunks : h1.chunks = b :: h.chunks)
    (e_free : h1.free = h.free) (e_htotal : h1.total = h.total) (e_hdr : h1.hdr = h.hdr)
    (e_freep : h1.freep = h.freep) (e_fore : h1.fore = h.fore) (e_back : h1.back = h.back)
    (e_mem : h1.mem = h.mem) (e_grants : grants h1.log = grants h.log + 1)
    (e_rel : (releases h1.log).length = (releases h.log).length) :
    HInv c hd (setup_heap c hd h1 b) live [b]
      (Function.update F b (slots_from c hd b 0 hd.total)) := by
  obtain ⟨hb0, hbal, hblt, hbnew⟩ := hfresh
  have hpos := ok.total_pos
  have hnone : ∀ x ∈ h.chunks, h.free x = 0 := by
    intro x hx
    by_contra hne
    have := (inv.ready_iff x).mpr ⟨hx, by omega⟩
    simp at this
  have hslot_own : ∀ y, is_slot c hd b y → entry_holder c y = b :=
    fun y hy => entry_holder_slot c wf hd ok b y hbal hblt hy
  have hmem_other : ∀ y, entry_holder c y ≠ b →
      (setup_heap c hd h1 b).mem y = h.mem y := by
    intro y hy
    have hne : ∀ k, k < hd.total → y ≠ slot_addr c hd b k :=
      fun k hk e1 => hy (hslot_own y ⟨k, hk, e1⟩)
    rw [setup_heap_mem, Function.update_noteq (hne _ (by omega)),
      chain_mem_other c hd b _ 0 _ y (fun t ht => hne _ (by omega)), e_mem]
  have hlink : ∀ t, t + 1 < hd.total →
      (setup_heap c hd h1 b).mem (slot_addr c hd b t) = slot_addr c hd b (t + 1) := by
    intro t ht
    rw [setup_heap_mem,
      Function.update_noteq (slot_addr_ne c wf hd ok b _ _ (by omega))]
    have := chain_mem_link c wf hd ok b (hd.total - 1) 0 h1.mem t (by omega)
    simpa using this
  have hlast : (setup_heap c hd h1 b).mem (slot_addr c hd b (hd.total - 1)) = 0 := by
    rw [setup_heap_mem, Function.update_same]
  have hfl := FreeList.of_links c hd b hb0 _ hlink hlast hd.total 0 (by omega)
  rw [if_neg (by omega), slot_addr_zero] at hfl
  refine
    { hsize := by rw [setup_heap_size, e_size]; exact inv.hsize
      htotal := by rw [setup_heap_total, e_total]; exact inv.htotal
      chunks_nodup := by
        rw [setup_heap_chunks, e_chunks]
        exact List.nodup_cons.mpr ⟨hbnew, inv.chunks_nodup⟩
      chunk_ok := ?_
      ready := ?_
      ready_nodup := List.nodup_singleton b
      ready_iff := ?_
      unlinked := ?_
      holder_total := ?_
      holder_hdr := ?_
      free_list := ?_
      free_len := ?_
      free_nodup := ?_
      free_slot := ?_
      free_not_live := ?_
      live_nodup := inv.live_nodup
      live_slot := ?_
      count := ?_
      idle_first := ?_
      balance := ?_ }
  · intro x hx
    rw [setup_heap_chunks, e_chunks] at hx
    rcases List.mem_cons.mp hx with e1 | hx
    · rw [e1]; exact ⟨hb0, hbal, hblt⟩
    · exact inv.chunk_ok x hx
  · simp only [setup_heap_fore, setup_heap_back, setup_heap_first]
    exact ⟨rfl, hb0, Function.update_same _ _ _, by rw [Function.update_same]; rfl⟩
  · intro x
    rw [setup_heap_chunks, e_chunks, setup_heap_free, e_free]
    by_cases hxb : x = b
    · subst hxb
      rw [Function.update_same]
      simp
      omega
    · rw [Function.update_noteq hxb]
      constructor
      · intro hm
        exact absurd (List.mem_singleton.mp hm) hxb
      · rintro ⟨hx, hp⟩
        rcases List.mem_cons.mp hx with e1 | hx2
        · exact absurd e1 hxb
        · have := hnone x hx2
          omega
  · intro x hx hxL
    rw [setup_heap_chunks, e_chunks] at hx
    have hxb : x ≠ b := by simpa using hxL
    have hx2 : x ∈ h.chunks := by
      rcases List.mem_cons.mp hx with e1 | hx
      · exact absurd e1 hxb
      · exact hx
    rw [setup_heap_fore, setup_heap_back, Function.update_noteq hxb,
      Function.update_noteq hxb, e_fore, e_back]
    exact inv.unlinked x hx2 (by simp)
  · intro x hx
    rw [setup_heap_chunks, e_chunks] at hx
    rw [setup_heap_htotal]
    by_cases hxb : x = b
    · subst hxb; rw [Function.update_same]
    · rw [Function.update_noteq hxb, e_htotal]
      exact inv.holder_total x (by simpa [hxb] using hx)
  · intro x hx
    rw [setup_heap_chunks, e_chunks] at hx
    rw [setup_heap_hdr]
    by_cases hxb : x = b
    · subst hxb; rw [Function.update_same]
    · rw [Function.update_noteq hxb, e_hdr]
      exact inv.holder_hdr x (by simpa [hxb] using hx)
  · intro x hx
    rw [setup_heap_chunks, e_chunks] at hx
    rw [setup_heap_freep]
    by_cases hxb : x = b
    · subst hxb
      rw [Function.update_same, Function.update_same]
      exact hfl
    · have hx2 : x ∈ h.chunks := by simpa [hxb] using hx
      rw [Function.update_noteq hxb, Function.update_noteq hxb, e_freep]
      refine FreeList.frame_mem (F x) (h.freep x) ?_ (inv.free_list x hx2)
      intro y hy
      apply hmem_other
      rw [inv.owner wf ok x y hx2 (inv.free_slot x hx2 y hy)]
      exact hxb
  · intro x hx
    rw [setup_heap_chunks, e_chunks] at hx
    rw [setup_heap_free]
    by_cases hxb : x = b
    · subst hxb
      rw [Function.update_same, Function.update_same, slots_from_length]
    · rw [Function.update_noteq hxb, Function.update_noteq hxb, e_free]
      exact inv.free_len x (by simpa [hxb] using hx)
  · intro x hx
    rw [setup_heap_chunks, e_chunks] at hx
    by_cases hxb : x = b
    · subst hxb
      rw [Function.update_same]
      exact slots_from_nodup c wf hd ok x _ _
    · rw [Function.update_noteq hxb]
      exact inv.free_nodup x (by simpa [hxb] using hx)
  · intro x hx y hy
    rw [setup_heap_chunks, e_chunks] at hx
    by_cases hxb : x = b
    · subst hxb
      rw [Function.update_same] at hy
      obtain ⟨t, ht, e1⟩ := (mem_slots_from c hd x _ _ y).mp hy
      exact ⟨0 + t, by omega, e1⟩
    · rw [Function.update_noteq hxb] at hy
      exact inv.free_slot x (by simpa [hxb] using hx) y hy
  · intro x hx y hy hyl
    rw [setup_heap_chunks, e_chunks] at hx
    by_cases hxb : x = b
    · subst hxb
      rw [Function.update_same] at hy
      obtain ⟨t, ht, e1⟩ := (mem_slots_from c hd x _ _ y).mp hy
      obtain ⟨b2, hb2, hs2⟩ := inv.live_slot y hyl
      have o1 := hslot_own y ⟨0 + t, by omega, e1⟩
      have o2 := inv.owner wf ok b2 y hb2 hs2
      exact hbnew (by rw [← o1, o2]; exact hb2)
    · rw [Function.update_noteq hxb] at hy
      exact inv.free_not_live x (by simpa [hxb] using hx) y hy hyl
  · intro y hy
    obtain ⟨b2, hb2, hs2⟩ := inv.live_slot y hy
    exact ⟨b2, by rw [setup_heap_chunks, e_chunks]; exact List.mem_cons_of_mem _ hb2, hs2⟩
  · intro x hx
    rw [setup_heap_chunks, e_chunks] at hx
    rw [setup_heap_free]
    by_cases hxb : x = b
    · subst hxb
      have hz : live_in c live x = 0 := by
        apply live_in_zero
        intro y hy
        obtain ⟨b2, hb2, hs2⟩ := inv.live_slot y hy
        rw [inv.owner wf ok b2 y hb2 hs2]
        exact fun e1 => hbnew (e1 ▸ hb2)
      rw [Function.update_same, hz, Nat.add_zero]
    · rw [Function.update_noteq hxb, e_free]
      exact inv.count x (by simpa [hxb] using hx)
  · intro _ x hx hfull
    rw [setup_heap_chunks, e_chunks] at hx
    rw [setup_heap_free] at hfull
    rw [setup_heap_first]
    by_cases hxb : x = b
    · exact hxb.symm
    · rw [Function.update_noteq hxb, e_free] at hfull
      have := hnone x (by simpa [hxb] using hx)
      omega
  · rw [setup_heap_log, setup_heap_chunks, e_grants, e_rel, e_chunks, List.length_cons]
    have := inv.balance
    omega

/-! ### `pool_holder_alloc` and `pool_alloc_entry` under the invariant -/

theorem HInv.lock {c : Config} {hd : pool_header} {h : Heap} {live L : List Nat}
    {F : Nat → List Nat} (inv : HInv c hd h live L F) : HInv c hd (lock_header h) live L F :=
  inv.congr _ rfl rfl rfl rfl rfl rfl rfl rfl rfl rfl rfl rfl rfl

theorem HInv.first_eq_zero {c : Config} {hd : pool_header} {h : Heap} {live L : List Nat}
    {F : Nat → List Nat} (inv : HInv c hd h live L F) : h.header.first = 0 ↔ L = [] :=
  inv.ready.start_eq_zero

theorem granted_chunk_fresh (c : Config) (h : Heap) (env : Env) (hok : env_ok c h env) :
    fresh_chunk c h (granted_chunk env) := by
  unfold granted_chunk
  rcases hok.2.2 with h1 | ⟨h1, _, h3⟩
  · rw [if_neg h1.1]; exact h1
  · rw [if_pos h1]; exact h3

theorem granted_heap_facts (c : Config) (h : Heap) (env : Env) (hok : env_ok c h env) :
    (granted_heap c h env).header.size = h.header.size ∧
    (granted_heap c h env).header.total = h.header.total ∧
    (granted_heap c h env).header.lock = 1 ∧
    (granted_heap c h env).chunks = granted_chunk env :: h.chunks ∧
    (granted_heap c h env).free = h.free ∧ (granted_heap c h env).total = h.total ∧
    (granted_heap c h env).hdr = h.hdr ∧ (granted_heap c h env).freep = h.freep ∧
    (granted_heap c h env).fore = h.fore ∧ (granted_heap c h env).back = h.back ∧
    (granted_heap c h env).mem = h.mem ∧
    grants (granted_heap c h env).log = grants h.log + 1 ∧
    releases (granted_heap c h env).log = releases h.log := by
  unfold granted_heap granted_chunk
  rcases hok.2.2 with h1 | ⟨h1, _, h3⟩
  · have hne := h1.1
    simp only [ne_eq, hne, not_false_eq_true, if_true, if_false]
    simp [aligned_malloc, emit, lock_header, unlock_header, hne, grants_append,
      releases_append, grants, releases]
  · have hne := h3.1
    simp only [h1, ne_eq, not_true_eq_false, if_false, if_true]
    simp [aligned_malloc, emit, lock_header, unlock_header, hne, grants_append,
      releases_append, grants, releases]

/-- A materialising `pool_holder_alloc` is defined, returns the granted chunk, and
leaves it set up as the only ready holder. -/
theorem holder_alloc_eq (c : Config) (wf : c.WF) (hd : pool_header) (ok : ClassOK c hd)
    (h : Heap) (live : List Nat) (F : Nat → List Nat) (inv : HInv c hd h live [] F)
    (env : Env) (hok : env_ok c h env) :
    pool_holder_alloc c h env
        = Outcome.ret (granted_chunk env) (materialize_heap c hd h env) ∧
      HInv c hd (materialize_heap c hd h env) live [granted_chunk env]
        (Function.update F (granted_chunk env)
          (slots_from c hd (granted_chunk env) 0 hd.total)) := by
  have hfresh := granted_chunk_fresh c h env hok
  obtain ⟨g1, g2, _, g4, g5, g6, g7, g8, g9, g10, g11, g12, g13⟩ :=
    granted_heap_facts c h env hok
  have hfirst : h.header.first = 0 := inv.first_eq_zero.mpr rfl
  have hmem : granted_chunk env ∈ (granted_heap c h env).chunks := by
    rw [g4]; exact List.mem_cons_self _ _
  have hset := holder_setup_eq c wf hd ok (granted_heap c h env) (granted_chunk env) hmem
    hfresh.2.1 hfresh.2.2.1 (g1.trans inv.hsize) (g2.trans inv.htotal)
  refine ⟨?_, setup_inv c wf hd ok h live F inv _ hfresh _ g1 g2 g4 g5 g6 g7 g8 g9 g10 g11 g12
    (by rw [g13])⟩
  unfold materialize_heap
  rw [← hset]
  unfold pool_holder_alloc granted_heap granted_chunk
  rw [hok.1, hok.2.1]
  simp only [run_frees, unlock_header_lock]
  rw [if_neg (by simpa using hfirst)]
  rcases hok.2.2 with h1 | ⟨h1, h2, h3⟩
  · have hne := h1.1
    simp only [ne_eq, hne, not_false_eq_true, if_true, if_false]
  · have hne := h3.1
    simp only [h1, h2, hne, ne_eq, not_true_eq_false, if_false, if_true]
    simp

theorem slots_from_tail (c : Config) (hd : pool_header) (b n : Nat) (hn : 1 ≤ n) :
    (slots_from c hd b 0 n).tail = slots_from c hd b 1 (n - 1) := by
  cases n with
  | zero => omega
  | succ n => rfl

/-- The function `pool_alloc_entry` is defined under the invariant; it returns an entry
of the holder it pops from, which is no live entry, and keeps the invariant. -/
theorem alloc_spec (c : Config) (wf : c.WF) (hd : pool_header) (ok : ClassOK c hd)
    (h : Heap) (live L : List Nat) (F : Nat → List Nat) (inv : HInv c hd h live L F)
    (env : Env) (hok : h.header.first = 0 → env_ok c h env) :
    pool_alloc_entry c h env = Outcome.ret (alloc_result c h env) (alloc_heap c hd h env) ∧
      alloc_result c h env ∉ live ∧
      is_slot c hd (alloc_holder h env) (alloc_result c h env) ∧
      alloc_holder h env ∈ (alloc_heap c hd h env).chunks ∧
      HInv c hd (alloc_heap c hd h env) (alloc_result c h env :: live)
        (alloc_ready hd h env L) (alloc_free c hd h env F) := by
  unfold pool_alloc_entry alloc_result alloc_heap alloc_holder alloc_ready alloc_free
  dsimp only
  by_cases hf : h.header.first = 0
  · have hL : L = [] := inv.first_eq_zero.mp hf
    subst hL
    have hf2 : (lock_header h).header.first = 0 := hf
    obtain ⟨m1, m2⟩ := holder_alloc_eq c wf hd ok (lock_header h) live F inv.lock env (hok hf)
    have hmf : (materialize_heap c hd (lock_header h) env).header.first = granted_chunk env :=
      rfl
    have hb0 : granted_chunk env ≠ 0 := (granted_chunk_fresh c h env (hok hf)).1
    have hpe := pop_entry_eq c wf hd ok _ live _ _ m2 (by rw [hmf]; exact hb0)
    obtain ⟨q1, q2, q3, q4⟩ := pop_inv c wf hd ok _ live _ _ m2 (granted_chunk env) hmf hb0
    have hfp : (materialize_heap c hd (lock_header h) env).freep (granted_chunk env)
        = granted_chunk env + c.offset_data := by
      unfold materialize_heap; rw [setup_heap_freep, Function.update_same]
    have hfr : (materialize_heap c hd (lock_header h) env).free (granted_chunk env)
        = hd.total := by
      unfold materialize_heap; rw [setup_heap_free, Function.update_same]
    rw [hmf] at hpe
    rw [hfp] at hpe q1 q2 q4
    rw [hfr, Function.update_same, Function.update_idem,
      slots_from_tail c hd _ _ ok.total_pos] at q4
    rw [if_pos hf2, if_pos hf, if_pos hf, if_pos hf, if_pos hf, if_pos hf, m1]
    dsimp only
    refine ⟨hpe, q1, q2, by rw [pop_heap_chunks]; exact q3, ?_⟩
    by_cases h1 : hd.total = 1
    · rw [if_pos h1] at q4 ⊢; exact q4
    · rw [if_neg h1] at q4 ⊢; exact q4
  · have hf2 : ¬ (lock_header h).header.first = 0 := hf
    have hpe := pop_entry_eq c wf hd ok _ live _ _ inv.lock hf2
    obtain ⟨q1, q2, q3, q4⟩ := pop_inv c wf hd ok _ live _ _ inv.lock h.header.first rfl hf
    rw [if_neg hf2, if_neg hf, if_neg hf, if_neg hf, if_neg hf, if_neg hf]
    exact ⟨hpe, q1, q2, by rw [pop_heap_chunks]; exact q3, q4⟩

theorem alloc_holder_empty (h : Heap) (env : Env) (hf : h.header.first = 0) :
    alloc_holder h env = granted_chunk env := by
  unfold alloc_holder granted_chunk
  rw [if_pos hf]

/-! ### Runs keep the invariant -/

theorem init_inv (c : Config) (hd : pool_header) (ok : ClassOK c hd) :
    HInv c hd (Heap.init hd) [] [] (fun _ => []) :=
  { hsize := rfl
    htotal := rfl
    chunks_nodup := List.nodup_nil
    chunk_ok := fun b hb => absurd hb (List.not_mem_nil b)
    ready := ok.first_null
    ready_nodup := List.nodup_nil
    ready_iff := fun b => by simp [Heap.init]
    unlinked := fun b hb => absurd hb (List.not_mem_nil b)
    holder_total := fun b hb => absurd hb (List.not_mem_nil b)
    holder_hdr := fun b hb => absurd hb (List.not_mem_nil b)
    free_list := fun b hb => absurd hb (List.not_mem_nil b)
    free_len := fun b hb => absurd hb (List.not_mem_nil b)
    free_nodup := fun b hb => absurd hb (List.not_mem_nil b)
    free_slot := fun b hb => absurd hb (List.not_mem_nil b)
    free_not_live := fun b hb => absurd hb (List.not_mem_nil b)
    live_nodup := List.nodup_nil
    live_slot := fun e he => absurd he (List.not_mem_nil e)
    count := fun b hb => absurd hb (List.not_mem_nil b)
    idle_first := fun _ b hb => absurd hb (List.not_mem_nil b)
    balance := rfl }

theorem init_sinv (c : Config) (hd : pool_header) (ok : ClassOK c hd) :
    SInv c hd (Sim.init hd) :=
  ⟨ok.lock_free, [], fun _ => [], init_inv c hd ok⟩

theorem alloc_heap_lock (c : Config) (hd : pool_header) (h : Heap) (env : Env) :
    (alloc_heap c hd h env).header.lock = 0 := by
  unfold alloc_heap; split <;> rfl

theorem free_heap_lock (c : Config) (h : Heap) (e : Nat) :
    (free_heap c h e).header.lock = 0 := by
  unfold free_heap; dsimp only; split
  · rfl
  · split <;> rfl

theorem valid_cons (c : Config) (s : Sim) (op : Op) (ops : List Op) :
    valid c s (op :: ops) =
      (decide (op_ok c s op) &&
        match step c s op with
        | some s1 => valid c s1 ops
        | none => true) := rfl

theorem run_cons (c : Config) (s : Sim) (op : Op) (ops : List Op) :
    run c s (op :: ops) = (step c s op).bind fun s1 => run c s1 ops := rfl

theorem step_alloc (c : Config) (s : Sim) (env : Env) :
    step c s (Op.alloc env) =
      match pool_alloc_entry c s.heap env with
      | Outcome.ret r h => some ⟨h, r :: s.live⟩
      | _ => none := rfl

theorem step_free (c : Config) (s : Sim) (e : Nat) :
    step c s (Op.free e) =
      (pool_free_entry c s.heap e).bind fun h => some ⟨h, s.live.erase e⟩ := rfl

/-- One call a client may make returns, and the invariant holds again after it. -/
theorem step_inv (c : Config) (wf : c.WF) (hd : pool_header) (ok : ClassOK c hd)
    (s : Sim) (inv : SInv c hd s) (op : Op) (hop : op_ok c s op) :
    ∃ s1, step c s op = some s1 ∧ SInv c hd s1 := by
  obtain ⟨_, L, F, hinv⟩ := inv
  cases op with
  | alloc env =>
    obtain ⟨a1, _, _, _, a5⟩ := alloc_spec c wf hd ok s.heap s.live L F hinv env hop
    refine ⟨⟨alloc_heap c hd s.heap env, alloc_result c s.heap env :: s.live⟩, ?_, ?_⟩
    · rw [step_alloc, a1]
    · exact ⟨alloc_heap_lock c hd s.heap env, _, _, a5⟩
  | free e =>
    have f1 := free_eq c wf hd ok s.heap s.live L F hinv e hop
    have f2 := free_inv c wf hd ok s.heap s.live L F hinv e hop
    refine ⟨⟨free_heap c s.heap e, s.live.erase e⟩, ?_, ?_⟩
    · rw [step_free, f1]; rfl
    · exact ⟨free_heap_lock c s.heap e, _, _, f2⟩

/-- A valid sequence of calls runs to its end, and the invariant holds after it. -/
theorem run_inv (c : Config) (wf : c.WF) (hd : pool_header) (ok : ClassOK c hd) :
    ∀ (ops : List Op) (s : Sim), SInv c hd s → valid c s ops = true →
      ∃ s1, run c s ops = some s1 ∧ SInv c hd s1
  | [], s, inv, _ => ⟨s, rfl, inv⟩
  | op :: ops, s, inv, hv => by
    rw [valid_cons, Bool.and_eq_true, decide_eq_true_eq] at hv
    obtain ⟨s1, h1, inv1⟩ := step_inv c wf hd ok s inv op hv.1
    have hv2 := hv.2
    rw [h1] at hv2
    obtain ⟨s2, h2, inv2⟩ := run_inv c wf hd ok ops s1 inv1 hv2
    exact ⟨s2, by rw [run_cons, h1]; exact h2, inv2⟩

theorem reachable_inv (c : Config) (wf : c.WF) (hd : pool_header) (ok : ClassOK c hd)
    (s : Sim) (hr : Reachable c hd s) : SInv c hd s := by
  obtain ⟨ops, hv, hrun⟩ := hr
  obtain ⟨s1, h1, inv1⟩ := run_inv c wf hd ok ops (Sim.init hd) (init_sinv c hd ok) hv
  rw [hrun] at h1
  cases h1
  exact inv1

theorem run_append (c : Config) :
    ∀ (ops1 ops2 : List Op) (s : Sim),
      run c s (ops1 ++ ops2) = (run c s ops1).bind fun s1 => run c s1 ops2
  | [], _, _ => rfl
  | op :: ops1, ops2, s => by
    show (step c s op).bind _ = ((step c s op).bind _).bind _
    cases step c s op with
    | none => rfl
    | some s1 => exact run_append c ops1 ops2 s1

theorem valid_append (c : Config) :
    ∀ (ops1 ops2 : List Op) (s s1 : Sim), run c s ops1 = some s1 →
      (valid c s (ops1 ++ ops2) = true ↔ valid c s ops1 = true ∧ valid c s1 ops2 = true)
  | [], _, s, s1, hr => by
    cases hr
    simp [valid]
  | op :: ops1, ops2, s, s1, hr => by
    have hr2 : (step c s op).bind (fun s2 => run c s2 ops1) = some s1 := hr
    cases hs : step c s op with
    | none => rw [hs] at hr2; cases hr2
    | some s2 =>
      rw [hs] at hr2
      have ih := valid_append c ops1 ops2 s2 s1 hr2
      show valid c s (op :: (ops1 ++ ops2)) = true ↔ valid c s (op :: ops1) = true ∧ _
      rw [valid_cons, valid_cons, hs]
      simp only [Bool.and_eq_true, decide_eq_true_eq]
      rw [ih, and_assoc]

/-- A valid sequence extended by one call: the sequence runs to a state where the
invariant holds and the call is one the client may make. -/
theorem valid_snoc (c : Config) (wf : c.WF) (hd : pool_header) (ok : ClassOK c hd)
    (ops : List Op) (op : Op) (hv : valid c (Sim.init hd) (ops ++ [op]) = true) :
    ∃ s, run c (Sim.init hd) ops = some s ∧ valid c (Sim.init hd) ops = true ∧
      SInv c hd s ∧ op_ok c s op := by
  have hpre : valid c (Sim.init hd) ops = true := by
    have key : ∀ (l1 l2 : List Op) (s : Sim), valid c s (l1 ++ l2) = true →
        valid c s l1 = true := by
      intro l1
      induction l1 with
      | nil => intro _ _ _; rfl
      | cons x xs ih =>
        intro l2 s h
        have h2 : valid c s (x :: (xs ++ l2)) = true := h
        rw [valid_cons] at h2 ⊢
        rw [Bool.and_eq_true] at h2 ⊢
        refine ⟨h2.1, ?_⟩
        cases hs : step c s x with
        | none => rfl
        | some s2 =>
          have := h2.2
          rw [hs] at this
          exact ih l2 s2 this
    exact key ops [op] _ hv
  obtain ⟨s, hrun, inv⟩ := run_inv c wf hd ok ops _ (init_sinv c hd ok) hpre
  have h2 := ((valid_append c ops [op] _ s hrun).mp hv).2
  rw [valid_cons, Bool.and_eq_true, decide_eq_true_eq] at h2
  exact ⟨s, hrun, hpre, inv, h2.1⟩

/-- A class built by `INIT_POOL` for an item that fits a slab at least once meets the
requirements on a class header. -/
theorem init_pool_ok (c : Config) (wf : c.WF) (s : Nat) (hs1 : 1 ≤ s) (hs2 : s < SIZE_MOD c)
    (hcap : 1 ≤ (INIT_POOL c s).total) : ClassOK c (INIT_POOL c s) := by
  obtain ⟨h1, h2, h3⟩ := init_pool_fits c wf s hs1 hs2
  have hE := pool_entry_size_eq c s hs1 hs2
  refine ⟨rfl, rfl, ?_, hcap, h3⟩
  -- the entry size is not truncated: it is at most the data size
  have hDlt : POOL_DATA_SIZE c (DEFAULT_POOL_SIZE c) < UINT_MOD := by
    have hP := pool_lt_uint c wf
    have : POOL_DATA_SIZE c (DEFAULT_POOL_SIZE c) ≤ DEFAULT_POOL_SIZE c := by
      rw [pool_data_size_eq c wf]
      exact le_trans (Nat.div_le_self _ _) (by omega)
    omega
  have hEle : POOL_ENTRY_SIZE c s ≤ POOL_DATA_SIZE c (DEFAULT_POOL_SIZE c) := by
    by_contra hlt
    have : POOL_HOLDER_COUNT c (DEFAULT_POOL_SIZE c) s = 0 :=
      Nat.div_eq_of_lt (by omega)
    rw [h1, this] at hcap
    omega
  show 1 ≤ POOL_ENTRY_SIZE c s % UINT_MOD
  rw [Nat.mod_eq_of_lt (by omega), hE]
  exact Nat.le_add_left 1 _

theorem cfg64_wf : cfg64.WF :=
  ⟨by decide, ⟨14, by decide, by decide, by decide⟩, by decide⟩

theorem class1_ok : ClassOK cfg64 class1 :=
  ⟨rfl, rfl, by decide, by decide, by decide⟩

theorem class2_ok : ClassOK cfg64 class2 :=
  ⟨rfl, rfl, by decide, by decide, by decide⟩

theorem sum_indicator (l : List Nat) (a : Nat) (hnd : l.Nodup) (ha : a ∈ l) :
    (l.map fun b => if a = b then 1 else 0).sum = 1 := by
  induction l with
  | nil => simp at ha
  | cons x xs ih =>
    have hx : x ∉ xs := (List.nodup_cons.mp hnd).1
    have hxs : xs.Nodup := (List.nodup_cons.mp hnd).2
    rw [List.map_cons, List.sum_cons]
    by_cases hax : a = x
    · subst hax
      rw [if_pos rfl]
      have : (xs.map fun b => if a = b then 1 else 0) = xs.map fun _ => 0 := by
        apply List.map_congr_left
        intro b hb
        rw [if_neg (fun (e : a = b) => hx (e ▸ hb))]
      rw [this]
      simp
    · rw [if_neg hax]
      have ha2 : a ∈ xs := by
        rcases List.mem_cons.mp ha with e | e
        · exact absurd e hax
        · exact e
      rw [ih hxs ha2]

/-- Summed over the held chunks, the live entries per holder are all the live entries. -/
theorem sum_live_in (c : Config) (chunks : List Nat) (hnd : chunks.Nodup) :
    ∀ (live : List Nat), (∀ e ∈ live, entry_holder c e ∈ chunks) →
      (chunks.map (live_in c live)).sum = live.length
  | [], _ => by
    have : chunks.map (live_in c []) = chunks.map fun _ => 0 :=
      List.map_congr_left (fun b _ => rfl)
    rw [this]
    simp
  | e :: live, hown => by
    have ih := sum_live_in c chunks hnd live (fun x hx => hown x (List.mem_cons_of_mem _ hx))
    have : chunks.map (live_in c (e :: live))
        = chunks.map fun b => live_in c live b + (if entry_holder c e = b then 1 else 0) :=
      List.map_congr_left (fun b _ => live_in_cons c live e b)
    rw [this, List.sum_map_add, ih,
      sum_indicator chunks (entry_holder c e) hnd (hown e (List.mem_cons_self _ _)),
      List.length_cons]

/-- Under the invariant, the sum of `total - free` over the held holders is the number
of live entries. -/
theorem live_count_eq (c : Config) (wf : c.WF) (hd : pool_header) (ok : ClassOK c hd)
    (h : Heap) (live L : List Nat) (F : Nat → List Nat) (inv : HInv c hd h live L F) :
    live_count h = live.length := by
  unfold live_count
  have : (h.chunks.map fun b => h.total b - h.free b) = h.chunks.map (live_in c live) := by
    apply List.map_congr_left
    intro b hb
    have h1 := inv.holder_total b hb
    have h2 := inv.count b hb
    omega
  rw [this]
  apply sum_live_in c h.chunks inv.chunks_nodup
  intro e he
  obtain ⟨b, hb, hs⟩ := inv.live_slot e he
  rw [inv.owner wf ok b e hb hs]
  exact hb

/-- Along a valid sequence every allocation adds one live entry and every free removes one. -/
theorem run_live_length (c : Config) (wf : c.WF) (hd : pool_header) (ok : ClassOK c hd) :
    ∀ (ops : List Op) (s s1 : Sim), SInv c hd s → valid c s ops = true →
      run c s ops = some s1 →
      s1.live.length + count_frees ops = s.live.length + count_allocs ops
  | [], s, s1, _, _, hr => by
    cases hr
    rfl
  | op :: ops, s, s1, inv, hv, hr => by
    rw [valid_cons, Bool.and_eq_true, decide_eq_true_eq] at hv
    obtain ⟨s2, h2, inv2⟩ := step_inv c wf hd ok s inv op hv.1
    have hv2 := hv.2
    rw [h2] at hv2
    rw [run_cons, h2] at hr
    have ih := run_live_length c wf hd ok ops s2 s1 inv2 hv2 hr
    cases op with
    | alloc env =>
      have hl : s2.live.length = s.live.length + 1 := by
        rw [step_alloc] at h2
        cases hp : pool_alloc_entry c s.heap env with
        | ret r h => rw [hp] at h2; cases h2; rfl
        | fatal h => rw [hp] at h2; cases h2
        | undef => rw [hp] at h2; cases h2
      show s1.live.length + count_frees ops = s.live.length + (count_allocs ops + 1)
      omega
    | free e =>
      have he : e ∈ s.live := hv.1
      have hl : s2.live.length + 1 = s.live.length := by
        rw [step_free] at h2
        cases hp : pool_free_entry c s.heap e with
        | none => rw [hp] at h2; cases h2
        | some h =>
          rw [hp] at h2
          cases h2
          show (s.live.erase e).length + 1 = s.live.length
          rw [List.length_erase_of_mem he]
          have := List.length_pos_of_mem he
          omega
      show s1.live.length + (count_frees ops + 1) = s.live.length + count_allocs ops
      omega

/-! ### Filling the first holder of a fresh class -/

theorem step_alloc_some (c : Config) (s s1 : Sim) (env : Env)
    (h : step c s (Op.alloc env) = some s1) :
    ∃ r, pool_alloc_entry c s.heap env = Outcome.ret r s1.heap ∧ s1.live = r :: s.live := by
  rw [step_alloc] at h
  cases hp : pool_alloc_entry c s.heap env with
  | ret r h2 => rw [hp] at h; cases h; exact ⟨r, rfl, rfl⟩
  | fatal h2 => rw [hp] at h; cases h
  | undef => rw [hp] at h; cases h

theorem granted_heap_requests (c : Config) (h : Heap) (env : Env) :
    requests (granted_heap c h env).log
      = requests h.log + (if env.malloc1 = 0 then 2 else 1) := by
  unfold granted_heap
  by_cases h1 : env.malloc1 = 0
  · simp [h1, aligned_malloc, emit, lock_header, unlock_header, requests_append, requests]
  · simp [h1, aligned_malloc, emit, lock_header, unlock_header, requests_append, requests]

/-- With a single holder that still has a free entry, that holder is the head of the
ready list. -/
theorem single_first (c : Config) (hd : pool_header) (h : Heap) (live L : List Nat)
    (F : Nat → List Nat) (inv : HInv c hd h live L F) (b : Nat) (hc : h.chunks = [b])
    (hfree : 0 < h.free b) : h.header.first = b := by
  have hb : b ∈ L := (inv.ready_iff b).mpr ⟨by rw [hc]; exact List.mem_singleton_self b, hfree⟩
  cases hL : L with
  | nil => rw [hL] at hb; simp at hb
  | cons x xs =>
    have hr := inv.ready
    rw [hL] at hr
    have hx : x ∈ h.chunks := ((inv.ready_iff x).mp (by rw [hL]; exact List.mem_cons_self _ _)).1
    rw [hc] at hx
    rw [hr.1]
    exact List.mem_singleton.mp hx

/-- With a single holder that is full, the ready list is empty and the holder unlinked. -/
theorem single_full (c : Config) (hd : pool_header) (h : Heap) (live L : List Nat)
    (F : Nat → List Nat) (inv : HInv c hd h live L F) (b : Nat) (hc : h.chunks = [b])
    (hfree : h.free b = 0) :
    L = [] ∧ h.header.first = 0 ∧ h.fore b = 0 ∧ h.back b = 0 := by
  have hL : L = [] := by
    cases hL : L with
    | nil => rfl
    | cons x xs =>
      have hx := (inv.ready_iff x).mp (by rw [hL]; exact List.mem_cons_self _ _)
      have := hx.1
      rw [hc] at this
      have hxb := List.mem_singleton.mp this
      rw [hxb] at hx
      omega
  have hb : b ∈ h.chunks := by rw [hc]; exact List.mem_singleton_self b
  have hu := inv.unlinked b hb (by rw [hL]; simp)
  exact ⟨hL, inv.first_eq_zero.mpr hL, hu.1, hu.2⟩

/-- One more allocation from the single holder of a class while it has a free entry. -/
theorem fill_step (c : Config) (wf : c.WF) (hd : pool_header) (ok : ClassOK c hd)
    (b k : Nat) (s s1 : Sim) (env : Env) (inv : SInv c hd s) (hc : s.heap.chunks = [b])
    (hk : s.heap.free b + k = hd.total) (hlt : k < hd.total)
    (hs : step c s (Op.alloc env) = some s1) :
    SInv c hd s1 ∧ s1.heap.chunks = [b] ∧ s1.heap.free b + (k + 1) = hd.total ∧
      s1.heap.log = s.heap.log := by
  obtain ⟨_, L, F, hinv⟩ := inv
  have hfirst := single_first c hd s.heap s.live L F hinv b hc (by omega)
  have hb0 : b ≠ 0 := (hinv.chunk_ok b (by rw [hc]; exact List.mem_singleton_self b)).1
  have hne : s.heap.header.first ≠ 0 := by rw [hfirst]; exact hb0
  have hop : op_ok c s (Op.alloc env) := fun h0 => absurd h0 hne
  obtain ⟨a1, _, _, _, a5⟩ := alloc_spec c wf hd ok s.heap s.live L F hinv env hop
  obtain ⟨r, hr1, hr2⟩ := step_alloc_some c s s1 env hs
  obtain ⟨hres0, hheap0⟩ := Outcome.ret.inj (a1.symm.trans hr1)
  have hheap : s1.heap = alloc_heap c hd s.heap env := hheap0.symm
  have hres : r = alloc_result c s.heap env := hres0.symm
  have hah : alloc_heap c hd s.heap env = pop_heap (lock_header s.heap) b := by
    unfold alloc_heap; rw [if_neg hne, hfirst]
  refine ⟨⟨by rw [hheap]; exact alloc_heap_lock c hd s.heap env, _, _,
    by rw [hheap, hr2, hres]; exact a5⟩, ?_, ?_, ?_⟩
  · rw [hheap, hah, pop_heap_chunks]; exact hc
  · rw [hheap, hah, pop_heap_free, Function.update_same]
    show s.heap.free b - 1 + (k + 1) = hd.total
    omega
  · rw [hheap, hah, pop_heap_log]; rfl

/-- A run of allocations from the single holder of a class, as long as it has room. -/
theorem fill_run (c : Config) (wf : c.WF) (hd : pool_header) (ok : ClassOK c hd) (b : Nat) :
    ∀ (envs : List Env) (k : Nat) (s s1 : Sim), SInv c hd s → s.heap.chunks = [b] →
      s.heap.free b + k = hd.total → k + envs.length ≤ hd.total →
      run c s (envs.map Op.alloc) = some s1 →
      SInv c hd s1 ∧ s1.heap.chunks = [b] ∧ s1.heap.free b + (k + envs.length) = hd.total ∧
        s1.heap.log = s.heap.log
  | [], k, s, s1, inv, hc, hk, _, hr => by
    cases hr
    exact ⟨inv, hc, hk, rfl⟩
  | env :: envs, k, s, s1, inv, hc, hk, hle, hr => by
    have hr2 : (step c s (Op.alloc env)).bind (fun s2 => run c s2 (envs.map Op.alloc))
        = some s1 := hr
    have hlen : (env :: envs).length = envs.length + 1 := rfl
    cases hs : step c s (Op.alloc env) with
    | none => rw [hs] at hr2; cases hr2
    | some s2 =>
      rw [hs] at hr2
      obtain ⟨i1, i2, i3, i4⟩ := fill_step c wf hd ok b k s s2 env inv hc hk (by omega) hs
      obtain ⟨j1, j2, j3, j4⟩ :=
        fill_run c wf hd ok b envs (k + 1) s2 s1 i1 i2 i3 (by omega) hr2
      exact ⟨j1, j2, by rw [hlen]; omega, j4.trans i4⟩

/-- The first allocation on a fresh class: one chunk is granted, and the new holder
has all entries free but one. -/
theorem fresh_first (c : Config) (wf : c.WF) (hd : pool_header) (ok : ClassOK c hd)
    (env : Env) (s1 : Sim) (hop : op_ok c (Sim.init hd) (Op.alloc env))
    (hs : step c (Sim.init hd) (Op.alloc env) = some s1) :
    SInv c hd s1 ∧ s1.heap.chunks = [granted_chunk env] ∧
      s1.heap.free (granted_chunk env) + 1 = hd.total ∧ grants s1.heap.log = 1 ∧
      requests s1.heap.log = (if env.malloc1 = 0 then 2 else 1) ∧
      releases s1.heap.log = [] := by
  have hinv := init_inv c hd ok
  have hf : (Sim.init hd).heap.header.first = 0 := ok.first_null
  obtain ⟨a1, _, _, _, a5⟩ := alloc_spec c wf hd ok _ _ _ _ hinv env hop
  obtain ⟨r, hr1, hr2⟩ := step_alloc_some c _ s1 env hs
  obtain ⟨hres0, hheap0⟩ := Outcome.ret.inj (a1.symm.trans hr1)
  have hheap : s1.heap = alloc_heap c hd (Sim.init hd).heap env := hheap0.symm
  have hres : r = alloc_result c (Sim.init hd).heap env := hres0.symm
  have hah : alloc_heap c hd (Sim.init hd).heap env
      = pop_heap (materialize_heap c hd (lock_header (Sim.init hd).heap) env)
          (granted_chunk env) := by
    unfold alloc_heap; rw [if_pos hf]
  obtain ⟨_, _, _, g4, _, _, _, _, _, _, _, g12, g13⟩ :=
    granted_heap_facts c (lock_header (Sim.init hd).heap) env (hop hf)
  have hreq := granted_heap_requests c (lock_header (Sim.init hd).heap) env
  have hpos := ok.total_pos
  refine ⟨⟨by rw [hheap]; exact alloc_heap_lock c hd _ env, _, _,
    by rw [hheap, hr2, hres]; exact a5⟩, ?_, ?_, ?_, ?_, ?_⟩
  · rw [hheap, hah, pop_heap_chunks]
    unfold materialize_heap
    rw [setup_heap_chunks, g4]
    rfl
  · rw [hheap, hah, pop_heap_free, Function.update_same]
    unfold materialize_heap
    rw [setup_heap_free, Function.update_same]
    omega
  · rw [hheap, hah, pop_heap_log]
    unfold materialize_heap
    rw [setup_heap_log, g12]
    rfl
  · rw [hheap, hah, pop_heap_log]
    unfold materialize_heap
    rw [setup_heap_log, hreq]
    show 0 + _ = _
    omega
  · rw [hheap, hah, pop_heap_log]
    unfold materialize_heap
    rw [setup_heap_log, g13]
    rfl

/-- After as many allocations on a fresh class as a holder has entries, the only
holder is full. -/
theorem fresh_fill (c : Config) (wf : c.WF) (hd : pool_header) (ok : ClassOK c hd)
    (env1 : Env) (envs : List Env) (hlen : envs.length + 1 ≤ hd.total)
    (hv : valid c (Sim.init hd) (Op.alloc env1 :: envs.map Op.alloc) = true) :
    ∃ s, run c (Sim.init hd) (Op.alloc env1 :: envs.map Op.alloc) = some s ∧
      SInv c hd s ∧ s.heap.chunks = [granted_chunk env1] ∧
      s.heap.free (granted_chunk env1) + (envs.length + 1) = hd.total ∧
      grants s.heap.log = 1 ∧
      requests s.heap.log = (if env1.malloc1 = 0 then 2 else 1) ∧
      releases s.heap.log = [] := by
  obtain ⟨s, hrun, _⟩ := run_inv c wf hd ok _ _ (init_sinv c hd ok) hv
  have hop : op_ok c (Sim.init hd) (Op.alloc env1) := by
    rw [valid_cons, Bool.and_eq_true, decide_eq_true_eq] at hv
    exact hv.1
  have hr2 : (step c (Sim.init hd) (Op.alloc env1)).bind
      (fun s2 => run c s2 (envs.map Op.alloc)) = some s := hrun
  cases hs : step c (Sim.init hd) (Op.alloc env1) with
  | none => rw [hs] at hr2; cases hr2
  | some s1 =>
    rw [hs] at hr2
    obtain ⟨i1, i2, i3, i4, i5, i6⟩ := fresh_first c wf hd ok env1 s1 hop hs
    obtain ⟨j1, j2, j3, j4⟩ :=
      fill_run c wf hd ok (granted_chunk env1) envs 1 s1 s i1 i2 i3 (by omega) hr2
    exact ⟨s, hrun, j1, j2, by omega, by rw [j4]; exact i4, by rw [j4]; exact i5,
      by rw [j4]; exact i6⟩

/-- A materialising `pool_alloc_entry`: the heap it leaves holds the granted chunk on
top of the chunks held before, with one more grant in the log. -/
theorem alloc_materialize_facts (c : Config) (hd : pool_header) (h : Heap) (env : Env)
    (hf : h.header.first = 0) (hok : env_ok c h env) :
    (alloc_heap c hd h env).chunks = granted_chunk env :: h.chunks ∧
      grants (alloc_heap c hd h env).log = grants h.log + 1 ∧
      requests (alloc_heap c hd h env).log
        = requests h.log + (if env.malloc1 = 0 then 2 else 1) ∧
      releases (alloc_heap c hd h env).log = releases h.log := by
  obtain ⟨_, _, _, g4, _, _, _, _, _, _, _, g12, g13⟩ :=
    granted_heap_facts c (lock_header h) env hok
  have hreq := granted_heap_requests c (lock_header h) env
  have hah : alloc_heap c hd h env
      = pop_heap (materialize_heap c hd (lock_header h) env) (granted_chunk env) := by
    unfold alloc_heap; rw [if_pos hf]
  rw [hah, pop_heap_chunks, pop_heap_log]
  unfold materialize_heap
  rw [setup_heap_chunks, setup_heap_log, g4, g12, g13, hreq]
  exact ⟨rfl, rfl, rfl, rfl⟩

/-! ### The three outcomes of `pool_free_entry`, field by field -/

/-- Freeing an entry of a full holder links the holder back: as the head when the
ready list is empty, right behind the head otherwise.  No collaborator is called. -/
theorem free_heap_relink (c : Config) (h : Heap) (e H : Nat) (hH : entry_holder c e = H)
    (h0 : h.free H = 0) :
    (free_heap c h e).log = h.log ∧ (free_heap c h e).chunks = h.chunks ∧
      (free_heap c h e).freep H = e ∧ (free_heap c h e).free H = 1 ∧
      (h.header.first = 0 → (free_heap c h e).header.first = H) ∧
      (h.header.first ≠ 0 → h.header.first ≠ H → h.fore h.header.first ≠ H →
        (free_heap c h e).header.first = h.header.first ∧
        (free_heap c h e).fore h.header.first = H ∧
        (free_heap c h e).back H = h.header.first ∧
        (free_heap c h e).fore H = h.fore h.header.first ∧
        (free_heap c h e).freep h.header.first = h.freep h.header.first) := by
  have hfh : free_heap c h e = push_heap (relink_heap (bump_heap h H) H) H e := by
    unfold free_heap; dsimp only; rw [hH, if_pos h0]
  rw [hfh]
  refine ⟨by simp, by simp, by simp, by simp [h0], ?_, ?_⟩
  · intro hf
    exact (relink_heap_empty (bump_heap h H) H hf).2.2
  · intro hf hfH hnH
    obtain ⟨k1, k2, k3⟩ := relink_heap_behind (bump_heap h H) H hf
    simp only [bump_heap_fore, bump_heap_back, bump_heap_first] at k1 k2 k3
    refine ⟨k3, ?_, ?_, ?_, ?_⟩
    · rw [push_heap_fore, k1, Function.update_same]
    · rw [push_heap_back, k2]
      split
      · rw [Function.update_noteq (Ne.symm hnH), Function.update_same]
      · rw [Function.update_same]
    · rw [push_heap_fore, k1, Function.update_noteq (Ne.symm hfH), Function.update_same]
    · rw [push_heap_freep, relink_heap_freep, bump_heap_freep,
        Function.update_noteq hfH]

/-- Freeing an entry of a holder that has a free entry and does not become fully idle
away from the head: the entry is pushed, the ready list is untouched, no collaborator
is called. -/
theorem free_heap_stay (c : Config) (h : Heap) (e H : Nat) (hH : entry_holder c e = H)
    (h0 : h.free H ≠ 0) (hrel : ¬ (h.free H + 1 = h.total H ∧ h.header.first ≠ H)) :
    (free_heap c h e).log = h.log ∧ (free_heap c h e).chunks = h.chunks ∧
      (free_heap c h e).freep H = e ∧ (free_heap c h e).free H = h.free H + 1 ∧
      (free_heap c h e).header.first = h.header.first ∧
      (free_heap c h e).fore = h.fore ∧ (free_heap c h e).back = h.back := by
  have hfh : free_heap c h e = push_heap (bump_heap h H) H e := by
    unfold free_heap; dsimp only; rw [hH, if_neg h0, if_neg hrel]
  rw [hfh]
  exact ⟨rfl, rfl, by simp, by simp, rfl, rfl, rfl⟩

/-- Freeing the last live entry of a holder that is not the head: the holder is
unlinked and its chunk released with one `aligned_free` call. -/
theorem free_heap_release (c : Config) (h : Heap) (e H : Nat) (hH : entry_holder c e = H)
    (h0 : h.free H ≠ 0) (hrel : h.free H + 1 = h.total H ∧ h.header.first ≠ H) :
    (free_heap c h e).log = h.log ++ [Event.release H] ∧
      (free_heap c h e).chunks = h.chunks.erase H := by
  have hfh : free_heap c h e
      = unlock_header (aligned_free (unchain_heap (bump_heap h H) H) H) := by
    unfold free_heap; dsimp only; rw [hH, if_neg h0, if_pos hrel]
  rw [hfh]
  exact ⟨rfl, rfl⟩

/-- An allocation from a non-empty ready list pops the head's free list and calls no
collaborator. -/
theorem alloc_ready_facts (c : Config) (hd : pool_header) (h : Heap) (env : Env)
    (hf : h.header.first ≠ 0) :
    alloc_result c h env = h.freep h.header.first ∧
      (alloc_heap c hd h env).log = h.log ∧ (alloc_heap c hd h env).chunks = h.chunks := by
  unfold alloc_result alloc_heap
  rw [if_neg hf, if_neg hf, pop_heap_log, pop_heap_chunks]
  exact ⟨rfl, rfl, rfl⟩

/-- After a free that leaves the entry's holder as the head of the ready list, the
next `pool_alloc_entry` returns the entry just freed and calls no collaborator. -/
theorem free_then_alloc (c : Config) (wf : c.WF) (hd : pool_header) (ok : ClassOK c hd)
    (h : Heap) (live L : List Nat) (F : Nat → List Nat) (inv : HInv c hd h live L F)
    (e : Nat) (he : e ∈ live) (env : Env)
    (hfirst : (free_heap c h e).header.first = entry_holder c e)
    (hfreep : (free_heap c h e).freep (entry_holder c e) = e) :
    ∃ h2, pool_alloc_entry c (free_heap c h e) env = Outcome.ret e h2 ∧
      h2.log = (free_heap c h e).log ∧ h2.chunks = (free_heap c h e).chunks := by
  have inv1 := free_inv c wf hd ok h live L F inv e he
  obtain ⟨hmem, _, _, _, _, _⟩ := inv.live_facts wf ok e he
  have hH0 : entry_holder c e ≠ 0 := (inv.chunk_ok _ hmem).1
  have hne : (free_heap c h e).header.first ≠ 0 := by rw [hfirst]; exact hH0
  obtain ⟨a1, _⟩ := alloc_spec c wf hd ok _ _ _ _ inv1 env (fun h0 => absurd h0 hne)
  obtain ⟨r1, r2, r3⟩ := alloc_ready_facts c hd (free_heap c h e) env hne
  rw [r1, hfirst, hfreep] at a1
  exact ⟨_, a1, r2, r3⟩

@[simp] theorem free_heap_htotal (c : Config) (h : Heap) (e : Nat) :
    (free_heap c h e).total = h.total := by
  unfold free_heap; dsimp only
  split
  · simp
  · split <;> simp

theorem finalize_first (h : Heap) (hf : h.header.first ≠ 0) :
    pool_finalize_header h = set_first (aligned_free h h.header.first) 0 := by
  unfold pool_finalize_header
  rw [if_pos hf]

theorem finalize_null (h : Heap) (hf : h.header.first = 0) : pool_finalize_header h = h := by
  unfold pool_finalize_header
  rw [if_neg (by simpa using hf)]

theorem follow_zero (next : Nat → Nat) (fuel : Nat) : follow next fuel 0 = [] := by
  cases fuel <;> simp [follow]

theorem follow_succ (next : Nat → Nat) (fuel p : Nat) (hp : p ≠ 0) :
    follow next (fuel + 1) p = p :: follow next fuel (next p) := by
  simp [follow, hp]

/-- Following the `fore` links from the start of a ready list visits exactly the list
and then meets `NULL`. -/
theorem Ready.follow_fore {fore back : Nat → Nat} :
    ∀ (L : List Nat) (prev p : Nat), Ready fore back prev p L →
      ∀ fuel, L.length ≤ fuel → follow fore fuel p = L
  | [], _, _, h, fuel, _ => by
    have h0 : _ = 0 := h
    rw [h0, follow_zero]
  | x :: xs, _, _, ⟨h1, h2, _, h4⟩, fuel, hl => by
    obtain ⟨n, rfl⟩ : ∃ n, fuel = n + 1 := ⟨fuel - 1, by simp at hl; omega⟩
    rw [h1, follow_succ _ _ _ h2,
      Ready.follow_fore xs x (fore x) h4 n (by simp at hl; omega)]

/-- In a ready list every successor is in the list and points back. -/
theorem Ready.links {fore back : Nat → Nat} :
    ∀ (L : List Nat) (prev p : Nat), Ready fore back prev p L →
      ∀ x ∈ L, fore x ≠ 0 → fore x ∈ L ∧ back (fore x) = x
  | [], _, _, _, _, hx, _ => absurd hx (List.not_mem_nil _)
  | y :: ys, _, _, ⟨_, _, _, h4⟩, x, hx, hne => by
    rcases List.mem_cons.1 hx with rfl | hx1
    · cases ys with
      | nil => exact absurd h4 hne
      | cons z zs =>
        obtain ⟨e1, _, e3, _⟩ := h4
        rw [e1]
        exact ⟨List.mem_cons_of_mem _ (List.mem_cons_self _ _), e3⟩
    · obtain ⟨m1, m2⟩ := Ready.links ys y (fore y) h4 x hx1 hne
      exact ⟨List.mem_cons_of_mem _ m1, m2⟩

/-- Following the link words from the start of a free list visits exactly the list
and then meets `NULL`. -/
theorem FreeList.follow_links {mem : Nat → Nat} :
    ∀ (F : List Nat) (p : Nat), FreeList mem p F →
      ∀ fuel, F.length ≤ fuel → follow mem fuel p = F
  | [], _, h, fuel, _ => by
    have h0 : _ = 0 := h
    rw [h0, follow_zero]
  | x :: xs, _, ⟨h1, h2, h3⟩, fuel, hl => by
    obtain ⟨n, rfl⟩ : ∃ n, fuel = n + 1 := ⟨fuel - 1, by simp at hl; omega⟩
    rw [h1, follow_succ _ _ _ h2, FreeList.follow_links xs (mem x) h3 n (by simp at hl; omega)]

/-- The closed form of `pool_alloc_entry` on a non-empty ready list. -/
theorem alloc_heap_ready (c : Config) (hd : pool_header) (h : Heap) (env : Env)
    (hf : h.header.first ≠ 0) :
    alloc_heap c hd h env = pop_heap (lock_header h) h.header.first ∧
      ∀ L, alloc_ready hd h env L = if h.free h.header.first = 1 then L.tail else L := by
  unfold alloc_heap alloc_ready
  rw [if_neg hf]
  exact ⟨rfl, fun L => by rw [if_neg hf]⟩

/-- The data words of a holder just set up: entry `k` links to entry `k + 1`, the last
entry holds `NULL`, and no word outside the entries is written. -/
theorem setup_heap_links (c : Config) (wf : c.WF) (hd : pool_header) (ok : ClassOK c hd)
    (h : Heap) (b : Nat) :
    (∀ k, k + 1 < hd.total →
        (setup_heap c hd h b).mem (slot_addr c hd b k) = slot_addr c hd b (k + 1)) ∧
      (setup_heap c hd h b).mem (slot_addr c hd b (hd.total - 1)) = 0 ∧
      ∀ a, (setup_heap c hd h b).mem a ≠ h.mem a → ∃ k, k < hd.total ∧ a = slot_addr c hd b k := by
  rw [setup_heap_mem]
  refine ⟨fun k hk => ?_, Function.update_same _ _ _, fun a ha => ?_⟩
  · rw [Function.update_noteq (slot_addr_ne c wf hd ok b _ _ (by omega))]
    have := chain_mem_link c wf hd ok b (hd.total - 1) 0 h.mem k (by omega)
    rwa [Nat.zero_add] at this
  · by_contra hex
    apply ha
    have hne : ∀ k, k < hd.total → a ≠ slot_addr c hd b k := fun k hk e => hex ⟨k, hk, e⟩
    rw [Function.update_noteq (hne _ (by have := ok.total_pos; omega))]
    exact chain_mem_other c hd b _ 0 h.mem a fun t ht => by
      rw [Nat.zero_add]; exact hne t (by omega)

/-- With a capacity of two or more and no live entry, the only chunk that can still be
held is `header->first`. -/
theorem HInv.idle_all {c : Config} {hd : pool_header} {h : Heap} {L : List Nat}
    {F : Nat → List Nat} (inv : HInv c hd h [] L F) (h2 : 2 ≤ hd.total) :
    ∀ b ∈ h.chunks, h.header.first = b ∧ b ≠ 0 := by
  intro b hb
  have hc := inv.count b hb
  have hz : live_in c [] b = 0 := rfl
  rw [hz] at hc
  exact ⟨inv.idle_first h2 b hb hc, (inv.chunk_ok b hb).1⟩

/-! ### The out-of-memory paths of `pool_holder_alloc` -/

theorem holder_bytes_lock (c : Config) (hd : pool_header) (l : Nat) :
    holder_bytes c { hd with lock := l } = holder_bytes c hd := rfl

/-- The first request fails and the reclaim reports failure: `ruby_memerror` is called
with no second request. -/
theorem holder_alloc_reclaim_fails (c : Config) (h : Heap) (env : Env)
    (hf : h.header.first = 0) (hp : env.prepare_frees = []) (hg : env.gc_frees = [])
    (h1 : env.malloc1 = 0) (h2 : env.gc_ok = false) :
    pool_holder_alloc c h env
      = Outcome.fatal
          (emit (emit (unlock_header (aligned_malloc c
            (lock_header (emit (unlock_header h) (Event.prepare 0))) 0))
              (Event.reclaim 0 false)) (Event.memerror 0)) := by
  unfold pool_holder_alloc
  rw [hp, hg, h1, h2]
  simp only [run_frees, unlock_header_lock]
  rw [if_neg (by simpa using hf)]
  simp
  rfl

/-- The first request fails, the reclaim succeeds and the second request fails:
`ruby_memerror` is called after the second request. -/
theorem holder_alloc_retry_fails (c : Config) (h : Heap) (env : Env)
    (hf : h.header.first = 0) (hp : env.prepare_frees = []) (hg : env.gc_frees = [])
    (h1 : env.malloc1 = 0) (h2 : env.gc_ok = true) (h3 : env.malloc2 = 0) :
    pool_holder_alloc c h env
      = Outcome.fatal
          (emit (aligned_malloc c (emit (unlock_header (aligned_malloc c
            (lock_header (emit (unlock_header h) (Event.prepare 0))) 0))
              (Event.reclaim 0 true)) 0) (Event.memerror 0)) := by
  unfold pool_holder_alloc
  rw [hp, hg, h1, h2, h3]
  simp only [run_frees, unlock_header_lock]
  rw [if_neg (by simpa using hf)]
  simp [aligned_malloc, emit]

/-- A `pool_alloc_entry` whose `pool_holder_alloc` ends in `ruby_memerror` ends there. -/
theorem alloc_entry_fatal (c : Config) (h : Heap) (env : Env) (hF : Heap)
    (hf : h.header.first = 0)
    (e : pool_holder_alloc c (lock_header h) env = Outcome.fatal hF) :
    pool_alloc_entry c h env = Outcome.fatal hF := by
  unfold pool_alloc_entry
  dsimp only
  rw [if_pos (by exact hf), e]

/-- The collaborator calls of a materialising `pool_holder_alloc`, with the lock word
at each call. -/
theorem granted_heap_log (c : Config) (h : Heap) (env : Env) (hok : env_ok c h env) :
    (granted_heap c h env).log
      = h.log ++
        (if env.malloc1 = 0 then
          [Event.prepare 0, Event.request 1 (holder_bytes c h.header) 0, Event.reclaim 0 true,
            Event.request 0 (holder_bytes c h.header) env.malloc2]
        else [Event.prepare 0, Event.request 1 (holder_bytes c h.header) env.malloc1]) := by
  unfold granted_heap
  rcases hok.2.2 with h1 | ⟨h1, _, _⟩
  · have hne := h1.1
    rw [if_pos hne, if_neg hne]
    simp [aligned_malloc, emit, lock_header, unlock_header, holder_bytes_lock]
  · rw [if_neg (by simpa using h1), if_pos h1]
    simp [aligned_malloc, emit, lock_header, unlock_header, holder_bytes_lock]

/-- The log after a materialising `pool_alloc_entry`. -/
theorem alloc_heap_log (c : Config) (hd : pool_header) (h : Heap) (env : Env)
    (hf : h.header.first = 0) :
    (alloc_heap c hd h env).log = (granted_heap c (lock_header h) env).log := by
  unfold alloc_heap
  rw [if_pos hf, pop_heap_log]
  rfl

/-- A materialising `pool_alloc_entry` under the invariant: it returns the first entry
of the granted chunk, and its collaborator calls are those of `granted_heap`. -/
theorem alloc_granted (c : Config) (wf : c.WF) (hd : pool_header) (ok : ClassOK c hd)
    (s : Sim) (hr : Reachable c hd s) (hf : s.heap.header.first = 0) (env : Env)
    (hok : env_ok c s.heap env) :
    ∃ r h1, pool_alloc_entry c s.heap env = Outcome.ret r h1 ∧
      is_slot c hd (granted_chunk env) r ∧ granted_chunk env ∈ h1.chunks ∧
      h1.header.lock = 0 ∧
      h1.log = s.heap.log ++
        (if env.malloc1 = 0 then
          [Event.prepare 0, Event.request 1 (holder_bytes c s.heap.header) 0,
            Event.reclaim 0 true, Event.request 0 (holder_bytes c s.heap.header) env.malloc2]
        else [Event.prepare 0, Event.request 1 (holder_bytes c s.heap.header) env.malloc1]) := by
  obtain ⟨_, L, F, inv⟩ := reachable_inv c wf hd ok s hr
  obtain ⟨e1, _, e3, e4, _⟩ := alloc_spec c wf hd ok s.heap s.live L F inv env (fun _ => hok)
  rw [alloc_holder_empty _ _ hf] at e3 e4
  refine ⟨_, _, e1, e3, e4, alloc_heap_lock c hd s.heap env, ?_⟩
  rw [alloc_heap_log c hd s.heap env hf]
  exact granted_heap_log c (lock_header s.heap) env hok

/-! ### The operations on heaps that differ in data words only -/

theorem with_mem_self (h : Heap) : with_mem h h.mem = h := rfl

theorem with_mem_idem (h : Heap) (m1 m2 : Nat → Nat) :
    with_mem (with_mem h m1) m2 = with_mem h m2 := rfl

theorem relink_heap_with_mem (h : Heap) (m : Nat → Nat) (H : Nat) :
    relink_heap (with_mem h m) H = with_mem (relink_heap h H) m := by
  unfold relink_heap
  by_cases hf : h.header.first = 0
  · rw [if_pos (show (with_mem h m).header.first = 0 from hf), if_pos hf]; rfl
  · rw [if_neg (show ¬ (with_mem h m).header.first = 0 from hf), if_neg hf]; rfl

theorem push_heap_with_mem (h : Heap) (m : Nat → Nat) (H e : Nat) :
    push_heap (with_mem h m) H e = with_mem (push_heap h H e) (Function.update m e (h.freep H)) :=
  rfl

theorem unchain_heap_with_mem (h : Heap) (m : Nat → Nat) (H : Nat) :
    unchain_heap (with_mem h m) H = with_mem (unchain_heap h H) m := rfl

/-- The free of an entry does not read the data words: started on other data words, it
ends in the same heap up to data words, which are as `free_mem` says. -/
theorem free_heap_with_mem (c : Config) (h : Heap) (m : Nat → Nat) (e : Nat) :
    free_heap c (with_mem h m) e = with_mem (free_heap c h e) (free_mem c h e m) := by
  unfold free_heap free_mem
  dsimp only
  by_cases h0 : h.free (entry_holder c e) = 0
  · rw [if_pos (show (with_mem h m).free (entry_holder c e) = 0 from h0), if_pos h0,
      if_neg (fun hh => hh.1 h0)]
    show push_heap (relink_heap (with_mem (bump_heap h _) m) _) _ _ = _
    rw [relink_heap_with_mem, push_heap_with_mem, relink_heap_freep, bump_heap_freep]
  · rw [if_neg (show ¬ (with_mem h m).free (entry_holder c e) = 0 from h0), if_neg h0]
    by_cases hr : h.free (entry_holder c e) + 1 = h.total (entry_holder c e) ∧
        h.header.first ≠ entry_holder c e
    · rw [if_pos (show (with_mem h m).free (entry_holder c e) + 1
          = (with_mem h m).total (entry_holder c e) ∧
          (with_mem h m).header.first ≠ entry_holder c e from hr), if_pos hr,
        if_pos ⟨h0, hr⟩]
      rfl
    · rw [if_neg (show ¬ ((with_mem h m).free (entry_holder c e) + 1
          = (with_mem h m).total (entry_holder c e) ∧
          (with_mem h m).header.first ≠ entry_holder c e) from hr), if_neg hr,
        if_neg (fun hh => hr hh.2)]
      rfl

theorem free_heap_mem (c : Config) (h : Heap) (e : Nat) :
    (free_heap c h e).mem = free_mem c h e h.mem := by
  have := free_heap_with_mem c h h.mem e
  rw [with_mem_self] at this
  rw [this]
  rfl

theorem free_heap_chunks (c : Config) (h : Heap) (e : Nat) :
    (free_heap c h e).chunks
      = if h.free (entry_holder c e) ≠ 0 ∧
            h.free (entry_holder c e) + 1 = h.total (entry_holder c e) ∧
            h.header.first ≠ entry_holder c e
        then h.chunks.erase (entry_holder c e) else h.chunks := by
  unfold free_heap
  dsimp only
  by_cases h0 : h.free (entry_holder c e) = 0
  · rw [if_pos h0, if_neg (fun hh => hh.1 h0)]
    simp
  · rw [if_neg h0]
    by_cases hr : h.free (entry_holder c e) + 1 = h.total (entry_holder c e) ∧
        h.header.first ≠ entry_holder c e
    · rw [if_pos hr, if_pos ⟨h0, hr⟩]
      simp
    · rw [if_neg hr, if_neg (fun hh => hr hh.2)]
      simp

/-- The pop reads one data word, the link word of the entry it returns. -/
theorem pop_heap_with_mem (h : Heap) (m : Nat → Nat) (H : Nat)
    (hm : m (h.freep H) = h.mem (h.freep H)) :
    pop_heap (with_mem h m) H = with_mem (pop_heap h H) m := by
  unfold pop_heap
  dsimp only
  have e1 : (with_mem h m).mem ((with_mem h m).freep H) = h.mem (h.freep H) := hm
  rw [e1]
  by_cases h1 : h.free H = 1
  · rw [if_pos (show (with_mem h m).free H = 1 from h1), if_pos h1]; rfl
  · rw [if_neg (show ¬ (with_mem h m).free H = 1 from h1), if_neg h1]; rfl

theorem granted_heap_with_mem (c : Config) (h : Heap) (m : Nat → Nat) (env : Env) :
    granted_heap c (with_mem h m) env = with_mem (granted_heap c h env) m := by
  unfold granted_heap
  dsimp only
  by_cases h1 : env.malloc1 ≠ 0
  · rw [if_pos h1, if_pos h1]; rfl
  · rw [if_neg h1, if_neg h1]; rfl

theorem setup_heap_with_mem (c : Config) (hd : pool_header) (h : Heap) (m : Nat → Nat)
    (b : Nat) :
    setup_heap c hd (with_mem h m) b
      = with_mem (setup_heap c hd h b)
          (Function.update (chain_mem c hd b m 0 (hd.total - 1))
            (slot_addr c hd b (hd.total - 1)) 0) := rfl

/-- Where two memories agree, or where the loop writes, the memories after the loop
agree. -/
theorem chain_mem_agree (c : Config) (hd : pool_header) (b : Nat) :
    ∀ (i j : Nat) (m m0 : Nat → Nat) (x : Nat),
      (m x = m0 x ∨ ∃ t, t < i ∧ x = slot_addr c hd b (j + t)) →
      chain_mem c hd b m j i x = chain_mem c hd b m0 j i x
  | 0, _, _, _, _, hx => by
    rcases hx with hx | ⟨t, ht, _⟩
    · exact hx
    · exact absurd ht (Nat.not_lt_zero _)
  | i + 1, j, m, m0, x, hx => by
    show chain_mem c hd b _ (j + 1) i x = chain_mem c hd b _ (j + 1) i x
    apply chain_mem_agree c hd b i (j + 1)
    by_cases hxj : x = slot_addr c hd b j
    · left
      rw [hxj, Function.update_same, Function.update_same]
    · rcases hx with hx | ⟨t, ht, hxt⟩
      · left
        rw [Function.update_noteq hxj, Function.update_noteq hxj]
        exact hx
      · right
        cases t with
        | zero => exact absurd hxt hxj
        | succ t => exact ⟨t, by omega, by rw [hxt]; congr 1; omega⟩

/-- Where two memories agree, or at an entry of the new holder, the memories after
`holder_setup` agree. -/
theorem setup_mem_agree (c : Config) (hd : pool_header) (b : Nat)
    (m m0 : Nat → Nat) (x : Nat)
    (hx : m x = m0 x ∨ ∃ k, k < hd.total ∧ x = slot_addr c hd b k) :
    Function.update (chain_mem c hd b m 0 (hd.total - 1)) (slot_addr c hd b (hd.total - 1)) 0 x
      = Function.update (chain_mem c hd b m0 0 (hd.total - 1))
          (slot_addr c hd b (hd.total - 1)) 0 x := by
  by_cases hl : x = slot_addr c hd b (hd.total - 1)
  · rw [hl, Function.update_same, Function.update_same]
  · rw [Function.update_noteq hl, Function.update_noteq hl]
    apply chain_mem_agree
    rcases hx with hx | ⟨k, hk, hxk⟩
    · exact Or.inl hx
    · right
      refine ⟨k, ?_, by rw [Nat.zero_add]; exact hxk⟩
      by_contra hge
      have : k = hd.total - 1 := by omega
      exact hl (this ▸ hxk)

theorem granted_heap_mem (c : Config) (h : Heap) (env : Env) :
    (granted_heap c h env).mem = h.mem := by
  unfold granted_heap
  dsimp only
  split <;> rfl

theorem alloc_heap_mem (c : Config) (hd : pool_header) (h : Heap) (env : Env) :
    (alloc_heap c hd h env).mem = alloc_mem c hd h env h.mem := by
  unfold alloc_heap alloc_mem
  by_cases hf : h.header.first = 0
  · rw [if_pos hf, if_pos hf, pop_heap_mem]
    unfold materialize_heap
    rw [setup_heap_mem, granted_heap_mem]
    rfl
  · rw [if_neg hf, if_neg hf, pop_heap_mem]
    rfl

/-- An allocation reads one data word at most, the link word of the entry it returns:
started on other data words that agree there, it ends in the same heap up to data
words, which are as `alloc_mem` says. -/
theorem alloc_heap_with_mem (c : Config) (hd : pool_header) (ok : ClassOK c hd) (h : Heap)
    (m : Nat → Nat) (env : Env)
    (hm : h.header.first ≠ 0 → m (h.freep h.header.first) = h.mem (h.freep h.header.first)) :
    alloc_heap c hd (with_mem h m) env
      = with_mem (alloc_heap c hd h env) (alloc_mem c hd h env m) := by
  unfold alloc_heap alloc_mem
  by_cases hf : h.header.first = 0
  · rw [if_pos (show (with_mem h m).header.first = 0 from hf), if_pos hf, if_pos hf]
    unfold materialize_heap
    show pop_heap (setup_heap c hd (granted_heap c (with_mem (lock_header h) m) env) _) _ = _
    rw [granted_heap_with_mem, setup_heap_with_mem]
    apply pop_heap_with_mem
    rw [setup_heap_freep, Function.update_same, setup_heap_mem, ← slot_addr_zero c hd]
    exact setup_mem_agree c hd _ _ _ _ (Or.inr ⟨0, ok.total_pos, rfl⟩)
  · rw [if_neg (show ¬ (with_mem h m).header.first = 0 from hf), if_neg hf, if_neg hf]
    exact pop_heap_with_mem (lock_header h) m _ (hm hf)

/-- The invariant does not depend on data words other than the link words of the free
entries. -/
theorem HInv.other_mem {c : Config} {hd : pool_header} {h : Heap} {live L : List Nat}
    {F : Nat → List Nat} (inv : HInv c hd h live L F) (m : Nat → Nat)
    (hag : ∀ b ∈ h.chunks, ∀ x ∈ F b, m x = h.mem x) :
    HInv c hd (with_mem h m) live L F :=
  { hsize := inv.hsize
    htotal := inv.htotal
    chunks_nodup := inv.chunks_nodup
    chunk_ok := inv.chunk_ok
    ready := inv.ready
    ready_nodup := inv.ready_nodup
    ready_iff := inv.ready_iff
    unlinked := inv.unlinked
    holder_total := inv.holder_total
    holder_hdr := inv.holder_hdr
    free_list := fun b hb => FreeList.frame_mem (F b) _ (hag b hb) (inv.free_list b hb)
    free_len := inv.free_len
    free_nodup := inv.free_nodup
    free_slot := inv.free_slot
    free_not_live := inv.free_not_live
    live_nodup := inv.live_nodup
    live_slot := inv.live_slot
    count := inv.count
    idle_first := inv.idle_first
    balance := inv.balance }

/-- After an allocation the two memories agree on the link words of the free entries. -/
theorem alloc_agree (c : Config) (hd : pool_header) (h : Heap) (F : Nat → List Nat)
    (m : Nat → Nat)
    (hag : ∀ b ∈ h.chunks, ∀ x ∈ F b, m x = h.mem x) (env : Env)
    (hok : h.header.first = 0 → env_ok c h env) :
    ∀ b ∈ (alloc_heap c hd h env).chunks, ∀ x ∈ alloc_free c hd h env F b,
      alloc_mem c hd h env m x = (alloc_heap c hd h env).mem x := by
  intro b hb x hx
  rw [alloc_heap_mem]
  unfold alloc_free at hx
  unfold alloc_mem
  by_cases hf : h.header.first = 0
  · rw [if_pos hf] at hx
    rw [if_pos hf, if_pos hf]
    rw [(alloc_materialize_facts c hd h env hf (hok hf)).1] at hb
    apply setup_mem_agree
    by_cases hbg : b = granted_chunk env
    · right
      rw [hbg, Function.update_same, mem_slots_from] at hx
      obtain ⟨t, ht, hxt⟩ := hx
      exact ⟨1 + t, by omega, hxt⟩
    · left
      rw [Function.update_noteq hbg] at hx
      rcases List.mem_cons.1 hb with hb1 | hb1
      · exact absurd hb1 hbg
      · exact hag b hb1 x hx
  · rw [if_neg hf] at hx
    rw [if_neg hf, if_neg hf]
    rw [(alloc_ready_facts c hd h env hf).2.2] at hb
    by_cases hbf : b = h.header.first
    · rw [hbf, Function.update_same] at hx
      exact hag _ (hbf ▸ hb) x (List.mem_of_mem_tail hx)
    · rw [Function.update_noteq hbf] at hx
      exact hag b hb x hx

/-- After a free the two memories agree on the link words of the free entries. -/
theorem free_agree (c : Config) (hd : pool_header) (h : Heap) (live L : List Nat)
    (F : Nat → List Nat) (inv : HInv c hd h live L F) (m : Nat → Nat)
    (hag : ∀ b ∈ h.chunks, ∀ x ∈ F b, m x = h.mem x) (e : Nat) :
    ∀ b ∈ (free_heap c h e).chunks,
      ∀ x ∈ Function.update F (entry_holder c e) (e :: F (entry_holder c e)) b,
        free_mem c h e m x = (free_heap c h e).mem x := by
  intro b hb x hx
  rw [free_heap_mem]
  rw [free_heap_chunks] at hb
  unfold free_mem
  by_cases hr : h.free (entry_holder c e) ≠ 0 ∧
      h.free (entry_holder c e) + 1 = h.total (entry_holder c e) ∧
      h.header.first ≠ entry_holder c e
  · rw [if_pos hr] at hb
    rw [if_pos hr, if_pos hr]
    obtain ⟨hne, hb1⟩ := (inv.chunks_nodup.mem_erase_iff).1 hb
    rw [Function.update_noteq hne] at hx
    exact hag b hb1 x hx
  · rw [if_neg hr] at hb
    rw [if_neg hr, if_neg hr]
    by_cases hxe : x = e
    · rw [hxe, Function.update_same, Function.update_same]
    · rw [Function.update_noteq hxe, Function.update_noteq hxe]
      by_cases hbH : b = entry_holder c e
      · rw [hbH, Function.update_same] at hx
        rcases List.mem_cons.1 hx with h1 | h1
        · exact absurd h1 hxe
        · exact hag _ (hbH ▸ hb) x h1
      · rw [Function.update_noteq hbH] at hx
        exact hag b hb x hx

/-- Both runs of `pool_alloc_entry`, on heaps that differ in data words outside the
link words of the free entries, return the same pointer and end in heaps that differ
in data words only. -/
theorem alloc_indep (c : Config) (wf : c.WF) (hd : pool_header) (ok : ClassOK c hd)
    (h : Heap) (live L : List Nat) (F : Nat → List Nat) (inv : HInv c hd h live L F)
    (m : Nat → Nat) (hag : ∀ b ∈ h.chunks, ∀ x ∈ F b, m x = h.mem x) (env : Env)
    (hok : h.header.first = 0 → env_ok c h env) :
    pool_alloc_entry c h env = Outcome.ret (alloc_result c h env) (alloc_heap c hd h env) ∧
      pool_alloc_entry c (with_mem h m) env
        = Outcome.ret (alloc_result c h env)
            (with_mem (alloc_heap c hd h env) (alloc_mem c hd h env m)) := by
  obtain ⟨e1, _⟩ := alloc_spec c wf hd ok h live L F inv env hok
  obtain ⟨e2, _⟩ := alloc_spec c wf hd ok (with_mem h m) live L F (inv.other_mem m hag) env hok
  refine ⟨e1, ?_⟩
  rw [e2, alloc_heap_with_mem c hd ok h m env]
  · rfl
  · intro hne
    obtain ⟨_, fs, _, hF, hmem, _⟩ := inv.head_facts hne
    exact hag _ hmem _ (by rw [hF]; exact List.mem_cons_self _ _)

/-- A free entry of a held holder lies outside the storage of every live entry. -/
theorem HInv.free_outside {c : Config} (wf : c.WF) {hd : pool_header} (ok : ClassOK c hd)
    {h : Heap} {live L : List Nat} {F : Nat → List Nat} (inv : HInv c hd h live L F)
    (b : Nat) (hb : b ∈ h.chunks) (x : Nat) (hx : x ∈ F b) :
    ∀ e ∈ live, ¬ in_entry c hd e x := by
  intro e he hin
  obtain ⟨k, hk, hxk⟩ := inv.free_slot b hb x hx
  obtain ⟨b1, hb1, k1, hk1, hek⟩ := inv.live_slot e he
  obtain ⟨_, hbP, hblt⟩ := inv.chunk_ok b hb
  obtain ⟨_, hb1P, hb1lt⟩ := inv.chunk_ok b1 hb1
  have hown : entry_holder c x = b := inv.owner wf ok b x hb ⟨k, hk, hxk⟩
  have hfit := ok.fits
  have hW := wf.W_pos
  have hs := ok.size_pos
  have ht : 0 < hd.size * c.W := Nat.mul_pos hs hW
  have a1 : k * hd.size * c.W = k * (hd.size * c.W) := Nat.mul_assoc _ _ _
  have a2 : k1 * hd.size * c.W = k1 * (hd.size * c.W) := Nat.mul_assoc _ _ _
  have a3 : hd.size * hd.total * c.W = hd.total * (hd.size * c.W) := by ring
  have a4 : (k1 + 1) * (hd.size * c.W) ≤ hd.total * (hd.size * c.W) :=
    Nat.mul_le_mul_right _ hk1
  have a5 : (k1 + 1) * (hd.size * c.W) = k1 * (hd.size * c.W) + hd.size * c.W := by ring
  unfold in_entry at hin
  rw [hxk, hek] at hin
  unfold slot_addr at hin hxk hek
  rw [a1, a2] at hin
  rw [a1] at hxk
  rw [a2] at hek
  have hbb : b = b1 := by
    have hadd := entry_holder_add c wf b1 (x - b1) hb1P hb1lt (by omega)
    rw [show b1 + (x - b1) = x by omega] at hadd
    exact hown.symm.trans hadd
  subst hbb
  have hkk : k = k1 := by
    rcases Nat.lt_trichotomy k k1 with hlt | heq | hgt
    · have := Nat.mul_le_mul_right (hd.size * c.W) (show k + 1 ≤ k1 from hlt)
      have a6 : (k + 1) * (hd.size * c.W) = k * (hd.size * c.W) + hd.size * c.W := by ring
      omega
    · exact heq
    · have := Nat.mul_le_mul_right (hd.size * c.W) (show k1 + 1 ≤ k from hgt)
      omega
  subst hkk
  exact inv.free_not_live b hb x hx (by rw [hxk, ← hek]; exact he)

/-- Data words that differ only inside the storage of live entries agree on the link
words of the free entries. -/
theorem HInv.agree_free {c : Config} (wf : c.WF) {hd : pool_header} (ok : ClassOK c hd)
    {h : Heap} {live L : List Nat} {F : Nat → List Nat} (inv : HInv c hd h live L F)
    (m : Nat → Nat) (hm : ∀ a, (∀ e ∈ live, ¬ in_entry c hd e a) → m a = h.mem a) :
    ∀ b ∈ h.chunks, ∀ x ∈ F b, m x = h.mem x :=
  fun b hb x hx => hm x (inv.free_outside wf ok b hb x hx)

theorem op_ok_with_mem (c : Config) (s : Sim) (m : Nat → Nat) (op : Op) (hop : op_ok c s op) :
    op_ok c ⟨with_mem s.heap m, s.live⟩ op := by
  cases op with
  | alloc env => exact hop
  | free e => exact hop

/-- One call on heaps that differ in data words outside the link words of the free
entries: both return, in states that differ in data words only and agree on the link
words of the free entries. -/
theorem step_indep (c : Config) (wf : c.WF) (hd : pool_header) (ok : ClassOK c hd)
    (s : Sim) (L : List Nat) (F : Nat → List Nat) (inv : HInv c hd s.heap s.live L F)
    (m : Nat → Nat) (hag : ∀ b ∈ s.heap.chunks, ∀ x ∈ F b, m x = s.heap.mem x)
    (op : Op) (hop : op_ok c s op) :
    ∃ s1 m1 L1 F1, step c s op = some s1 ∧
      step c ⟨with_mem s.heap m, s.live⟩ op = some ⟨with_mem s1.heap m1, s1.live⟩ ∧
      HInv c hd s1.heap s1.live L1 F1 ∧
      ∀ b ∈ s1.heap.chunks, ∀ x ∈ F1 b, m1 x = s1.heap.mem x := by
  cases op with
  | alloc env =>
    have hok : s.heap.header.first = 0 → env_ok c s.heap env := hop
    obtain ⟨e1, e2⟩ := alloc_indep c wf hd ok s.heap s.live L F inv m hag env hok
    obtain ⟨_, _, _, _, inv1⟩ := alloc_spec c wf hd ok s.heap s.live L F inv env hok
    refine ⟨⟨alloc_heap c hd s.heap env, alloc_result c s.heap env :: s.live⟩,
      alloc_mem c hd s.heap env m, _, _, ?_, ?_, inv1,
      alloc_agree c hd s.heap F m hag env hok⟩
    · rw [step_alloc, e1]
    · rw [step_alloc]
      dsimp only
      rw [e2]
  | free e =>
    have he : e ∈ s.live := hop
    have e1 := free_eq c wf hd ok s.heap s.live L F inv e he
    have e2 := free_eq c wf hd ok (with_mem s.heap m) s.live L F (inv.other_mem m hag) e he
    refine ⟨⟨free_heap c s.heap e, s.live.erase e⟩, free_mem c s.heap e m, _, _, ?_, ?_,
      free_inv c wf hd ok s.heap s.live L F inv e he,
      free_agree c hd s.heap s.live L F inv m hag e⟩
    · rw [step_free, e1]; rfl
    · rw [step_free]
      dsimp only
      rw [e2, free_heap_with_mem]
      rfl

/-- A valid sequence of calls on heaps that differ in data words outside the link words
of the free entries: both runs return, in states that differ in data words only. -/
theorem run_indep (c : Config) (wf : c.WF) (hd : pool_header) (ok : ClassOK c hd) :
    ∀ (ops : List Op) (s : Sim) (L : List Nat) (F : Nat → List Nat) (m : Nat → Nat),
      HInv c hd s.heap s.live L F → (∀ b ∈ s.heap.chunks, ∀ x ∈ F b, m x = s.heap.mem x) →
      valid c s ops = true →
      ∃ s1 m1 L1 F1, run c s ops = some s1 ∧
        run c ⟨with_mem s.heap m, s.live⟩ ops = some ⟨with_mem s1.heap m1, s1.live⟩ ∧
        valid c ⟨with_mem s.heap m, s.live⟩ ops = true ∧
        HInv c hd s1.heap s1.live L1 F1 ∧
        ∀ b ∈ s1.heap.chunks, ∀ x ∈ F1 b, m1 x = s1.heap.mem x
  | [], s, L, F, m, inv, hag, _ => ⟨s, m, L, F, rfl, rfl, rfl, inv, hag⟩
  | op :: ops, s, L, F, m, inv, hag, hv => by
    rw [valid_cons, Bool.and_eq_true, decide_eq_true_eq] at hv
    obtain ⟨s1, m1, L1, F1, h1, h2, inv1, hag1⟩ := step_indep c wf hd ok s L F inv m hag op hv.1
    have hv2 := hv.2
    rw [h1] at hv2
    obtain ⟨s2, m2, L2, F2, r1, r2, v2, inv2, hag2⟩ :=
      run_indep c wf hd ok ops s1 L1 F1 m1 inv1 hag1 hv2
    refine ⟨s2, m2, L2, F2, by rw [run_cons, h1]; exact r1, by rw [run_cons, h2]; exact r2, ?_,
      inv2, hag2⟩
    rw [valid_cons, h2, Bool.and_eq_true, decide_eq_true_eq]
    exact ⟨op_ok_with_mem c s m op hv.1, v2⟩

theorem valid_prefix (c : Config) :
    ∀ (l1 l2 : List Op) (s : Sim), valid c s (l1 ++ l2) = true → valid c s l1 = true
  | [], _, _, _ => rfl
  | x :: xs, l2, s, h => by
    have h2 : valid c s (x :: (xs ++ l2)) = true := h
    rw [valid_cons] at h2 ⊢
    rw [Bool.and_eq_true] at h2 ⊢
    refine ⟨h2.1, ?_⟩
    cases hs : step c s x with
    | none => rfl
    | some s2 =>
      have := h2.2
      rw [hs] at this
      exact valid_prefix c xs l2 s2 this

/-! ### The lock word along every path, with no invariant assumed -/

theorem write_fore_some (h h1 : Heap) (p v : Nat) (e : write_fore h p v = some h1) :
    h1.header = h.header ∧ h1.chunks = h.chunks := by
  unfold write_fore at e
  split at e
  · cases e; exact ⟨rfl, rfl⟩
  · cases e

theorem write_back_some (h h1 : Heap) (p v : Nat) (e : write_back h p v = some h1) :
    h1.header = h.header ∧ h1.chunks = h.chunks := by
  unfold write_back at e
  split at e
  · cases e; exact ⟨rfl, rfl⟩
  · cases e

theorem write_word_some (c : Config) (h h1 : Heap) (a v : Nat)
    (e : write_word c h a v = some h1) : h1.header = h.header ∧ h1.chunks = h.chunks := by
  unfold write_word at e
  split at e
  · cases e; exact ⟨rfl, rfl⟩
  · cases e

/-- Every defined `pool_holder_unchaing` leaves the lock word alone. -/
theorem unchaing_lock (h h1 : Heap) (H : Nat) (e : pool_holder_unchaing h H = some h1) :
    h1.header.lock = h.header.lock := by
  unfold pool_holder_unchaing at e
  split at e
  · dsimp only at e
    simp only [Option.bind_eq_some] at e
    obtain ⟨a1, e1, a2, e2, a3, e3, e4⟩ := e
    have f1 := (write_fore_some _ _ _ _ e1).1
    have f2 := (write_back_some _ _ _ _ e2).1
    have f3 : a3.header = a2.header := by
      split at e3
      · exact (write_back_some _ _ _ _ e3).1
      · cases e3; rfl
    split at e4
    · rw [(write_fore_some _ _ _ _ e4).1, f3, f2, f1]
    · cases e4
      show a3.header.lock = _
      rw [f3, f2, f1]
  · cases e

/-- Every defined push at the end of `pool_free_entry` ends with the lock free. -/
theorem push_entry_lock (c : Config) (h h1 : Heap) (H x : Nat)
    (e : push_entry c h H x = some h1) : h1.header.lock = 0 := by
  unfold push_entry at e
  simp only [Option.bind_eq_some] at e
  obtain ⟨a1, _, e2⟩ := e
  cases e2
  rfl

/-- Every `pool_free_entry` that returns does so with the lock free. -/
theorem free_entry_lock (c : Config) (h h1 : Heap) (x : Nat)
    (e : pool_free_entry c h x = some h1) : h1.header.lock = 0 := by
  unfold pool_free_entry at e
  dsimp only at e
  split at e
  · split at e
    · split at e
      · exact push_entry_lock c _ _ _ _ e
      · simp only [Option.bind_eq_some] at e
        obtain ⟨_, _, _, _, _, _, _, _, e5⟩ := e
        exact push_entry_lock c _ _ _ _ e5
    · split at e
      · simp only [Option.bind_eq_some] at e
        obtain ⟨_, _, e2⟩ := e
        cases e2
        rfl
      · exact push_entry_lock c _ _ _ _ e
  · cases e

/-- The frees of a callback entered with the lock free leave it free. -/
theorem run_frees_lock (c : Config) :
    ∀ (es : List Nat) (h h1 : Heap), run_frees c h es = some h1 → h.header.lock = 0 →
      h1.header.lock = 0
  | [], h, h1, e, hl => by
    cases e
    exact hl
  | x :: es, h, h1, e, _ => by
    have e1 : (pool_free_entry c h x).bind (fun h2 => run_frees c h2 es) = some h1 := e
    simp only [Option.bind_eq_some] at e1
    obtain ⟨h2, e2, e3⟩ := e1
    exact run_frees_lock c es h2 h1 e3 (free_entry_lock c h h2 x e2)

theorem chain_entries_header (c : Config) (size : Nat) :
    ∀ (i p : Nat) (h : Heap) (q : Nat) (h2 : Heap),
      chain_entries c size i p h = some (q, h2) → h2.header = h.header
  | 0, _, _, _, _, e => by
    cases e
    rfl
  | i + 1, p, h, q, h2, e => by
    have e1 : (write_word c h p (p + size * c.W)).bind
        (fun h1 => chain_entries c size i (p + size * c.W) h1) = some (q, h2) := e
    simp only [Option.bind_eq_some] at e1
    obtain ⟨h1, e2, e3⟩ := e1
    rw [chain_entries_header c size i _ h1 q h2 e3, (write_word_some c _ _ _ _ e2).1]

/-- The initialisation of a holder leaves the lock word alone and never ends in the
fatal hook. -/
theorem holder_setup_lock (c : Config) (h : Heap) (b : Nat) :
    (∀ x h1, holder_setup c h b = Outcome.ret x h1 → h1.header.lock = h.header.lock) ∧
      ∀ h1, holder_setup c h b ≠ Outcome.fatal h1 := by
  unfold holder_setup
  dsimp only
  split
  · split
    · exact ⟨fun _ _ e => (by cases e), fun _ e => (by cases e)⟩
    · rename_i ptr h2 e2
      split
      · exact ⟨fun _ _ e => (by cases e), fun _ e => (by cases e)⟩
      · rename_i h3 e3
        refine ⟨fun x h1 e => ?_, fun _ e => by cases e⟩
        cases e
        show h3.header.lock = _
        rw [(write_word_some c _ _ _ _ e3).1, chain_entries_header c _ _ _ _ _ _ e2]
  · exact ⟨fun _ _ e => (by cases e), fun _ e => (by cases e)⟩

/-- The pop of `pool_alloc_entry` returns with the lock free and never ends in the fatal
hook. -/
theorem pop_entry_lock (c : Config) (h : Heap) (H : Nat) :
    (∀ r h1, pop_entry c h H = Outcome.ret r h1 → h1.header.lock = 0) ∧
      ∀ h1, pop_entry c h H ≠ Outcome.fatal h1 := by
  unfold pop_entry
  dsimp only
  split
  · split
    · exact ⟨fun _ _ e => (by cases e), fun _ e => (by cases e)⟩
    · refine ⟨fun r h1 e => ?_, fun _ e => by cases e⟩
      cases e
      rfl
  · exact ⟨fun _ _ e => (by cases e), fun _ e => (by cases e)⟩

/-- Every path of `pool_holder_alloc`: it returns with the lock held, and it calls the
fatal hook in a heap whose lock is free. -/
theorem holder_alloc_lock (c : Config) (h : Heap) (env : Env) :
    (∀ b h1, pool_holder_alloc c h env = Outcome.ret b h1 → h1.header.lock = 1) ∧
      ∀ h1, pool_holder_alloc c h env = Outcome.fatal h1 →
        ∃ h0, h0.header.lock = 0 ∧ h1 = emit h0 (Event.memerror h0.header.lock) := by
  unfold pool_holder_alloc
  dsimp only
  split
  · exact ⟨fun _ _ e => (by cases e), fun _ e => (by cases e)⟩
  · rename_i h2 e2
    split
    · refine ⟨fun b h1 e => ?_, fun _ e => (by cases e)⟩
      cases e
      rfl
    · split
      · refine ⟨fun b h1 e => ?_, fun h1 e => absurd e ((holder_setup_lock c _ _).2 h1)⟩
        rw [(holder_setup_lock c _ _).1 b h1 e]
        rfl
      · split
        · exact ⟨fun _ _ e => (by cases e), fun _ e => (by cases e)⟩
        · rename_i h3 e3
          have l3 : h3.header.lock = 0 := run_frees_lock c _ _ _ e3 rfl
          split
          · refine ⟨fun _ _ e => (by cases e), fun h1 e => ?_⟩
            cases e
            exact ⟨h3, l3, rfl⟩
          · split
            · refine ⟨fun _ _ e => (by cases e), fun h1 e => ?_⟩
              cases e
              exact ⟨aligned_malloc c h3 env.malloc2, l3, rfl⟩
            · refine ⟨fun b h1 e => ?_,
                fun h1 e => absurd e ((holder_setup_lock c _ _).2 h1)⟩
              rw [(holder_setup_lock c _ _).1 b h1 e]
              rfl

/-- Every path of `pool_alloc_entry`: it returns with the lock free, and the fatal hook
is called in a heap whose lock is free. -/
theorem alloc_entry_lock (c : Config) (h : Heap) (env : Env) :
    (∀ r h1, pool_alloc_entry c h env = Outcome.ret r h1 → h1.header.lock = 0) ∧
      ∀ h1, pool_alloc_entry c h env = Outcome.fatal h1 →
        ∃ h0, h0.header.lock = 0 ∧ h1 = emit h0 (Event.memerror h0.header.lock) := by
  unfold pool_alloc_entry
  dsimp only
  split
  · cases hpa : pool_holder_alloc c (lock_header h) env with
    | ret b h2 =>
      exact ⟨(pop_entry_lock c h2 b).1, fun h1 e => absurd e ((pop_entry_lock c h2 b).2 h1)⟩
    | fatal h2 =>
      refine ⟨fun _ _ e => (by cases e), fun h1 e => ?_⟩
      cases e
      exact (holder_alloc_lock c (lock_header h) env).2 h2 hpa
    | undef => exact ⟨fun _ _ e => (by cases e), fun _ e => (by cases e)⟩
  · exact ⟨(pop_entry_lock c _ _).1, fun h1 e => absurd e ((pop_entry_lock c _ _).2 h1)⟩

/-! ### Callbacks that free entries of the class -/

/-- The valid frees of a callback are all defined and keep the invariant. -/
theorem run_frees_inv (c : Config) (wf : c.WF) (hd : pool_header) (ok : ClassOK c hd) :
    ∀ (es : List Nat) (h : Heap) (live L : List Nat) (F : Nat → List Nat),
      HInv c hd h live L F → frees_ok live es →
      ∃ h1 L1 F1, run_frees c h es = some h1 ∧ HInv c hd h1 (erase_all live es) L1 F1
  | [], h, _, L, F, inv, _ => ⟨h, L, F, rfl, inv⟩
  | e :: es, h, live, L, F, inv, hok => by
    obtain ⟨he, hrest⟩ : e ∈ live ∧ frees_ok (live.erase e) es := hok
    have e1 := free_eq c wf hd ok h live L F inv e he
    have inv1 := free_inv c wf hd ok h live L F inv e he
    obtain ⟨h1, L1, F1, r1, i1⟩ := run_frees_inv c wf hd ok es _ _ _ _ inv1 hrest
    refine ⟨h1, L1, F1, ?_, i1⟩
    show (pool_free_entry c h e).bind _ = _
    rw [e1]
    exact r1

/-- The invariant does not depend on the lock word or on a logged `vm_malloc_prepare`. -/
theorem HInv.prepare {c : Config} {hd : pool_header} {h : Heap} {live L : List Nat}
    {F : Nat → List Nat} (inv : HInv c hd h live L F) :
    HInv c hd (emit (unlock_header h) (Event.prepare 0)) live L F :=
  inv.congr _ rfl rfl rfl rfl rfl rfl rfl rfl rfl rfl rfl
    (by show grants (h.log ++ [Event.prepare 0]) = _; rw [grants_append]; rfl)
    (by show (releases (h.log ++ [Event.prepare 0])).length = _; rw [releases_append]; simp [releases])

/-- The first-request path of `pool_holder_alloc` unfolded up to the test of
`header->first` that follows `vm_malloc_prepare`. -/
theorem holder_alloc_after_prepare (c : Config) (h : Heap) (env : Env) (h2 : Heap)
    (e2 : run_frees c (emit (unlock_header h) (Event.prepare 0)) env.prepare_frees = some h2) :
    (h2.header.first ≠ 0 →
        pool_holder_alloc c h env = Outcome.ret h2.header.first (lock_header h2)) ∧
      (h2.header.first = 0 → env.malloc1 ≠ 0 →
        pool_holder_alloc c h env
          = holder_setup c (aligned_malloc c (lock_header h2) env.malloc1) env.malloc1) := by
  unfold pool_holder_alloc
  simp only [unlock_header_lock]
  rw [e2]
  dsimp only
  refine ⟨fun hne => ?_, fun h0 hm => ?_⟩
  · rw [if_pos (show (lock_header h2).header.first ≠ 0 from hne)]
    rfl
  · rw [if_neg (show ¬ (lock_header h2).header.first ≠ 0 from fun hh => hh h0), if_pos hm]

/-- The first-request path of `pool_alloc_entry` in a state that satisfies the invariant
and has an empty ready list, with valid frees in the collection run by
`vm_malloc_prepare`: see `alloc_revalidates`. -/
theorem alloc_revalidates_inv (c : Config) (wf : c.WF) (hd : pool_header) (ok : ClassOK c hd)
    (s : Sim) (L : List Nat) (F : Nat → List Nat) (inv : HInv c hd s.heap s.live L F)
    (hf : s.heap.header.first = 0) (env : Env)
    (hp : frees_ok s.live env.prepare_frees) :
    ∃ h2 L2 F2,
      run_frees c (emit (unlock_header (lock_header s.heap)) (Event.prepare 0))
        env.prepare_frees = some h2 ∧
      HInv c hd h2 (erase_all s.live env.prepare_frees) L2 F2 ∧
      (h2.header.first ≠ 0 →
        pool_holder_alloc c (lock_header s.heap) env
            = Outcome.ret h2.header.first (lock_header h2) ∧
          ∃ r h1 L1 F1, pool_alloc_entry c s.heap env = Outcome.ret r h1 ∧
            h1.chunks = h2.chunks ∧ h1.log = h2.log ∧
            HInv c hd h1 (r :: erase_all s.live env.prepare_frees) L1 F1) ∧
      (h2.header.first = 0 → fresh_chunk c h2 env.malloc1 →
        ∃ h3 r h1 L1 F1,
          pool_holder_alloc c (lock_header s.heap) env = Outcome.ret env.malloc1 h3 ∧
          h3.header.first = env.malloc1 ∧
          pool_alloc_entry c s.heap env = Outcome.ret r h1 ∧
          h1.chunks = env.malloc1 :: h2.chunks ∧
          HInv c hd h1 (r :: erase_all s.live env.prepare_frees) L1 F1) := by
  obtain ⟨h2, L2, F2, e2, inv2⟩ :=
    run_frees_inv c wf hd ok env.prepare_frees _ _ _ _ inv.lock.prepare hp
  obtain ⟨pa, pb⟩ := holder_alloc_after_prepare c (lock_header s.heap) env h2 e2
  have hf2 : (lock_header s.heap).header.first = 0 := hf
  refine ⟨h2, L2, F2, e2, inv2, fun hne => ?_, fun h0 hfresh => ?_⟩
  · refine ⟨pa hne, h2.freep h2.header.first, pop_heap (lock_header h2) h2.header.first, _, _,
      ?_, by rw [pop_heap_chunks]; rfl, by rw [pop_heap_log]; rfl,
      (pop_inv c wf hd ok _ _ _ _ inv2.lock h2.header.first rfl hne).2.2.2⟩
    unfold pool_alloc_entry
    dsimp only
    rw [if_pos hf2, pa hne]
    exact pop_entry_eq c wf hd ok _ _ _ _ inv2.lock hne
  · have hL2 : L2 = [] := inv2.first_eq_zero.mp h0
    subst hL2
    have hmem : env.malloc1 ∈ (aligned_malloc c (lock_header h2) env.malloc1).chunks := by
      show env.malloc1 ∈ (if env.malloc1 = 0 then h2.chunks else env.malloc1 :: h2.chunks)
      rw [if_neg hfresh.1]
      exact List.mem_cons_self _ _
    have hch : (aligned_malloc c (lock_header h2) env.malloc1).chunks
        = env.malloc1 :: h2.chunks := by
      show (if env.malloc1 = 0 then h2.chunks else env.malloc1 :: h2.chunks) = _
      rw [if_neg hfresh.1]
    have hset := holder_setup_eq c wf hd ok (aligned_malloc c (lock_header h2) env.malloc1)
      env.malloc1 hmem hfresh.2.1 hfresh.2.2.1 inv2.hsize inv2.htotal
    have e3 := (pb h0 hfresh.1).trans hset
    have inv3 := setup_inv c wf hd ok (lock_header h2) _ F2 inv2.lock env.malloc1 hfresh
      (aligned_malloc c (lock_header h2) env.malloc1) rfl rfl hch rfl rfl rfl rfl rfl rfl rfl
      (by
        show grants (h2.log ++ [Event.request 1 _ env.malloc1]) = _
        rw [grants_append]
        simp [grants, hfresh.1])
      (by
        show (releases (h2.log ++ [Event.request 1 _ env.malloc1])).length = _
        rw [releases_append]
        simp [releases])
    have hne3 : (setup_heap c hd (aligned_malloc c (lock_header h2) env.malloc1)
        env.malloc1).header.first ≠ 0 := hfresh.1
    refine ⟨_, _, _, _, _, e3, rfl, ?_, ?_,
      (pop_inv c wf hd ok _ _ _ _ inv3 env.malloc1 rfl hfresh.1).2.2.2⟩
    · unfold pool_alloc_entry
      dsimp only
      rw [if_pos hf2, e3]
      exact pop_entry_eq c wf hd ok _ _ _ _ inv3 hne3
    · rw [pop_heap_chunks, setup_heap_chunks, hch]

/-- The first-request path re-validates the ready list.  In a reachable state with an
empty ready list, let the collection run by `vm_malloc_prepare` free valid entries,
ending in heap `h2`.  If the ready list of `h2` is not empty, `pool_holder_alloc`
returns its head and nothing else happens (no request, no holder installed); if it is
empty and the OS backend grants a fresh chunk, that chunk is installed as
`header->first`.  Either way `pool_alloc_entry` returns and the invariant holds again:
every held holder with a free entry is in the ready list that starts at
`header->first`. -/
theorem alloc_revalidates (c : Config) (wf : c.WF) (hd : pool_header) (ok : ClassOK c hd)
    (s : Sim) (hr : Reachable c hd s) (hf : s.heap.header.first = 0) (env : Env)
    (hp : frees_ok s.live env.prepare_frees) :
    ∃ h2 L2 F2,
      run_frees c (emit (unlock_header (lock_header s.heap)) (Event.prepare 0))
        env.prepare_frees = some h2 ∧
      HInv c hd h2 (erase_all s.live env.prepare_frees) L2 F2 ∧
      (h2.header.first ≠ 0 →
        pool_holder_alloc c (lock_header s.heap) env
            = Outcome.ret h2.header.first (lock_header h2) ∧
          ∃ r h1 L1 F1, pool_alloc_entry c s.heap env = Outcome.ret r h1 ∧
            h1.chunks = h2.chunks ∧ h1.log = h2.log ∧
            HInv c hd h1 (r :: erase_all s.live env.prepare_frees) L1 F1) ∧
      (h2.header.first = 0 → fresh_chunk c h2 env.malloc1 →
        ∃ h3 r h1 L1 F1,
          pool_holder_alloc c (lock_header s.heap) env = Outcome.ret env.malloc1 h3 ∧
          h3.header.first = env.malloc1 ∧
          pool_alloc_entry c s.heap env = Outcome.ret r h1 ∧
          h1.chunks = env.malloc1 :: h2.chunks ∧
          HInv c hd h1 (r :: erase_all s.live env.prepare_frees) L1 F1) := by
  obtain ⟨_, L, F, inv⟩ := reachable_inv c wf hd ok s hr
  exact alloc_revalidates_inv c wf hd ok s L F inv hf env hp

/-! ### The retry path of `pool_holder_alloc` after a reclaim that frees entries -/

/-- The pop of `pool_alloc_entry`, from the facts it needs about the holder alone. -/
theorem pop_entry_raw (c : Config) (h : Heap) (H : Nat) (hmem : H ∈ h.chunks)
    (hword : is_word c h (h.freep H)) (hpos : 1 ≤ h.free H) (hlt : h.free H < UINT_MOD)
    (hf : h.fore H ≠ 0 → h.fore H ∈ h.chunks) (hb : h.back H ≠ 0 → h.back H ∈ h.chunks) :
    pop_entry c h H = Outcome.ret (h.freep H) (pop_heap h H) := by
  have hsub : usub UINT_MOD (h.free H) 1 = h.free H - 1 := usub_eq _ _ _ hpos hlt
  unfold pop_entry pop_heap
  rw [if_pos ⟨hmem, hword⟩]
  dsimp only
  rw [hsub]
  by_cases h1 : h.free H = 1
  · have h0 : h.free H - 1 = 0 := by omega
    rw [if_pos h0, if_pos h1]
    rw [unchain_eq]
    · exact hmem
    · exact hf
    · exact hb
  · have h0 : ¬ h.free H - 1 = 0 := by omega
    rw [if_neg h0, if_neg h1]

/-- The retry path of `pool_holder_alloc` unfolded: after the frees of the reclaim
callback, the second request and the initialisation follow with no test of
`header->first`. -/
theorem holder_alloc_retry (c : Config) (h : Heap) (env : Env) (hf : h.header.first = 0)
    (hp : env.prepare_frees = []) (h1 : env.malloc1 = 0) (h2 : env.gc_ok = true)
    (h3 : env.malloc2 ≠ 0) (hC : Heap)
    (e2 : run_frees c
        (emit (unlock_header (aligned_malloc c
          (lock_header (emit (unlock_header h) (Event.prepare 0))) 0))
            (Event.reclaim 0 true)) env.gc_frees = some hC) :
    pool_holder_alloc c h env
      = holder_setup c (lock_header (aligned_malloc c hC env.malloc2)) env.malloc2 := by
  unfold pool_holder_alloc
  rw [hp, h1, h2]
  simp only [run_frees, unlock_header_lock]
  rw [if_neg (by simpa using hf)]
  simp only [ne_eq, not_true_eq_false, if_false]
  rw [e2]
  simp [h3]

/-- The installation of a granted chunk `b` and the pop that follows, on any heap `hC`
that satisfies the invariant, whatever its ready list: `header->first` is overwritten
with `b`, whose `fore` is `NULL`, and no other holder is touched. -/
theorem install_and_pop (c : Config) (wf : c.WF) (hd : pool_header) (ok : ClassOK c hd)
    (hC : Heap) (live L : List Nat) (F : Nat → List Nat) (inv : HInv c hd hC live L F)
    (b : Nat) (hb : fresh_chunk c hC b) :
    ∃ hS g, holder_setup c (lock_header (aligned_malloc c hC b)) b = Outcome.ret b hS ∧
      hS.header.first = b ∧
      pop_entry c hS b = Outcome.ret (b + c.offset_data) g ∧
      g.chunks = b :: hC.chunks ∧ g.fore b = 0 ∧
      (g.header.first = b ∨ g.header.first = 0) ∧
      ∀ H, H ≠ b → g.free H = hC.free H ∧ g.freep H = hC.freep H := by
  obtain ⟨hb0, hbP, hblt, _⟩ := hb
  have hch : (lock_header (aligned_malloc c hC b)).chunks = b :: hC.chunks := by
    show (if b = 0 then _ else b :: hC.chunks) = _
    rw [if_neg hb0]
  have hmemb : b ∈ (lock_header (aligned_malloc c hC b)).chunks := by
    rw [hch]; exact List.mem_cons_self _ _
  have hset := holder_setup_eq c wf hd ok _ b hmemb hbP hblt inv.hsize inv.htotal
  have hword := is_word_slot c wf hd ok
    (setup_heap c hd (lock_header (aligned_malloc c hC b)) b)
    inv.hsize inv.htotal b (b + c.offset_data) hmemb hbP hblt
    ⟨0, ok.total_pos, (slot_addr_zero c hd b).symm⟩
  have hpop := pop_entry_raw c
    (setup_heap c hd (lock_header (aligned_malloc c hC b)) b) b hmemb
    (by rw [setup_heap_freep, Function.update_same]; exact hword)
    (by rw [setup_heap_free, Function.update_same]; exact ok.total_pos)
    (by rw [setup_heap_free, Function.update_same]; exact total_lt_uint c wf hd ok)
    (fun hne => absurd (by rw [setup_heap_fore, Function.update_same]) hne)
    (fun hne => absurd (by rw [setup_heap_back, Function.update_same]) hne)
  rw [setup_heap_freep, Function.update_same] at hpop
  have hbk : (setup_heap c hd (lock_header (aligned_malloc c hC b)) b).back b = 0 := by
    rw [setup_heap_back, Function.update_same]
  have hfk : (setup_heap c hd (lock_header (aligned_malloc c hC b)) b).fore b = 0 := by
    rw [setup_heap_fore, Function.update_same]
  refine ⟨_, _, hset, rfl, hpop, by rw [pop_heap_chunks, setup_heap_chunks, hch], ?_, ?_, ?_⟩
  · by_cases hone : (setup_heap c hd (lock_header (aligned_malloc c hC b)) b).free b = 1
    · unfold pop_heap
      dsimp only
      rw [if_pos hone]
      refine unchain_heap_fore_self _ b ?_
      show (setup_heap c hd (lock_header (aligned_malloc c hC b)) b).back b ≠ b
      rw [hbk]
      exact Ne.symm hb0
    · rw [(pop_heap_keep _ b hone).1, setup_heap_fore, Function.update_same]
  · by_cases hone : (setup_heap c hd (lock_header (aligned_malloc c hC b)) b).free b = 1
    · right
      unfold pop_heap
      dsimp only
      rw [if_pos hone]
      show (unchain_heap _ b).header.first = 0
      rw [unchain_heap_first, if_neg]
      · exact hfk
      · show ¬ (setup_heap c hd (lock_header (aligned_malloc c hC b)) b).back b ≠ 0
        rw [hbk]
        exact fun hh => hh rfl
    · left
      rw [(pop_heap_keep _ b hone).2.2]
      rfl
  · intro H hH
    rw [pop_heap_free, pop_heap_freep, Function.update_noteq hH, Function.update_noteq hH,
      setup_heap_free, setup_heap_freep, Function.update_noteq hH, Function.update_noteq hH]
    exact ⟨rfl, rfl⟩

/-- The retry path installs the new holder over a non-empty ready list.  In every
reachable state with an empty ready list, let the first request fail, the reclaim
callback free one live entry `e` and succeed, and the second request be granted a fresh
chunk `b`.  Then `pool_alloc_entry` returns the first entry of `b`; afterwards the
holder of `e` is held with `free = 1`, the new holder has `fore = NULL` and
`header->first` is the new holder or `NULL`, so that following `fore` from
`header->first` never meets the holder of `e`. -/
theorem retry_installs_over_ready (c : Config) (wf : c.WF) (hd : pool_header)
    (ok : ClassOK c hd) (s : Sim) (hr : Reachable c hd s) (hf : s.heap.header.first = 0)
    (e : Nat) (he : e ∈ s.live) (b : Nat) (hb : fresh_chunk c s.heap b) (env : Env)
    (hp : env.prepare_frees = []) (h1 : env.malloc1 = 0) (hg : env.gc_frees = [e])
    (h2 : env.gc_ok = true) (h3 : env.malloc2 = b) :
    ∃ g, pool_alloc_entry c s.heap env = Outcome.ret (b + c.offset_data) g ∧
      g.chunks = b :: s.heap.chunks ∧ entry_holder c e ∈ g.chunks ∧ entry_holder c e ≠ b ∧
      g.free (entry_holder c e) = 1 ∧ g.freep (entry_holder c e) = e ∧ g.fore b = 0 ∧
      (g.header.first = b ∨ g.header.first = 0) ∧
      ∀ fuel, entry_holder c e ∉ follow g.fore fuel g.header.first := by
  obtain ⟨_, L, F, inv⟩ := reachable_inv c wf hd ok s hr
  have hL : L = [] := inv.first_eq_zero.mp hf
  subst hL
  obtain ⟨hHmem, _, _, _, _, _⟩ := inv.live_facts wf ok e he
  have hHb : entry_holder c e ≠ b := fun hh => hb.2.2.2 (hh ▸ hHmem)
  have hfree0 : s.heap.free (entry_holder c e) = 0 := by
    by_contra hne
    have := (inv.ready_iff (entry_holder c e)).mpr ⟨hHmem, by omega⟩
    simp at this
  have invB : HInv c hd
      (emit (unlock_header (aligned_malloc c
        (lock_header (emit (unlock_header (lock_header s.heap)) (Event.prepare 0))) 0))
          (Event.reclaim 0 true)) s.live [] F :=
    inv.congr _ rfl rfl rfl rfl rfl rfl rfl rfl rfl rfl rfl
      (by simp [emit, aligned_malloc, unlock_header, lock_header, grants_append, grants])
      (by simp [emit, aligned_malloc, unlock_header, lock_header, releases_append, releases])
  have hfreeB : (emit (unlock_header (aligned_malloc c
        (lock_header (emit (unlock_header (lock_header s.heap)) (Event.prepare 0))) 0))
          (Event.reclaim 0 true)).free (entry_holder c e) = 0 := hfree0
  have hchB : (emit (unlock_header (aligned_malloc c
        (lock_header (emit (unlock_header (lock_header s.heap)) (Event.prepare 0))) 0))
          (Event.reclaim 0 true)).chunks = s.heap.chunks := rfl
  have hstep := holder_alloc_retry c (lock_header s.heap) env hf hp h1 h2
    (by rw [h3]; exact hb.1)
  rw [h3, hg] at hstep
  generalize emit (unlock_header (aligned_malloc c
        (lock_header (emit (unlock_header (lock_header s.heap)) (Event.prepare 0))) 0))
          (Event.reclaim 0 true) = hB at invB hfreeB hchB hstep
  have efree := free_eq c wf hd ok hB s.live [] F invB e he
  have invC := free_inv c wf hd ok hB s.live [] F invB e he
  obtain ⟨_, rch, rfp, rfr, _, _⟩ := free_heap_relink c hB e (entry_holder c e) rfl hfreeB
  have e2 : run_frees c hB [e] = some (free_heap c hB e) := by
    show (pool_free_entry c hB e).bind _ = _
    rw [efree]
    rfl
  have hbC : fresh_chunk c (free_heap c hB e) b :=
    ⟨hb.1, hb.2.1, hb.2.2.1, by rw [rch, hchB]; exact hb.2.2.2⟩
  obtain ⟨hS, g, q1, _, q3, q4, q5, q6, q7⟩ := install_and_pop c wf hd ok _ _ _ _ invC b hbC
  have hpa := (hstep (free_heap c hB e) e2).trans q1
  have hgch : g.chunks = b :: s.heap.chunks := by rw [q4, rch, hchB]
  refine ⟨g, ?_, hgch, ?_, hHb, ?_, ?_, q5, q6, ?_⟩
  · unfold pool_alloc_entry
    dsimp only
    rw [if_pos (show (lock_header s.heap).header.first = 0 from hf), hpa]
    exact q3
  · rw [hgch]
    exact List.mem_cons_of_mem _ hHmem
  · rw [(q7 _ hHb).1]
    exact rfr
  · rw [(q7 _ hHb).2]
    exact rfp
  · intro fuel
    rcases q6 with hfb | hfz
    · rw [hfb]
      cases fuel with
      | zero => simp [follow]
      | succ n =>
        rw [follow_succ _ _ _ hb.1, q5, follow_zero]
        simpa using hHb
    · rw [hfz, follow_zero]
      simp

/-! ### Runs in which the collection of `vm_malloc_prepare` frees entries -/

theorem cb_valid_cons (c : Config) (s : Sim) (op : Op) (ops : List Op) :
    cb_valid c s (op :: ops) =
      (decide (cb_op_ok c s op) &&
        match cb_step c s op with
        | some s1 => cb_valid c s1 ops
        | none => true) := rfl

theorem cb_run_cons (c : Config) (s : Sim) (op : Op) (ops : List Op) :
    cb_run c s (op :: ops) = (cb_step c s op).bind fun s1 => cb_run c s1 ops := rfl

theorem cb_step_alloc (c : Config) (s : Sim) (env : Env) :
    cb_step c s (Op.alloc env) =
      match pool_alloc_entry c s.heap env with
      | Outcome.ret r h => some ⟨h, r :: erase_all s.live (alloc_freed c s.heap env)⟩
      | _ => none := rfl

theorem cb_step_free (c : Config) (s : Sim) (e : Nat) :
    cb_step c s (Op.free e) =
      (pool_free_entry c s.heap e).bind fun h => some ⟨h, s.live.erase e⟩ := rfl

/-- With callbacks that free nothing, no entry is freed during an allocation. -/
theorem alloc_freed_quiet (c : Config) (h : Heap) (env : Env)
    (hop : h.header.first = 0 → env_ok c h env) : alloc_freed c h env = [] := by
  unfold alloc_freed
  by_cases hf : h.header.first = 0
  · obtain ⟨hp, hg, _⟩ := hop hf
    rw [if_neg (fun hh => hh hf), hp, hg]
    simp only [run_frees]
    split
    · rfl
    · split <;> rfl
  · rw [if_pos hf]

/-- On a call valid with callbacks that free nothing, the two step functions agree. -/
theorem cb_step_eq (c : Config) (s : Sim) (op : Op) (hop : op_ok c s op) :
    cb_step c s op = step c s op := by
  cases op with
  | alloc env =>
    rw [cb_step_alloc, step_alloc, alloc_freed_quiet c s.heap env hop]
    rfl
  | free e => rfl

theorem cb_op_ok_of (c : Config) (s : Sim) (op : Op) (hop : op_ok c s op) :
    cb_op_ok c s op := by
  cases op with
  | alloc env =>
    intro hf
    obtain ⟨hp, hg, hm⟩ := hop hf
    refine ⟨?_, fun _ => ?_⟩
    · rw [hp]
      exact True.intro
    · rcases hm with hm | ⟨m1, m2, m3⟩
      · exact Or.inl hm
      · exact Or.inr ⟨m1, hg, m2, m3⟩
  | free e => exact hop

/-- The reclaim callback is not called when the ready list is not empty or the first
request is granted: what it would free does not matter to `pool_alloc_entry`. -/
theorem alloc_entry_quiet_reclaim (c : Config) (h : Heap) (env : Env)
    (hq : h.header.first = 0 → env.malloc1 ≠ 0 ∨ env.gc_frees = []) :
    pool_alloc_entry c h (quiet_reclaim env) = pool_alloc_entry c h env ∧
      alloc_freed c h (quiet_reclaim env) = alloc_freed c h env := by
  by_cases hg : env.gc_frees = []
  · have e : quiet_reclaim env = env := by
      cases env
      simp only [quiet_reclaim] at hg ⊢
      rw [hg]
    rw [e]
    exact ⟨rfl, rfl⟩
  by_cases hf : h.header.first = 0
  · have hm : env.malloc1 ≠ 0 := (hq hf).resolve_right hg
    have hm2 : (quiet_reclaim env).malloc1 ≠ 0 := hm
    constructor
    · unfold pool_alloc_entry pool_holder_alloc
      simp only [hm, hm2, ne_eq, not_false_eq_true, if_true]
      rfl
    · unfold alloc_freed
      simp only [hm, hm2, ne_eq, not_false_eq_true, if_true]
      rfl
  · have hf2 : (lock_header h).header.first ≠ 0 := hf
    constructor
    · unfold pool_alloc_entry
      simp only [hf2, if_false]
    · unfold alloc_freed
      rw [if_pos hf, if_pos hf]

/-- The step of an allocation does not depend on what a reclaim callback that is not
called would free. -/
theorem cb_step_quiet_reclaim (c : Config) (s : Sim) (env : Env)
    (hq : s.heap.header.first = 0 → env.malloc1 ≠ 0 ∨ env.gc_frees = []) :
    cb_step c s (Op.alloc (quiet_reclaim env)) = cb_step c s (Op.alloc env) := by
  obtain ⟨e1, e2⟩ := alloc_entry_quiet_reclaim c s.heap env hq
  rw [cb_step_alloc, cb_step_alloc, e1, e2]

/-- An environment as in `grant_ok` whose `vm_malloc_prepare` frees nothing is, up to
what a reclaim callback that is not called would free, one as in `env_ok`. -/
theorem grant_ok_quiet (c : Config) (h : Heap) (env : Env) (hp : env.prepare_frees = [])
    (hg : grant_ok c h env) :
    env_ok c h (quiet_reclaim env) ∧ (env.malloc1 ≠ 0 ∨ env.gc_frees = []) := by
  rcases hg with hm | ⟨m1, m2, m3, m4⟩
  · exact ⟨⟨hp, rfl, Or.inl hm⟩, Or.inl hm.1⟩
  · exact ⟨⟨hp, rfl, Or.inr ⟨m1, m3, m4⟩⟩, Or.inr m2⟩

/-- A sequence valid with callbacks that free nothing is valid, and runs the same, when
callbacks may free entries. -/
theorem cb_of_valid (c : Config) :
    ∀ (ops : List Op) (s : Sim), valid c s ops = true →
      cb_valid c s ops = true ∧ cb_run c s ops = run c s ops
  | [], _, _ => ⟨rfl, rfl⟩
  | op :: ops, s, hv => by
    rw [valid_cons, Bool.and_eq_true, decide_eq_true_eq] at hv
    rw [cb_valid_cons, cb_run_cons, run_cons, cb_step_eq c s op hv.1, Bool.and_eq_true,
      decide_eq_true_eq]
    cases hs : step c s op with
    | none => exact ⟨⟨cb_op_ok_of c s op hv.1, rfl⟩, rfl⟩
    | some s1 =>
      have hv2 := hv.2
      rw [hs] at hv2
      obtain ⟨i1, i2⟩ := cb_of_valid c ops s1 hv2
      exact ⟨⟨cb_op_ok_of c s op hv.1, i1⟩, i2⟩

theorem cb_reachable_of (c : Config) (hd : pool_header) (s : Sim) (hr : Reachable c hd s) :
    CbReachable c hd s := by
  obtain ⟨ops, hv, hrun⟩ := hr
  obtain ⟨i1, i2⟩ := cb_of_valid c ops _ hv
  exact ⟨ops, i1, i2.trans hrun⟩

/-- After a valid free the ready list is not empty. -/
theorem free_ready_ne_nil (c : Config) (hd : pool_header) (h : Heap) (live L : List Nat)
    (F : Nat → List Nat) (inv : HInv c hd h live L F) (e : Nat)
    (hH : entry_holder c e ∈ h.chunks) : free_ready c h e L ≠ [] := by
  unfold free_ready
  dsimp only
  by_cases h0 : h.free (entry_holder c e) = 0
  · rw [if_pos h0]
    cases L <;> simp [relink_list]
  · rw [if_neg h0]
    have hin : entry_holder c e ∈ L := (inv.ready_iff _).mpr ⟨hH, by omega⟩
    have hne : h.header.first ≠ 0 := fun hz => by
      rw [inv.first_eq_zero.mp hz] at hin
      simp at hin
    obtain ⟨xs, _, hL, _⟩ := inv.head_facts hne
    by_cases hr : h.free (entry_holder c e) + 1 = h.total (entry_holder c e) ∧
        h.header.first ≠ entry_holder c e
    · rw [if_pos hr, hL, List.erase_cons_tail (by simpa using hr.2)]
      simp
    · rw [if_neg hr, hL]
      simp

/-- Valid frees of a callback leave `header->first` set, once it is set or once an entry
was freed. -/
theorem run_frees_first (c : Config) (wf : c.WF) (hd : pool_header) (ok : ClassOK c hd) :
    ∀ (es : List Nat) (h : Heap) (live L : List Nat) (F : Nat → List Nat),
      HInv c hd h live L F → frees_ok live es → (es ≠ [] ∨ h.header.first ≠ 0) →
      ∀ h1, run_frees c h es = some h1 → h1.header.first ≠ 0
  | [], h, _, _, _, _, _, hne, h1, e1 => by
    cases e1
    rcases hne with hh | hh
    · exact absurd rfl hh
    · exact hh
  | e :: es, h, live, L, F, inv, hok, _, h1, e1 => by
    obtain ⟨he, hrest⟩ : e ∈ live ∧ frees_ok (live.erase e) es := hok
    have f1 := free_eq c wf hd ok h live L F inv e he
    have inv1 := free_inv c wf hd ok h live L F inv e he
    have e2 : (pool_free_entry c h e).bind (fun h2 => run_frees c h2 es) = some h1 := e1
    rw [f1] at e2
    have hne1 : (free_heap c h e).header.first ≠ 0 := fun hz =>
      free_ready_ne_nil c hd h live L F inv e (inv.live_facts wf ok e he).1
        (inv1.first_eq_zero.mp hz)
    exact run_frees_first c wf hd ok es _ _ _ _ inv1 hrest (Or.inr hne1) h1 e2

/-- The entries freed during an allocation whose `vm_malloc_prepare` frees valid
entries, at least one: exactly those, and the call returns with the invariant. -/
theorem alloc_prepare_inv (c : Config) (wf : c.WF) (hd : pool_header) (ok : ClassOK c hd)
    (s : Sim) (L : List Nat) (F : Nat → List Nat) (inv : HInv c hd s.heap s.live L F)
    (hf : s.heap.header.first = 0) (env : Env) (hp : frees_ok s.live env.prepare_frees)
    (hne : env.prepare_frees ≠ []) :
    alloc_freed c s.heap env = env.prepare_frees ∧
      ∃ h2 r h1 L1 F1,
        run_frees c (emit (unlock_header (lock_header s.heap)) (Event.prepare 0))
          env.prepare_frees = some h2 ∧
        h2.header.first ≠ 0 ∧
        pool_alloc_entry c s.heap env = Outcome.ret r h1 ∧ h1.chunks = h2.chunks ∧
        h1.log = h2.log ∧ h1.header.lock = 0 ∧
        HInv c hd h1 (r :: erase_all s.live env.prepare_frees) L1 F1 := by
  obtain ⟨h2, L2, F2, e2, _, A, _⟩ := alloc_revalidates_inv c wf hd ok s L F inv hf env hp
  have hfirst := run_frees_first c wf hd ok env.prepare_frees _ _ _ _ inv.lock.prepare hp
    (Or.inl hne) h2 e2
  obtain ⟨_, r, h1, L1, F1, ea, ec, el, inv1⟩ := A hfirst
  refine ⟨?_, h2, r, h1, L1, F1, e2, hfirst, ea, ec, el, (alloc_entry_lock c _ _).1 _ _ ea, inv1⟩
  unfold alloc_freed
  rw [if_neg (fun hh => hh hf), e2]
  dsimp only
  rw [if_pos hfirst]

/-- One call a client may make, with callbacks that may free entries, returns, and the
invariant holds again after it. -/
theorem cb_step_inv (c : Config) (wf : c.WF) (hd : pool_header) (ok : ClassOK c hd)
    (s : Sim) (inv : SInv c hd s) (op : Op) (hop : cb_op_ok c s op) :
    ∃ s1, cb_step c s op = some s1 ∧ SInv c hd s1 := by
  cases op with
  | alloc env =>
    by_cases hq : s.heap.header.first = 0 → env.prepare_frees = []
    · have hop1 : op_ok c s (Op.alloc (quiet_reclaim env)) := fun hf =>
        (grant_ok_quiet c s.heap env (hq hf) ((hop hf).2 (hq hf))).1
      have hgc : s.heap.header.first = 0 → env.malloc1 ≠ 0 ∨ env.gc_frees = [] := fun hf =>
        (grant_ok_quiet c s.heap env (hq hf) ((hop hf).2 (hq hf))).2
      obtain ⟨s1, e1, i1⟩ := step_inv c wf hd ok s inv (Op.alloc (quiet_reclaim env)) hop1
      refine ⟨s1, ?_, i1⟩
      rw [← cb_step_quiet_reclaim c s env hgc, cb_step_eq c s (Op.alloc (quiet_reclaim env)) hop1]
      exact e1
    · have hf : s.heap.header.first = 0 := by
        by_contra hne
        exact hq (fun h0 => absurd h0 hne)
      obtain ⟨hfo, _⟩ := hop hf
      have hne : env.prepare_frees ≠ [] := fun h0 => hq (fun _ => h0)
      obtain ⟨_, L, F, hinv⟩ := inv
      obtain ⟨hfr, _, r, h1, L1, F1, _, _, ea, _, _, hl, inv1⟩ :=
        alloc_prepare_inv c wf hd ok s L F hinv hf env hfo hne
      refine ⟨⟨h1, r :: erase_all s.live env.prepare_frees⟩, ?_, hl, L1, F1, inv1⟩
      rw [cb_step_alloc, ea, hfr]
  | free e =>
    obtain ⟨s1, e1, i1⟩ := step_inv c wf hd ok s inv (Op.free e) hop
    exact ⟨s1, e1, i1⟩

/-- A sequence of calls valid with callbacks that may free entries runs to its end, and
the invariant holds after it. -/
theorem cb_run_inv (c : Config) (wf : c.WF) (hd : pool_header) (ok : ClassOK c hd) :
    ∀ (ops : List Op) (s : Sim), SInv c hd s → cb_valid c s ops = true →
      ∃ s1, cb_run c s ops = some s1 ∧ SInv c hd s1
  | [], s, inv, _ => ⟨s, rfl, inv⟩
  | op :: ops, s, inv, hv => by
    rw [cb_valid_cons, Bool.and_eq_true, decide_eq_true_eq] at hv
    obtain ⟨s1, h1, inv1⟩ := cb_step_inv c wf hd ok s inv op hv.1
    have hv2 := hv.2
    rw [h1] at hv2
    obtain ⟨s2, h2, inv2⟩ := cb_run_inv c wf hd ok ops s1 inv1 hv2
    exact ⟨s2, by rw [cb_run_cons, h1]; exact h2, inv2⟩

theorem cb_reachable_inv (c : Config) (wf : c.WF) (hd : pool_header) (ok : ClassOK c hd)
    (s : Sim) (hr : CbReachable c hd s) : SInv c hd s := by
  obtain ⟨ops, hv, hrun⟩ := hr
  obtain ⟨s1, h1, inv1⟩ := cb_run_inv c wf hd ok ops (Sim.init hd) (init_sinv c hd ok) hv
  rw [hrun] at h1
  cases h1
  exact inv1

theorem cb_run_append (c : Config) :
    ∀ (ops1 ops2 : List Op) (s : Sim),
      cb_run c s (ops1 ++ ops2) = (cb_run c s ops1).bind fun s1 => cb_run c s1 ops2
  | [], _, _ => rfl
  | op :: ops1, ops2, s => by
    show (cb_step c s op).bind _ = ((cb_step c s op).bind _).bind _
    cases cb_step c s op with
    | none => rfl
    | some s1 => exact cb_run_append c ops1 ops2 s1

theorem cb_valid_append (c : Config) :
    ∀ (ops1 ops2 : List Op) (s s1 : Sim), cb_run c s ops1 = some s1 →
      (cb_valid c s (ops1 ++ ops2) = true ↔
        cb_valid c s ops1 = true ∧ cb_valid c s1 ops2 = true)
  | [], _, s, s1, hr => by
    cases hr
    simp [cb_valid]
  | op :: ops1, ops2, s, s1, hr => by
    have hr2 : (cb_step c s op).bind (fun s2 => cb_run c s2 ops1) = some s1 := hr
    cases hs : cb_step c s op with
    | none => rw [hs] at hr2; cases hr2
    | some s2 =>
      rw [hs] at hr2
      have ih := cb_valid_append c ops1 ops2 s2 s1 hr2
      show cb_valid c s (op :: (ops1 ++ ops2)) = true ↔ cb_valid c s (op :: ops1) = true ∧ _
      rw [cb_valid_cons, cb_valid_cons, hs]
      simp only [Bool.and_eq_true, decide_eq_true_eq]
      rw [ih, and_assoc]

theorem cb_valid_prefix (c : Config) :
    ∀ (l1 l2 : List Op) (s : Sim), cb_valid c s (l1 ++ l2) = true → cb_valid c s l1 = true
  | [], _, _, _ => rfl
  | x :: xs, l2, s, h => by
    have h2 : cb_valid c s (x :: (xs ++ l2)) = true := h
    rw [cb_valid_cons] at h2 ⊢
    rw [Bool.and_eq_true] at h2 ⊢
    refine ⟨h2.1, ?_⟩
    cases hs : cb_step c s x with
    | none => rfl
    | some s2 =>
      have := h2.2
      rw [hs] at this
      exact cb_valid_prefix c xs l2 s2 this

theorem frees_ok_nil (es : List Nat) (h : frees_ok [] es) : es = [] := by
  cases es with
  | nil => rfl
  | cons e es =>
    have h1 : e ∈ ([] : List Nat) ∧ frees_ok (([] : List Nat).erase e) es := h
    exact absurd h1.1 (List.not_mem_nil e)

/-- A free calls `aligned_free` on the entry's holder or calls nothing. -/
theorem free_heap_log_cases (c : Config) (h : Heap) (e : Nat) :
    (free_heap c h e).log = h.log ∨
      (free_heap c h e).log = h.log ++ [Event.release (entry_holder c e)] := by
  by_cases h0 : h.free (entry_holder c e) = 0
  · exact Or.inl (free_heap_relink c h e _ rfl h0).1
  · by_cases hr : h.free (entry_holder c e) + 1 = h.total (entry_holder c e) ∧
        h.header.first ≠ entry_holder c e
    · exact Or.inr (free_heap_release c h e _ rfl h0 hr).1
    · exact Or.inl (free_heap_stay c h e _ rfl h0 hr).1

/-- The valid frees of a callback make no OS-backend request and obtain no chunk. -/
theorem run_frees_log (c : Config) (wf : c.WF) (hd : pool_header) (ok : ClassOK c hd) :
    ∀ (es : List Nat) (h : Heap) (live L : List Nat) (F : Nat → List Nat),
      HInv c hd h live L F → frees_ok live es →
      ∀ h1, run_frees c h es = some h1 →
        requests h1.log = requests h.log ∧ grants h1.log = grants h.log ∧
          ∀ b ∈ h1.chunks, b ∈ h.chunks
  | [], h, _, _, _, _, _, h1, e1 => by
    cases e1
    exact ⟨rfl, rfl, fun _ hb => hb⟩
  | e :: es, h, live, L, F, inv, hok, h1, e1 => by
    obtain ⟨he, hrest⟩ : e ∈ live ∧ frees_ok (live.erase e) es := hok
    have f1 := free_eq c wf hd ok h live L F inv e he
    have inv1 := free_inv c wf hd ok h live L F inv e he
    have e2 : (pool_free_entry c h e).bind (fun h2 => run_frees c h2 es) = some h1 := e1
    rw [f1] at e2
    obtain ⟨q1, q2, q3⟩ := run_frees_log c wf hd ok es _ _ _ _ inv1 hrest h1 e2
    have hreq : requests (free_heap c h e).log = requests h.log ∧
        grants (free_heap c h e).log = grants h.log := by
      rcases free_heap_log_cases c h e with hl | hl
      · rw [hl]; exact ⟨rfl, rfl⟩
      · rw [hl, requests_append, grants_append]; exact ⟨rfl, rfl⟩
    refine ⟨q1.trans hreq.1, q2.trans hreq.2, fun b hb => ?_⟩
    have hb1 := q3 b hb
    rw [free_heap_chunks] at hb1
    split at hb1
    · exact List.mem_of_mem_erase hb1
    · exact hb1

/-- Allocations from the single holder of a class, as long as it has room, are calls
the client may make whatever the environment. -/
theorem fill_valid (c : Config) (wf : c.WF) (hd : pool_header) (ok : ClassOK c hd) (b : Nat) :
    ∀ (envs : List Env) (k : Nat) (s : Sim), SInv c hd s → s.heap.chunks = [b] →
      s.heap.free b + k = hd.total → k + envs.length ≤ hd.total →
      valid c s (envs.map Op.alloc) = true
  | [], _, _, _, _, _, _ => rfl
  | env :: envs, k, s, inv, hc, hk, hle => by
    have hlen : (env :: envs).length = envs.length + 1 := rfl
    obtain ⟨_, L, F, hinv⟩ := id inv
    have hfirst := single_first c hd s.heap s.live L F hinv b hc (by omega)
    have hb0 : b ≠ 0 := (hinv.chunk_ok b (by rw [hc]; exact List.mem_singleton_self b)).1
    have hop : op_ok c s (Op.alloc env) := fun h0 => absurd (hfirst.symm.trans h0) hb0
    obtain ⟨s1, hs, _⟩ := step_inv c wf hd ok s inv (Op.alloc env) hop
    obtain ⟨i1, i2, i3, _⟩ := fill_step c wf hd ok b k s s1 env inv hc hk (by omega) hs
    show valid c s (Op.alloc env :: envs.map Op.alloc) = true
    rw [valid_cons, hs, Bool.and_eq_true, decide_eq_true_eq]
    exact ⟨hop, fill_valid c wf hd ok b envs (k + 1) s1 i1 i2 i3 (by omega)⟩

/-- On a fresh class no callback can free an entry: the first allocations, up to the
capacity of a holder, are valid with callbacks that free nothing as soon as the first
one is valid with callbacks that may free entries. -/
theorem fresh_valid (c : Config) (wf : c.WF) (hd : pool_header) (ok : ClassOK c hd)
    (env1 : Env) (envs : List Env) (hlen : envs.length + 1 ≤ hd.total)
    (hop : cb_op_ok c (Sim.init hd) (Op.alloc env1)) :
    valid c (Sim.init hd) (Op.alloc (quiet_reclaim env1) :: envs.map Op.alloc) = true ∧
      cb_run c (Sim.init hd) (Op.alloc env1 :: envs.map Op.alloc)
        = run c (Sim.init hd) (Op.alloc (quiet_reclaim env1) :: envs.map Op.alloc) := by
  have hf : (Sim.init hd).heap.header.first = 0 := ok.first_null
  obtain ⟨hfo, hq⟩ := hop hf
  have hp := frees_ok_nil _ hfo
  obtain ⟨hok, hgc⟩ := grant_ok_quiet c _ env1 hp (hq hp)
  have hop1 : op_ok c (Sim.init hd) (Op.alloc (quiet_reclaim env1)) := fun _ => hok
  obtain ⟨s1, hs, _⟩ :=
    step_inv c wf hd ok _ (init_sinv c hd ok) (Op.alloc (quiet_reclaim env1)) hop1
  obtain ⟨i1, i2, i3, _⟩ := fresh_first c wf hd ok (quiet_reclaim env1) s1 hop1 hs
  have hv : valid c (Sim.init hd) (Op.alloc (quiet_reclaim env1) :: envs.map Op.alloc)
      = true := by
    rw [valid_cons, hs, Bool.and_eq_true, decide_eq_true_eq]
    exact ⟨hop1, fill_valid c wf hd ok _ envs 1 s1 i1 i2 i3 (by omega)⟩
  refine ⟨hv, ?_⟩
  rw [cb_run_cons, ← cb_step_quiet_reclaim c _ env1 (fun _ => hgc), ← cb_run_cons]
  exact (cb_of_valid c _ _ hv).2

theorem nodup_eq_singleton (l : List Nat) (b : Nat) (hnd : l.Nodup) (hb : b ∈ l)
    (hall : ∀ x ∈ l, x = b) : l = [b] := by
  cases l with
  | nil => exact absurd hb (List.not_mem_nil b)
  | cons x xs =>
    have hx : x = b := hall x (List.mem_cons_self _ _)
    have hxs : xs = [] := List.eq_nil_iff_forall_not_mem.2 fun y hy => by
      have hy2 : y = b := hall y (List.mem_cons_of_mem _ hy)
      exact (List.nodup_cons.1 hnd).1 (by rw [hx, ← hy2]; exact hy)
    rw [hx, hxs]

/-- Cache retention in the states reached by calls whose callbacks are as in `cb_op_ok`
(the collection of `vm_malloc_prepare` may free entries, the reclaim callback of the
retry path frees none).  If a holder `H` is the only unreleased holder of the class or
is `header->first`, and `H` has exactly one live entry `e`: `pool_free_entry(e)` returns
and calls no collaborator, leaves `H` held, as `header->first`, with `free = total`;
and the next `pool_alloc_entry` returns `e` without calling a collaborator. -/
theorem cache_retention (c : Config) (wf : c.WF) (hd : pool_header) (ok : ClassOK c hd)
    (s : Sim) (hr : CbReachable c hd s) (H e : Nat) (env : Env)
    (hH : H ∈ s.heap.chunks) (hpos : s.heap.chunks = [H] ∨ s.heap.header.first = H)
    (he : e ∈ s.live) (hown : entry_holder c e = H) (hone : live_in c s.live H = 1) :
    ∃ h1 h2, pool_free_entry c s.heap e = some h1 ∧ h1.log = s.heap.log ∧
      releases h1.log = releases s.heap.log ∧ H ∈ h1.chunks ∧ h1.header.first = H ∧
      h1.free H = hd.total ∧ h1.total H = hd.total ∧
      pool_alloc_entry c h1 env = Outcome.ret e h2 ∧ is_slot c hd H e ∧
      h2.log = h1.log ∧ requests h2.log = requests s.heap.log := by
  obtain ⟨_, L, F, inv⟩ := cb_reachable_inv c wf hd ok s hr
  obtain ⟨_, hslot, _, _, _, _⟩ := inv.live_facts wf ok e he
  rw [hown] at hslot
  have hcnt := inv.count H hH
  have htot := inv.holder_total H hH
  have hH0 : H ≠ 0 := (inv.chunk_ok H hH).1
  have feq := free_eq c wf hd ok s.heap s.live L F inv e he
  -- in both cases the holder ends up as the head with the entry on top of its free list
  have key : (free_heap c s.heap e).log = s.heap.log ∧
      (free_heap c s.heap e).chunks = s.heap.chunks ∧
      (free_heap c s.heap e).freep H = e ∧ (free_heap c s.heap e).free H = hd.total ∧
      (free_heap c s.heap e).header.first = H := by
    by_cases hf : s.heap.header.first = H
    · have hfree : 0 < s.heap.free H := by
        obtain ⟨_, _, _, _, _, hp, _⟩ := inv.head_facts (by rw [hf]; exact hH0)
        rw [hf] at hp
        exact hp
      obtain ⟨r1, r2, r3, r4, r5, _⟩ :=
        free_heap_stay c s.heap e H hown (by omega) (fun hrel => hrel.2 hf)
      exact ⟨r1, r2, r3, by rw [r4]; omega, r5.trans hf⟩
    · have hc : s.heap.chunks = [H] := by
        rcases hpos with h1 | h1
        · exact h1
        · exact absurd h1 hf
      have hfree : s.heap.free H = 0 := by
        by_contra hne
        exact hf (single_first c hd s.heap s.live L F inv H hc (by omega))
      obtain ⟨_, u2, _, _⟩ := single_full c hd s.heap s.live L F inv H hc hfree
      obtain ⟨r1, r2, r3, r4, r5, _⟩ := free_heap_relink c s.heap e H hown hfree
      exact ⟨r1, r2, r3, by rw [r4]; omega, r5 u2⟩
  obtain ⟨k1, k2, k3, k4, k5⟩ := key
  obtain ⟨h2, q1, q2, _⟩ := free_then_alloc c wf hd ok s.heap s.live L F inv e he env
    (by rw [hown]; exact k5) (by rw [hown]; exact k3)
  exact ⟨free_heap c s.heap e, h2, feq, k1, by rw [k1], by rw [k2]; exact hH, k5, k4,
    by rw [free_heap_htotal]; exact htot, q1, hslot, q2, by rw [q2, k1]⟩

/-- The ready-list invariant in the states reached by calls whose callbacks are as in
`cb_op_ok` (the collection of `vm_malloc_prepare` may free entries, the reclaim callback
of the retry path frees none): following the `fore` links from `header->first` visits a
list `L` of pairwise distinct holders and then meets `NULL`; the head has
`back = NULL`; every linked holder with a successor has that successor in the list with
`back` pointing to it; `L` holds exactly the unreleased holders with `free > 0`; and an
unreleased holder with `free = 0` has `fore = back = NULL` and is not in `L`. -/
theorem ready_list_invariant (c : Config) (wf : c.WF) (hd : pool_header) (ok : ClassOK c hd)
    (s : Sim) (hr : CbReachable c hd s) :
    ∃ L, Ready s.heap.fore s.heap.back 0 s.heap.header.first L ∧
      (∀ fuel, L.length ≤ fuel → follow s.heap.fore fuel s.heap.header.first = L) ∧
      L.Nodup ∧ L.length ≤ s.heap.chunks.length ∧
      (s.heap.header.first ≠ 0 → s.heap.back s.heap.header.first = 0) ∧
      (∀ b ∈ L, s.heap.fore b ≠ 0 →
        s.heap.fore b ∈ L ∧ s.heap.back (s.heap.fore b) = b) ∧
      (∀ b, b ∈ L ↔ b ∈ s.heap.chunks ∧ 0 < s.heap.free b) ∧
      (∀ b ∈ s.heap.chunks, s.heap.free b = 0 →
        s.heap.fore b = 0 ∧ s.heap.back b = 0 ∧ b ∉ L) := by
  obtain ⟨_, L, F, inv⟩ := cb_reachable_inv c wf hd ok s hr
  refine ⟨L, inv.ready, Ready.follow_fore L 0 _ inv.ready, inv.ready_nodup, ?_, ?_,
    Ready.links L 0 _ inv.ready, inv.ready_iff, ?_⟩
  · exact (inv.ready_nodup.subperm fun b hb => ((inv.ready_iff b).1 hb).1).length_le
  · intro hne
    obtain ⟨_, _, _, _, _, _, hb, _⟩ := inv.head_facts hne
    exact hb
  · intro b hb h0
    have hn : b ∉ L := fun hL => by
      have := ((inv.ready_iff b).1 hL).2
      omega
    exact ⟨(inv.unlinked b hb hn).1, (inv.unlinked b hb hn).2, hn⟩

/-- A list that starts at a holder without successor is that holder alone, whatever the
number of links followed. -/
theorem follow_single (next : Nat → Nat) (p q : Nat) (hq : p = q) (hp : q ≠ 0)
    (hn : next q = 0) (fuel : Nat) : follow next (fuel + 1) p = [q] := by
  subst hq
  rw [follow_succ _ _ _ hp, hn, follow_zero]

/-! # The claims -/

/-- C3 (immediate reuse).  For every class with capacity `n ≥ 1`: allocate `n` entries
from the fresh class and free the entry the last of these calls returned; then the
next `pool_alloc_entry` returns exactly that entry, and neither the free nor that
allocation calls a collaborator (the log, and with it the number of OS-backend
requests, is unchanged). -/
theorem C3_immediate_reuse (c : Config) (wf : c.WF) (hd : pool_header) (ok : ClassOK c hd)
    (envs : List Env) (envL env3 : Env) (hlen : envs.length + 1 = hd.total)
    (hv : valid c (Sim.init hd) (envs.map Op.alloc ++ [Op.alloc envL]) = true) :
    ∃ s0 e h h1 h2, run c (Sim.init hd) (envs.map Op.alloc) = some s0 ∧
      pool_alloc_entry c s0.heap envL = Outcome.ret e h ∧
      pool_free_entry c h e = some h1 ∧
      pool_alloc_entry c h1 env3 = Outcome.ret e h2 ∧
      h2.log = h.log ∧ requests h2.log = requests h.log := by
  obtain ⟨s0, hrun0, _, inv0, hop⟩ := valid_snoc c wf hd ok _ (Op.alloc envL) hv
  obtain ⟨s, hstep, _⟩ := step_inv c wf hd ok s0 inv0 _ hop
  obtain ⟨e, hret, hlive⟩ := step_alloc_some c s0 s envL hstep
  have hrun : run c (Sim.init hd) (envs.map Op.alloc ++ [Op.alloc envL]) = some s := by
    rw [run_append, hrun0]
    show (step c s0 (Op.alloc envL)).bind _ = _
    rw [hstep]
    rfl
  -- the whole sequence is a non-empty run of allocations that fills the first holder
  have hfill : ∃ b L F, HInv c hd s.heap s.live L F ∧ s.heap.chunks = [b] ∧
      s.heap.free b = 0 := by
    cases henvs : envs with
    | nil =>
      rw [henvs] at hv hrun hlen
      obtain ⟨s2, hrun2, ⟨_, L, F, inv⟩, f1, f2, _⟩ :=
        fresh_fill c wf hd ok envL [] (by simpa using hlen.le) hv
      have e1 : s2 = s := Option.some.inj (hrun2.symm.trans hrun)
      subst e1
      have hl : ([] : List Env).length + 1 = hd.total := hlen
      exact ⟨_, L, F, inv, f1, by simp at f2 hl; omega⟩
    | cons env1 rest =>
      rw [henvs] at hv hrun hlen
      have hmap : (env1 :: rest).map Op.alloc ++ [Op.alloc envL]
          = Op.alloc env1 :: (rest ++ [envL]).map Op.alloc := by simp
      rw [hmap] at hv hrun
      have hl : (rest ++ [envL]).length + 1 = hd.total := by
        simp at hlen ⊢; omega
      obtain ⟨s2, hrun2, ⟨_, L, F, inv⟩, f1, f2, _⟩ :=
        fresh_fill c wf hd ok env1 (rest ++ [envL]) hl.le hv
      have e1 : s2 = s := Option.some.inj (hrun2.symm.trans hrun)
      subst e1
      exact ⟨_, L, F, inv, f1, by omega⟩
  obtain ⟨b, L, F, inv, hc, hfree⟩ := hfill
  have he : e ∈ s.live := by rw [hlive]; exact List.mem_cons_self _ _
  obtain ⟨hmem, _, _, _, _, _⟩ := inv.live_facts wf ok e he
  have hown : entry_holder c e = b := by
    rw [hc] at hmem; exact List.mem_singleton.mp hmem
  obtain ⟨_, u2, _, _⟩ := single_full c hd s.heap s.live L F inv b hc hfree
  obtain ⟨r1, _, r3, _, r5, _⟩ := free_heap_relink c s.heap e b hown hfree
  obtain ⟨h2, q1, q2, _⟩ := free_then_alloc c wf hd ok s.heap s.live L F inv e he env3
    (by rw [hown]; exact r5 u2) (by rw [hown]; exact r3)
  exact ⟨s0, e, s.heap, free_heap c s.heap e, h2, hrun0, hret,
    free_eq c wf hd ok s.heap s.live L F inv e he, q1, q2.trans r1,
    by rw [q2.trans r1]⟩

/-- Witness of C3 on `class2`: the entries at 16424 and 24424 are allocated, 24424 is
freed and returned again. -/
theorem C3_immediate_reuse_witness :
    [envA].length + 1 = class2.total ∧
      valid cfg64 (Sim.init class2) ([envA].map Op.alloc ++ [Op.alloc envB]) = true ∧
      ∃ s0 e h h1 h2, run cfg64 (Sim.init class2) ([envA].map Op.alloc) = some s0 ∧
        pool_alloc_entry cfg64 s0.heap envB = Outcome.ret e h ∧
        pool_free_entry cfg64 h e = some h1 ∧
        pool_alloc_entry cfg64 h1 envA = Outcome.ret e h2 ∧
        h2.log = h.log ∧ requests h2.log = requests h.log :=
  ⟨by decide, by decide,
    C3_immediate_reuse cfg64 cfg64_wf class2 class2_ok [envA] envB envA (by decide)
      (by decide)⟩

/-- C4, refuted.  On `class2` (capacity two): when the first OS-backend request fails
and the retry after the reclaim is granted, two requests have been made after the two
allocations that fill the holder; and when the collection run by `vm_malloc_prepare`
frees the entry 24424 during the third `pool_alloc_entry` on the full holder, that call
makes no OS-backend request and returns an entry of the first holder. -/
theorem C4_counterexample :
    (∃ s, cb_valid cfg64 (Sim.init class2) [Op.alloc envC, Op.alloc envA] = true ∧
        cb_run cfg64 (Sim.init class2) [Op.alloc envC, Op.alloc envA] = some s ∧
        class2.total = 2 ∧ s.heap.free 49152 = 0 ∧ requests s.heap.log = 2) ∧
      ∃ s r h,
        cb_valid cfg64 (Sim.init class2) [Op.alloc envA, Op.alloc envA, Op.alloc envG]
          = true ∧
        cb_run cfg64 (Sim.init class2) [Op.alloc envA, Op.alloc envA] = some s ∧
        requests s.heap.log = 1 ∧
        pool_alloc_entry cfg64 s.heap envG = Outcome.ret r h ∧ requests h.log = 1 ∧
        h.chunks = [16384] ∧ entry_holder cfg64 r = 16384 :=
  ⟨⟨_, by decide, rfl, by decide, by decide, by decide⟩,
    ⟨_, _, _, by decide, rfl, by decide, rfl, by decide, by decide, by decide⟩⟩

/-- C4 (full/unlink), amended.  For every class with capacity `n ≥ 1` and every run of
`n + 1` allocations on the fresh class, valid with callbacks that may free entries:
after the first `n` calls exactly one chunk has been granted by the OS backend, by one
`aligned_malloc` call, or by two when the first one fails and the retry after the
reclaim is granted; the holder has `free = 0` and is unlinked (`header->first`, its
`fore` and its `back` are `NULL`).  If the collection run by `vm_malloc_prepare` frees no
entry during the `(n+1)`-th call, that call obtains a second, different chunk, again by
one `aligned_malloc` call or by two with a retry, and returns an entry of the second
holder; if it frees entries, the call makes no `aligned_malloc` call, no chunk is
obtained, and it returns an entry of the first holder. -/
theorem C4_full_unlink (c : Config) (wf : c.WF) (hd : pool_header) (ok : ClassOK c hd)
    (env1 : Env) (envs : List Env) (env2 : Env) (hlen : envs.length + 1 = hd.total)
    (hv : cb_valid c (Sim.init hd)
      ((Op.alloc env1 :: envs.map Op.alloc) ++ [Op.alloc env2]) = true) :
    ∃ s, cb_run c (Sim.init hd) (Op.alloc env1 :: envs.map Op.alloc) = some s ∧
      s.heap.chunks = [granted_chunk env1] ∧ grants s.heap.log = 1 ∧
      requests s.heap.log = 1 + (if env1.malloc1 = 0 then 1 else 0) ∧
      s.heap.free (granted_chunk env1) = 0 ∧ s.heap.header.first = 0 ∧
      s.heap.fore (granted_chunk env1) = 0 ∧ s.heap.back (granted_chunk env1) = 0 ∧
      (env2.prepare_frees = [] →
        ∃ r h, pool_alloc_entry c s.heap env2 = Outcome.ret r h ∧
          h.chunks = [granted_chunk env2, granted_chunk env1] ∧
          granted_chunk env2 ≠ granted_chunk env1 ∧ grants h.log = 2 ∧
          requests h.log = requests s.heap.log + 1 + (if env2.malloc1 = 0 then 1 else 0) ∧
          is_slot c hd (granted_chunk env2) r ∧ entry_holder c r = granted_chunk env2) ∧
      (env2.prepare_frees ≠ [] →
        ∃ r h, pool_alloc_entry c s.heap env2 = Outcome.ret r h ∧
          h.chunks = [granted_chunk env1] ∧ grants h.log = 1 ∧
          requests h.log = requests s.heap.log ∧
          is_slot c hd (granted_chunk env1) r ∧ entry_holder c r = granted_chunk env1) := by
  have hvp := cb_valid_prefix c _ _ _ hv
  have hop1 : cb_op_ok c (Sim.init hd) (Op.alloc env1) := by
    have h1 := hvp
    rw [cb_valid_cons, Bool.and_eq_true, decide_eq_true_eq] at h1
    exact h1.1
  obtain ⟨hq, hqr⟩ := fresh_valid c wf hd ok env1 envs (by omega) hop1
  obtain ⟨s, hrun, ⟨_, L, F, inv⟩, f1, f2, f3, f4, _⟩ :=
    fresh_fill c wf hd ok (quiet_reclaim env1) envs (by omega) hq
  have f1 : s.heap.chunks = [granted_chunk env1] := f1
  have f2 : s.heap.free (granted_chunk env1) + (envs.length + 1) = hd.total := f2
  have f4 : requests s.heap.log = if env1.malloc1 = 0 then 2 else 1 := f4
  have hcb : cb_run c (Sim.init hd) (Op.alloc env1 :: envs.map Op.alloc) = some s :=
    hqr.trans hrun
  have hop2 : cb_op_ok c s (Op.alloc env2) := by
    have h1 := ((cb_valid_append c _ [Op.alloc env2] _ s hcb).mp hv).2
    rw [cb_valid_cons, Bool.and_eq_true, decide_eq_true_eq] at h1
    exact h1.1
  have hfree : s.heap.free (granted_chunk env1) = 0 := by omega
  obtain ⟨_, u2, u3, u4⟩ := single_full c hd s.heap s.live L F inv _ f1 hfree
  obtain ⟨hfo, hquiet⟩ := hop2 u2
  refine ⟨s, hcb, f1, f3, ?_, hfree, u2, u3, u4, fun hp => ?_, fun hp => ?_⟩
  · rw [f4]; split <;> rfl
  · obtain ⟨hok, hgc⟩ := grant_ok_quiet c s.heap env2 hp (hquiet hp)
    have hop : op_ok c s (Op.alloc (quiet_reclaim env2)) := fun _ => hok
    obtain ⟨a1, _, a3, a4, a5⟩ :=
      alloc_spec c wf hd ok s.heap s.live L F inv (quiet_reclaim env2) hop
    obtain ⟨m1, m2, m3, _⟩ := alloc_materialize_facts c hd s.heap (quiet_reclaim env2) u2 hok
    rw [alloc_holder_empty s.heap (quiet_reclaim env2) u2] at a3 a4
    have hfresh := granted_chunk_fresh c s.heap (quiet_reclaim env2) hok
    rw [(alloc_entry_quiet_reclaim c s.heap env2 (fun _ => hgc)).1] at a1
    refine ⟨_, _, a1, by rw [m1, f1]; rfl, ?_, by rw [m2, f3], ?_, a3,
      a5.owner wf ok _ _ a4 a3⟩
    · intro e
      apply hfresh.2.2.2
      rw [f1]
      exact List.mem_singleton.2 e
    · have m3 : requests (alloc_heap c hd s.heap (quiet_reclaim env2)).log
          = requests s.heap.log + if env2.malloc1 = 0 then 2 else 1 := m3
      rw [m3]
      split <;> rfl
  · obtain ⟨_, h2, r, h1, L1, F1, e2, _, ea, ec, el, _, inv1⟩ :=
      alloc_prepare_inv c wf hd ok s L F inv u2 env2 hfo hp
    obtain ⟨q1, q2, q3⟩ :=
      run_frees_log c wf hd ok env2.prepare_frees _ _ _ _ inv.lock.prepare hfo h2 e2
    have hreq0 : requests (emit (unlock_header (lock_header s.heap)) (Event.prepare 0)).log
        = requests s.heap.log := by
      show requests (s.heap.log ++ [Event.prepare 0]) = _
      rw [requests_append]; rfl
    have hgr0 : grants (emit (unlock_header (lock_header s.heap)) (Event.prepare 0)).log
        = grants s.heap.log := by
      show grants (s.heap.log ++ [Event.prepare 0]) = _
      rw [grants_append]; rfl
    have hall : ∀ b ∈ h1.chunks, b = granted_chunk env1 := fun b hb => by
      have hb2 : b ∈ s.heap.chunks := q3 b (ec ▸ hb)
      rw [f1] at hb2
      exact List.mem_singleton.1 hb2
    obtain ⟨b, hb, hslot⟩ := inv1.live_slot r (List.mem_cons_self _ _)
    have hbe := hall b hb
    rw [hbe] at hb hslot
    exact ⟨r, h1, ea, nodup_eq_singleton _ _ inv1.chunks_nodup hb hall,
      by rw [el, q2, hgr0, f3], by rw [el, q1, hreq0], hslot,
      inv1.owner wf ok _ _ hb hslot⟩

theorem C4_full_unlink_witness :
    ([envA].length + 1 = class2.total ∧
        cb_valid cfg64 (Sim.init class2)
          ((Op.alloc envA :: [envA].map Op.alloc) ++ [Op.alloc envG]) = true ∧
        envG.prepare_frees ≠ []) ∧
      ∃ s, cb_run cfg64 (Sim.init class2) (Op.alloc envA :: [envA].map Op.alloc) = some s ∧
        s.heap.chunks = [granted_chunk envA] ∧ grants s.heap.log = 1 ∧
        requests s.heap.log = 1 + (if envA.malloc1 = 0 then 1 else 0) ∧
        s.heap.free (granted_chunk envA) = 0 ∧ s.heap.header.first = 0 ∧
        s.heap.fore (granted_chunk envA) = 0 ∧ s.heap.back (granted_chunk envA) = 0 ∧
        (envG.prepare_frees = [] →
          ∃ r h, pool_alloc_entry cfg64 s.heap envG = Outcome.ret r h ∧
            h.chunks = [granted_chunk envG, granted_chunk envA] ∧
            granted_chunk envG ≠ granted_chunk envA ∧ grants h.log = 2 ∧
            requests h.log
              = requests s.heap.log + 1 + (if envG.malloc1 = 0 then 1 else 0) ∧
            is_slot cfg64 class2 (granted_chunk envG) r ∧
            entry_holder cfg64 r = granted_chunk envG) ∧
        (envG.prepare_frees ≠ [] →
          ∃ r h, pool_alloc_entry cfg64 s.heap envG = Outcome.ret r h ∧
            h.chunks = [granted_chunk envA] ∧ grants h.log = 1 ∧
            requests h.log = requests s.heap.log ∧
            is_slot cfg64 class2 (granted_chunk envA) r ∧
            entry_holder cfg64 r = granted_chunk envA) :=
  ⟨⟨by decide, by decide, by decide⟩,
    C4_full_unlink cfg64 cfg64_wf class2 class2_ok envA [envA] envG (by decide) (by decide)⟩

/-- C6, the code at the failing input.  On `class2` two allocations fill the holder at
16384; in the third the first request fails, the reclaim callback frees the live entry
24424 and the retry is granted the chunk at 32768, which `pool_holder_alloc` installs
over the holder at 16384 that the free had linked back; then the live entry 16424 is
freed, which releases the holder at 16384 and leaves `header->first = NULL`.  Now the
holder at 32768 is the only unreleased holder of the class and has exactly one live
entry, 32808; yet `pool_free_entry(32808)` calls `aligned_free` on it: no holder is
left. -/
theorem C6_sole_holder_released :
    ∃ s h1,
      cb_run cfg64 (Sim.init class2)
        [Op.alloc envA, Op.alloc envA, Op.alloc envF, Op.free 16424] = some s ∧
      s.heap.chunks = [32768] ∧ s.live = [32808] ∧ entry_holder cfg64 32808 = 32768 ∧
      live_in cfg64 s.live 32768 = 1 ∧ s.heap.free 32768 + 1 = s.heap.total 32768 ∧
      s.heap.header.first = 0 ∧
      pool_free_entry cfg64 s.heap 32808 = some h1 ∧
      h1.log = s.heap.log ++ [Event.release 32768] ∧ h1.chunks = [] ∧
      h1.header.first = 0 :=
  ⟨_, _, rfl, by decide, by decide, by decide, by decide, by decide, by decide, rfl,
    by decide, by decide, by decide⟩

/-- C7, refuted for capacity one.  On `class1` (capacity one), after two allocations
and the frees of both entries, the two holders at 16384 and 32768 are both unreleased
with `free = total`, and the second one is not `header->first`. -/
theorem C7_counterexample :
    ∃ s, Reachable cfg64 class1 s ∧ 16384 ∈ s.heap.chunks ∧ 32768 ∈ s.heap.chunks ∧
      s.heap.free 16384 = s.heap.total 16384 ∧ s.heap.free 32768 = s.heap.total 32768 ∧
      s.heap.header.first ≠ 32768 :=
  ⟨_, ⟨[Op.alloc envA, Op.alloc envB, Op.free 16424, Op.free 32808], by decide, rfl⟩,
    by decide, by decide, by decide, by decide, by decide⟩

/-- C7 (single idle holder), amended to capacities of two or more and to states reached
without a reclaim callback that frees an entry on the retry path.  In every state
reached from a fresh class with capacity at least two by `pool_alloc_entry` and valid
`pool_free_entry` calls, where the collection run by `vm_malloc_prepare` may free
entries and the reclaim callback of the retry path frees none, every unreleased holder
with `free = total` is `header->first`; hence at most one unreleased holder has
`free = total`. -/
theorem C7_single_idle (c : Config) (wf : c.WF) (hd : pool_header) (ok : ClassOK c hd)
    (h2 : 2 ≤ hd.total) (s : Sim) (hr : CbReachable c hd s) :
    (∀ b ∈ s.heap.chunks, s.heap.free b = s.heap.total b → s.heap.header.first = b) ∧
      (∀ b1 ∈ s.heap.chunks, ∀ b2 ∈ s.heap.chunks, s.heap.free b1 = s.heap.total b1 →
        s.heap.free b2 = s.heap.total b2 → b1 = b2) := by
  obtain ⟨_, L, F, inv⟩ := cb_reachable_inv c wf hd ok s hr
  have key : ∀ b ∈ s.heap.chunks, s.heap.free b = s.heap.total b →
      s.heap.header.first = b := by
    intro b hb hidle
    rw [inv.holder_total b hb] at hidle
    exact inv.idle_first h2 b hb hidle
  exact ⟨key, fun b1 hb1 b2 hb2 i1 i2 => (key b1 hb1 i1).symm.trans (key b2 hb2 i2)⟩

theorem C7_single_idle_witness :
    2 ≤ class2.total ∧
      ∃ s, CbReachable cfg64 class2 s ∧ s.heap.chunks = [32768, 16384] ∧
        s.heap.free 32768 = s.heap.total 32768 ∧ s.heap.free 16384 = 1 ∧
        (∀ b ∈ s.heap.chunks, s.heap.free b = s.heap.total b → s.heap.header.first = b) ∧
        (∀ b1 ∈ s.heap.chunks, ∀ b2 ∈ s.heap.chunks, s.heap.free b1 = s.heap.total b1 →
          s.heap.free b2 = s.heap.total b2 → b1 = b2) :=
  ⟨by decide, _,
    ⟨[Op.alloc envA, Op.alloc envA, Op.alloc envG, Op.alloc envB, Op.free 32808,
      Op.free 24424], by decide, rfl⟩,
    by decide, by decide, by decide,
    C7_single_idle cfg64 cfg64_wf class2 class2_ok (by decide) _
      ⟨[Op.alloc envA, Op.alloc envA, Op.alloc envG, Op.alloc envB, Op.free 32808,
        Op.free 24424], by decide, rfl⟩⟩

/-- C9 (owner recovery by alignment masking).  On every platform whose
`DEFAULT_POOL_SIZE` is a power of two: for every class built by `INIT_POOL`, every
holder base address `b` that is a multiple of `DEFAULT_POOL_SIZE` (and a `uintptr_t`),
and every entry index `k < total`,
`entry_holder(b + offsetof(pool_holder, data) + k * size * sizeof(void*)) = b`.
Hence, along every valid sequence of calls on a fresh class, every
`pool_alloc_entry` returns an entry whose `entry_holder` is the holder it was popped
from: the variable `holder` of the call, which is `header->first` or, when that is
`NULL`, the result of `pool_holder_alloc`; that holder is held when the call returns. -/
theorem C9_owner_recovery (c : Config) (wf : c.WF) :
    (∀ s b k, 1 ≤ s → s < SIZE_MOD c → b % DEFAULT_POOL_SIZE c = 0 → b < SIZE_MOD c →
        k < (INIT_POOL c s).total → entry_holder c (slot_addr c (INIT_POOL c s) b k) = b) ∧
      (∀ (hd : pool_header) (ops : List Op) (env : Env), ClassOK c hd →
        valid c (Sim.init hd) (ops ++ [Op.alloc env]) = true →
        ∃ s r h holder h1, run c (Sim.init hd) ops = some s ∧
          pool_alloc_entry c s.heap env = Outcome.ret r h ∧
          ((s.heap.header.first ≠ 0 ∧ holder = s.heap.header.first ∧
              h1 = lock_header s.heap) ∨
            (s.heap.header.first = 0 ∧
              pool_holder_alloc c (lock_header s.heap) env = Outcome.ret holder h1)) ∧
          pop_entry c h1 holder = Outcome.ret r h ∧
          entry_holder c r = holder ∧ holder ∈ h.chunks ∧ is_slot c hd holder r) := by
  constructor
  · intro s b k hs1 hs2 hb hlt hk
    have ok := init_pool_ok c wf s hs1 hs2 (by omega)
    exact entry_holder_slot c wf _ ok b _ hb hlt ⟨k, hk, rfl⟩
  · intro hd ops env ok hv
    obtain ⟨s, hrun, _, ⟨_, L, F, inv⟩, hop⟩ := valid_snoc c wf hd ok ops (Op.alloc env) hv
    obtain ⟨a1, _, a3, a4, a5⟩ := alloc_spec c wf hd ok s.heap s.live L F inv env hop
    have hown := a5.owner wf ok _ _ a4 a3
    by_cases hf : s.heap.header.first = 0
    · have hL : L = [] := inv.first_eq_zero.mp hf
      subst hL
      obtain ⟨m1, _⟩ := holder_alloc_eq c wf hd ok (lock_header s.heap) s.live F inv.lock env
        (hop hf)
      have hpa : pool_alloc_entry c s.heap env
          = pop_entry c (materialize_heap c hd (lock_header s.heap) env)
              (granted_chunk env) := by
        unfold pool_alloc_entry
        dsimp only
        rw [if_pos (show (lock_header s.heap).header.first = 0 from hf), m1]
      rw [alloc_holder_empty s.heap env hf] at a3 a4 hown
      exact ⟨s, _, _, granted_chunk env, _, hrun, a1, Or.inr ⟨hf, m1⟩, hpa.symm.trans a1,
        hown, a4, a3⟩
    · have hpa : pool_alloc_entry c s.heap env
          = pop_entry c (lock_header s.heap) s.heap.header.first := by
        unfold pool_alloc_entry
        dsimp only
        rw [if_neg (show ¬ (lock_header s.heap).header.first = 0 from hf)]
        rfl
      have hah : alloc_holder s.heap env = s.heap.header.first := by
        unfold alloc_holder; rw [if_neg hf]
      rw [hah] at a3 a4 hown
      exact ⟨s, _, _, s.heap.header.first, _, hrun, a1, Or.inl ⟨hf, rfl, rfl⟩,
        hpa.symm.trans a1, hown, a4, a3⟩

/-- Witness of C9 on the 64-bit build: entry 1 of the holder at 16384 of `class2`,
and the allocation that follows two allocations and a free. -/
theorem C9_owner_recovery_witness :
    cfg64.WF ∧
      entry_holder cfg64 (slot_addr cfg64 (INIT_POOL cfg64 8000) 16384 1) = 16384 ∧
      valid cfg64 (Sim.init class2)
        ([Op.alloc envA, Op.alloc envA, Op.free 16424] ++ [Op.alloc envB]) = true ∧
      ∃ s r h holder h1,
        run cfg64 (Sim.init class2) [Op.alloc envA, Op.alloc envA, Op.free 16424]
          = some s ∧
        pool_alloc_entry cfg64 s.heap envB = Outcome.ret r h ∧
        ((s.heap.header.first ≠ 0 ∧ holder = s.heap.header.first ∧
            h1 = lock_header s.heap) ∨
          (s.heap.header.first = 0 ∧
            pool_holder_alloc cfg64 (lock_header s.heap) envB = Outcome.ret holder h1)) ∧
        pop_entry cfg64 h1 holder = Outcome.ret r h ∧
        entry_holder cfg64 r = holder ∧ holder ∈ h.chunks ∧
        is_slot cfg64 class2 holder r :=
  ⟨cfg64_wf,
    (C9_owner_recovery cfg64 cfg64_wf).1 8000 16384 1 (by decide) (by decide) (by decide)
      (by decide) (by decide),
    by decide,
    (C9_owner_recovery cfg64 cfg64_wf).2 class2
      [Op.alloc envA, Op.alloc envA, Op.free 16424] envB class2_ok (by decide)⟩

/-- C10 (slab fit).  For every item byte size `s ≥ 1` (a `size_t`), the entry size
`POOL_ENTRY_SIZE` is `(s - 1) / W + 1` words and covers the item, `size * W ≥ s`;
and for the class header that `INIT_POOL` builds, the product `size * total` of the
two `unsigned int` counters does not overflow, the byte count
`offsetof(pool_holder, data) + size * total * W` that `pool_holder_alloc` computes is
that sum without wrap-around, and it never exceeds `DEFAULT_POOL_SIZE`.  The header
stores the entry size itself whenever the class has room for at least one entry. -/
theorem C10_slab_fit (c : Config) (wf : c.WF) (s : Nat) (hs1 : 1 ≤ s)
    (hs2 : s < SIZE_MOD c) :
    POOL_ENTRY_SIZE c s = (s - 1) / c.W + 1 ∧
      s ≤ POOL_ENTRY_SIZE c s * c.W ∧
      (INIT_POOL c s).total = POOL_HOLDER_COUNT c (DEFAULT_POOL_SIZE c) s ∧
      (1 ≤ (INIT_POOL c s).total → (INIT_POOL c s).size = POOL_ENTRY_SIZE c s) ∧
      (INIT_POOL c s).size * (INIT_POOL c s).total < UINT_MOD ∧
      holder_bytes c (INIT_POOL c s)
        = c.offset_data + (INIT_POOL c s).size * (INIT_POOL c s).total * c.W ∧
      holder_bytes c (INIT_POOL c s) ≤ DEFAULT_POOL_SIZE c := by
  obtain ⟨h1, h2, h3⟩ := init_pool_fits c wf s hs1 hs2
  have hE := pool_entry_size_eq c s hs1 hs2
  have hb := holder_bytes_eq c wf (INIT_POOL c s) h3
  have hP := pool_lt_uint c wf
  have hW := wf.W_pos
  have hprod : (INIT_POOL c s).size * (INIT_POOL c s).total
      ≤ (INIT_POOL c s).size * (INIT_POOL c s).total * c.W := Nat.le_mul_of_pos_right _ hW
  refine ⟨hE, by rw [hE]; exact le_entry_size_mul c wf s hs1, h1, ?_, by omega, hb,
    by rw [hb]; omega⟩
  intro hcap
  have hDlt : POOL_DATA_SIZE c (DEFAULT_POOL_SIZE c) < UINT_MOD := by
    have : POOL_DATA_SIZE c (DEFAULT_POOL_SIZE c) ≤ DEFAULT_POOL_SIZE c := by
      rw [pool_data_size_eq c wf]
      exact le_trans (Nat.div_le_self _ _) (by omega)
    omega
  have hEle : POOL_ENTRY_SIZE c s ≤ POOL_DATA_SIZE c (DEFAULT_POOL_SIZE c) := by
    by_contra hlt
    have : POOL_HOLDER_COUNT c (DEFAULT_POOL_SIZE c) s = 0 :=
      Nat.div_eq_of_lt (by omega)
    rw [h1, this] at hcap
    omega
  show POOL_ENTRY_SIZE c s % UINT_MOD = _
  exact Nat.mod_eq_of_lt (by omega)

/-- Witness of C10 on the 64-bit build, for an item of 8000 bytes. -/
theorem C10_slab_fit_witness :
    1 ≤ 8000 ∧ 8000 < SIZE_MOD cfg64 ∧
      POOL_ENTRY_SIZE cfg64 8000 = (8000 - 1) / cfg64.W + 1 ∧
      8000 ≤ POOL_ENTRY_SIZE cfg64 8000 * cfg64.W ∧
      (INIT_POOL cfg64 8000).total = POOL_HOLDER_COUNT cfg64 (DEFAULT_POOL_SIZE cfg64) 8000 ∧
      (1 ≤ (INIT_POOL cfg64 8000).total →
        (INIT_POOL cfg64 8000).size = POOL_ENTRY_SIZE cfg64 8000) ∧
      (INIT_POOL cfg64 8000).size * (INIT_POOL cfg64 8000).total < UINT_MOD ∧
      holder_bytes cfg64 (INIT_POOL cfg64 8000)
        = cfg64.offset_data
          + (INIT_POOL cfg64 8000).size * (INIT_POOL cfg64 8000).total * cfg64.W ∧
      holder_bytes cfg64 (INIT_POOL cfg64 8000) ≤ DEFAULT_POOL_SIZE cfg64 :=
  ⟨by decide, by decide, C10_slab_fit cfg64 cfg64_wf 8000 (by decide) (by decide)⟩

/-- C12 (finalization postcondition).  For every heap of a class, `pool_finalize_header`
calls `aligned_free` exactly once, on `header->first`, when `header->first` is not
`NULL`, and calls nothing and changes nothing when it is `NULL`.  Afterwards
`header->first` is `NULL`, every other held chunk is still held, the lock word, the
class parameters, every field of every holder and every data word are as before, and
a second call changes nothing. -/
theorem C12_finalize (h : Heap) :
    (h.header.first ≠ 0 →
        (pool_finalize_header h).log = h.log ++ [Event.release h.header.first] ∧
          (pool_finalize_header h).chunks = h.chunks.erase h.header.first) ∧
      (h.header.first = 0 → pool_finalize_header h = h) ∧
      (pool_finalize_header h).header.first = 0 ∧
      (∀ b ∈ h.chunks, b ≠ h.header.first → b ∈ (pool_finalize_header h).chunks) ∧
      (pool_finalize_header h).header.lock = h.header.lock ∧
      (pool_finalize_header h).header.size = h.header.size ∧
      (pool_finalize_header h).header.total = h.header.total ∧
      (pool_finalize_header h).free = h.free ∧ (pool_finalize_header h).total = h.total ∧
      (pool_finalize_header h).hdr = h.hdr ∧ (pool_finalize_header h).freep = h.freep ∧
      (pool_finalize_header h).fore = h.fore ∧ (pool_finalize_header h).back = h.back ∧
      (pool_finalize_header h).mem = h.mem ∧
      pool_finalize_header (pool_finalize_header h) = pool_finalize_header h := by
  by_cases hf : h.header.first = 0
  · have e := finalize_null h hf
    rw [e]
    exact ⟨fun hne => absurd hf hne, fun _ => rfl, hf, fun b hb _ => hb, rfl, rfl, rfl, rfl,
      rfl, rfl, rfl, rfl, rfl, rfl, e⟩
  · have e := finalize_first h hf
    rw [e]
    refine ⟨fun _ => ⟨rfl, rfl⟩, fun h0 => absurd h0 hf, rfl, ?_, rfl, rfl, rfl, rfl, rfl,
      rfl, rfl, rfl, rfl, rfl, finalize_null _ rfl⟩
    intro b hb hne
    exact (List.mem_erase_of_ne hne).2 hb

theorem C12_finalize_witness :
    ∃ s, Reachable cfg64 class2 s ∧ s.heap.header.first = 16384 ∧
      (pool_finalize_header s.heap).log = s.heap.log ++ [Event.release 16384] ∧
      (pool_finalize_header s.heap).chunks = [] :=
  ⟨_, ⟨[Op.alloc envA], by decide, rfl⟩, by decide,
    ((C12_finalize _).1 (by decide)).1, by decide⟩

/-- C13, refuted for a capacity of one.  On `class1` two allocations materialise the
holders at 16384 and 32768; after both entries are freed no entry is live and both
holders are held, linked in the ready list.  `pool_finalize_header` releases the head
only: the chunk at 32768 stays held, with two chunks granted and one released. -/
theorem C13_counterexample :
    ∃ s, Reachable cfg64 class1 s ∧ 1 ≤ class1.total ∧ s.live = [] ∧
      (pool_finalize_header s.heap).chunks = [32768] ∧
      grants (pool_finalize_header s.heap).log = 2 ∧
      releases (pool_finalize_header s.heap).log = [16384] :=
  ⟨_, ⟨[Op.alloc envA, Op.alloc envB, Op.free 16424, Op.free 32808], by decide, rfl⟩,
    by decide, by decide, by decide, by decide, by decide⟩

/-- C13 (no leak after teardown), amended to capacities of two or more and to runs
without a reclaim callback that frees an entry on the retry path.  For every class with
`total ≥ 2` and every state reached from a fresh class by `pool_alloc_entry` and valid
`pool_free_entry` calls, where the collection run by `vm_malloc_prepare` may free
entries and the reclaim callback of the retry path frees none, after which no entry is
live: `pool_finalize_header` leaves no chunk held, and the log then has as many
`aligned_free` calls as `aligned_malloc` calls that returned a chunk. -/
theorem C13_no_leak (c : Config) (wf : c.WF) (hd : pool_header) (ok : ClassOK c hd)
    (h2 : 2 ≤ hd.total) (s : Sim) (hr : CbReachable c hd s) (hl : s.live = []) :
    (pool_finalize_header s.heap).chunks = [] ∧
      (releases (pool_finalize_header s.heap).log).length
        = grants (pool_finalize_header s.heap).log := by
  obtain ⟨_, L, F, inv⟩ := cb_reachable_inv c wf hd ok s hr
  rw [hl] at inv
  have hall := inv.idle_all h2
  have hbal := inv.balance
  by_cases hf : s.heap.header.first = 0
  · have hnil : s.heap.chunks = [] :=
      List.eq_nil_iff_forall_not_mem.2 fun b hb => (hall b hb).2 ((hall b hb).1.symm.trans hf)
    rw [finalize_null _ hf, hnil]
    rw [hnil] at hbal
    exact ⟨rfl, by simpa using hbal.symm⟩
  · obtain ⟨_, _, _, _, hmem, _⟩ := inv.head_facts hf
    have hnil : s.heap.chunks.erase s.heap.header.first = [] :=
      List.eq_nil_iff_forall_not_mem.2 fun b hb => by
        obtain ⟨hne, hb1⟩ := (inv.chunks_nodup.mem_erase_iff).1 hb
        exact hne (hall b hb1).1.symm
    have hlen := List.length_erase_of_mem hmem
    rw [hnil] at hlen
    rw [finalize_first _ hf]
    refine ⟨hnil, ?_⟩
    show (releases (s.heap.log ++ [Event.release s.heap.header.first])).length
      = grants (s.heap.log ++ [Event.release s.heap.header.first])
    have e1 : releases [Event.release s.heap.header.first] = [s.heap.header.first] := rfl
    have e2 : grants [Event.release s.heap.header.first] = 0 := rfl
    have hpos := List.length_pos_of_mem hmem
    rw [releases_append, grants_append, List.length_append, e1, e2, List.length_singleton]
    rw [List.length_nil] at hlen
    omega

theorem C13_no_leak_witness :
    2 ≤ class2.total ∧
      ∃ s, CbReachable cfg64 class2 s ∧ s.live = [] ∧ s.heap.chunks = [32768] ∧
        grants s.heap.log = 2 ∧
        (pool_finalize_header s.heap).chunks = [] ∧
        (releases (pool_finalize_header s.heap).log).length
          = grants (pool_finalize_header s.heap).log :=
  ⟨by decide, _,
    ⟨[Op.alloc envA, Op.alloc envA, Op.alloc envG, Op.alloc envB, Op.free 32808,
      Op.free 24424, Op.free 16424], by decide, rfl⟩,
    by decide, by decide, by decide,
    C13_no_leak cfg64 cfg64_wf class2 class2_ok (by decide) _
      ⟨[Op.alloc envA, Op.alloc envA, Op.alloc envG, Op.alloc envB, Op.free 32808,
        Op.free 24424, Op.free 16424], by decide, rfl⟩ (by decide)⟩

/-- C15, the code at the failing input.  On `class2` two allocations fill the holder at
16384; in the third `pool_alloc_entry` the first request fails, the reclaim callback
frees the live entry 24424 (which links the holder at 16384 back as `header->first`)
and the retry is granted the chunk at 32768, which `pool_holder_alloc` installs as
`header->first` with no test of the ready list.  In the state after the call the holder
at 16384 is unreleased with `free = 1`, but the list that starts at `header->first` and
follows `fore` is the holder at 32768 alone, however far it is followed. -/
theorem C15_holder_off_list :
    ∃ s,
      cb_run cfg64 (Sim.init class2) [Op.alloc envA, Op.alloc envA, Op.alloc envF] = some s ∧
      s.live = [32808, 16424] ∧ s.heap.header.lock = 0 ∧ s.heap.chunks = [32768, 16384] ∧
      s.heap.free 16384 = 1 ∧ s.heap.total 16384 = 2 ∧ s.heap.header.first = 32768 ∧
      s.heap.fore 32768 = 0 ∧
      (∀ fuel, follow s.heap.fore (fuel + 1) s.heap.header.first = [32768]) :=
  ⟨_, rfl, by decide, by decide, by decide, by decide, by decide, by decide, by decide,
    follow_single _ _ _ (by decide) (by decide) (by decide)⟩

/-- C21 (lock balance, on the path `living_threads() == 1` of `lock_header` and
`unlock_header`).  For every heap, environment and entry: a `pool_free_entry` that
returns, on either of its two exits, and a `pool_alloc_entry` that returns, on any of
its paths, leave `header->lock = 0`; `pool_holder_alloc` returns to its caller with
`header->lock = 1` on every returning path; and when `pool_holder_alloc` or
`pool_alloc_entry` ends in `ruby_memerror`, the hook is called in a heap whose lock word
is 0.  In every reachable state the lock word is 0 between calls, the free of a live
entry and an allocation in an environment as in `env_ok` do return (with the lock
free), and a materialising `pool_holder_alloc` does return (with the lock held). -/
theorem C21_lock_balance (c : Config) :
    (∀ h e h1, pool_free_entry c h e = some h1 → h1.header.lock = 0) ∧
      (∀ h env r h1, pool_alloc_entry c h env = Outcome.ret r h1 → h1.header.lock = 0) ∧
      (∀ h env b h1, pool_holder_alloc c h env = Outcome.ret b h1 → h1.header.lock = 1) ∧
      (∀ h env h1, pool_holder_alloc c h env = Outcome.fatal h1 →
        ∃ h0, h0.header.lock = 0 ∧ h1 = emit h0 (Event.memerror h0.header.lock)) ∧
      (∀ h env h1, pool_alloc_entry c h env = Outcome.fatal h1 →
        ∃ h0, h0.header.lock = 0 ∧ h1 = emit h0 (Event.memerror h0.header.lock)) ∧
      ∀ hd s, c.WF → ClassOK c hd → Reachable c hd s →
        s.heap.header.lock = 0 ∧
        (∀ e ∈ s.live, ∃ h1, pool_free_entry c s.heap e = some h1 ∧ h1.header.lock = 0) ∧
        (∀ env, (s.heap.header.first = 0 → env_ok c s.heap env) →
          ∃ r h1, pool_alloc_entry c s.heap env = Outcome.ret r h1 ∧ h1.header.lock = 0) ∧
        ∀ env, s.heap.header.first = 0 → env_ok c s.heap env →
          ∃ b h1, pool_holder_alloc c (lock_header s.heap) env = Outcome.ret b h1 ∧
            h1.header.lock = 1 := by
  refine ⟨fun h e h1 => free_entry_lock c h h1 e, fun h env => (alloc_entry_lock c h env).1,
    fun h env => (holder_alloc_lock c h env).1, fun h env => (holder_alloc_lock c h env).2,
    fun h env => (alloc_entry_lock c h env).2, fun hd s wf ok hr => ?_⟩
  obtain ⟨hl, L, F, inv⟩ := reachable_inv c wf hd ok s hr
  refine ⟨hl, fun e he => ?_, fun env hok => ?_, fun env hf hok => ?_⟩
  · have e1 := free_eq c wf hd ok s.heap s.live L F inv e he
    exact ⟨_, e1, free_entry_lock c _ _ _ e1⟩
  · obtain ⟨e1, _⟩ := alloc_spec c wf hd ok s.heap s.live L F inv env hok
    exact ⟨_, _, e1, (alloc_entry_lock c _ _).1 _ _ e1⟩
  · have hL : L = [] := inv.first_eq_zero.mp hf
    subst hL
    obtain ⟨e1, _⟩ := holder_alloc_eq c wf hd ok (lock_header s.heap) s.live F inv.lock env hok
    exact ⟨_, _, e1, (holder_alloc_lock c _ _).1 _ _ e1⟩

theorem C21_lock_balance_witness :
    (∃ s h1, Reachable cfg64 class2 s ∧ s.heap.header.lock = 0 ∧
        pool_free_entry cfg64 s.heap 16424 = some h1 ∧ releases h1.log = [16384] ∧
        h1.header.lock = 0) ∧
      (∃ r h1, pool_alloc_entry cfg64 (Heap.init class2) envA = Outcome.ret r h1 ∧
        h1.header.lock = 0) ∧
      (∃ r h1, pool_alloc_entry cfg64 (Heap.init class2) envC = Outcome.ret r h1 ∧
        requests h1.log = 2 ∧ h1.header.lock = 0) ∧
      (∃ s r h1, Reachable cfg64 class2 s ∧ s.heap.header.first = 0 ∧
        pool_alloc_entry cfg64 s.heap envG = Outcome.ret r h1 ∧ requests h1.log = 1 ∧
        h1.header.lock = 0) ∧
      (∃ b h1, pool_holder_alloc cfg64 (lock_header (Heap.init class2)) envC
          = Outcome.ret b h1 ∧ h1.header.lock = 1) ∧
      (∃ h1 h0, pool_alloc_entry cfg64 (Heap.init class2) envD = Outcome.fatal h1 ∧
        h0.header.lock = 0 ∧ h1 = emit h0 (Event.memerror h0.header.lock)) ∧
      ∃ h1 h0, pool_alloc_entry cfg64 (Heap.init class2) envE = Outcome.fatal h1 ∧
        h0.header.lock = 0 ∧ h1 = emit h0 (Event.memerror h0.header.lock) :=
  ⟨(fun (s : Sim) (hs : Reachable cfg64 class2 s) (hl : s.heap.header.lock = 0) (h1 : Heap)
        (e : pool_free_entry cfg64 s.heap 16424 = some h1) (hrel : releases h1.log = [16384]) =>
        ⟨s, h1, hs, hl, e, hrel, (C21_lock_balance cfg64).1 s.heap 16424 h1 e⟩)
      _ ⟨[Op.alloc envA, Op.alloc envA, Op.alloc envB, Op.free 24424], by decide, rfl⟩
      (by decide) _ rfl (by decide),
    ⟨_, _, rfl, (C21_lock_balance cfg64).2.1 (Heap.init class2) envA _ _ rfl⟩,
    ⟨_, _, rfl, by decide, (C21_lock_balance cfg64).2.1 (Heap.init class2) envC _ _ rfl⟩,
    (fun (s : Sim) (hs : Reachable cfg64 class2 s) (hf : s.heap.header.first = 0) (r : Nat)
        (h1 : Heap) (e : pool_alloc_entry cfg64 s.heap envG = Outcome.ret r h1)
        (hreq : requests h1.log = 1) =>
        ⟨s, r, h1, hs, hf, e, hreq, (C21_lock_balance cfg64).2.1 s.heap envG r h1 e⟩)
      _ ⟨[Op.alloc envA, Op.alloc envA], by decide, rfl⟩ (by decide) _ _ rfl (by decide),
    ⟨_, _, rfl,
      (C21_lock_balance cfg64).2.2.1 (lock_header (Heap.init class2)) envC _ _ rfl⟩,
    (((C21_lock_balance cfg64).2.2.2.2.1 (Heap.init class2) envD _ rfl).elim
      fun h0 hh => ⟨_, h0, rfl, hh⟩),
    (((C21_lock_balance cfg64).2.2.2.2.1 (Heap.init class2) envE _ rfl).elim
      fun h0 hh => ⟨_, h0, rfl, hh⟩)⟩

/-- C22, the code at the failing input.  On `class2` two allocations fill the holder at
16384 and empty the ready list.  In the third `pool_alloc_entry` the first request
fails, the reclaim callback frees the live entry 24424 (a valid `pool_free_entry`,
which links the holder at 16384 back as `header->first`) and succeeds, and the second
request is granted the chunk at 32768.  `pool_holder_alloc` then installs the new
holder as `header->first` although the ready list is not empty: after the call the
holder at 16384 is held with `free = 1`, but the list from `header->first` is the new
holder alone.  When the collection run by `vm_malloc_prepare` frees the same entry, the
first-request path finds `header->first` set and returns that holder with no request.
After the faulty call, the free of entry 16424 releases the holder at 16384 and, through
its stale links, empties the ready list although the holder at 32768 has a free
entry. -/
theorem C22_retry_overwrites :
    ∃ s r h1 h2, Reachable cfg64 class2 s ∧ s.live = [24424, 16424] ∧
      s.heap.chunks = [16384] ∧ s.heap.free 16384 = 0 ∧ s.heap.header.first = 0 ∧
      envF.prepare_frees = [] ∧ envF.malloc1 = 0 ∧ envF.gc_ok = true ∧
      frees_ok s.live envF.gc_frees ∧ fresh_chunk cfg64 s.heap envF.malloc2 ∧
      pool_alloc_entry cfg64 s.heap envF = Outcome.ret r h1 ∧ r = 32808 ∧
      h1.log = s.heap.log ++
        [Event.prepare 0, Event.request 1 16040 0, Event.reclaim 0 true,
          Event.request 0 16040 32768] ∧
      h1.chunks = [32768, 16384] ∧ h1.free 16384 = 1 ∧ h1.freep 16384 = 24424 ∧
      h1.header.first = 32768 ∧ h1.fore 32768 = 0 ∧
      follow h1.fore 2 h1.header.first = [32768] ∧
      (∃ r1 g1, frees_ok s.live envG.prepare_frees ∧
        pool_alloc_entry cfg64 s.heap envG = Outcome.ret r1 g1 ∧ r1 = 24424 ∧
        g1.chunks = [16384] ∧ g1.log = s.heap.log ++ [Event.prepare 0]) ∧
      pool_free_entry cfg64 h1 16424 = some h2 ∧ h2.chunks = [32768] ∧
      h2.free 32768 = 1 ∧ h2.header.first = 0 :=
  ⟨_, _, _, _, ⟨[Op.alloc envA, Op.alloc envA], by decide, rfl⟩, by decide, by decide,
    by decide, by decide, rfl, rfl, rfl, by decide, by decide, rfl, by decide, by decide,
    by decide, by decide, by decide, by decide, by decide, by decide,
    ⟨_, _, by decide, rfl, by decide, by decide, by decide⟩,
    rfl, by decide, by decide, by decide⟩

end PoolAlloc
